import Mathlib

/-! Constant-product swap arithmetic and the two-leg arbitrage search.

A shallow embedding of `lib/ethmarket/ethmarket.go` and of the opportunity
search of `metis_simple_arbitrage/markets.go`.

Conventions of the embedding:

* a Go `*big.Int` is a Lean `Int`;
* a Go `int64` is an `Int` reduced by `wrapInt64` after every arithmetic step;
* a call that panics in Go (division by zero, square root of a negative
  number, index out of range) yields `none`.
-/

namespace MetisArb

/-! ## Machine integers and `math/big` -/

/-- Two's-complement reduction of an integer to the range of a Go `int64`. -/
def wrapInt64 (x : Int) : Int :=
  (x + 2 ^ 63) % 2 ^ 64 - 2 ^ 63

/-- Go `big.Int.Div`: Euclidean division, with a run-time panic on a zero
divisor. -/
def bigDiv (x y : Int) : Option Int :=
  if y = 0 then none else some (Int.ediv x y)

/-- The integer square root of `n`, two binary digits of `n` at a time: the
root of `n` is twice the root of `n / 4`, plus one when that still fits.  The
first argument bounds the number of steps. -/
def natSqrtAux : Nat → Nat → Nat
  | 0, _ => 0
  | fuel + 1, n =>
    if n = 0 then 0
    else
      let r := 2 * natSqrtAux fuel (n / 4)
      if (r + 1) * (r + 1) ≤ n then r + 1 else r

/-- The integer square root `⌊√n⌋` (equal to `Nat.sqrt n`, see `natSqrt_eq`),
in a form that evaluates by reduction. -/
def natSqrt (n : Nat) : Nat := natSqrtAux n n

/-- Go `big.Int.Sqrt`: the largest integer whose square does not exceed `x`,
with a run-time panic when `x` is negative. -/
def bigSqrt (x : Int) : Option Int :=
  if x < 0 then none else some (Int.ofNat (natSqrt x.toNat))

/-! ## `lib/ethmarket` -/

/-- The constant `FEE_DENOMINATOR` of `ethmarket.go`. -/
def FEE_DENOMINATOR : Int := 10000

/-- Function `GetAmountOut` of `ethmarket.go`. -/
def GetAmountOut (reserveIn reserveOut tokenIn feePerTenThousands : Int) : Option Int :=
  let fee := wrapInt64 (FEE_DENOMINATOR - feePerTenThousands)
  let tokenInWithFee := tokenIn * fee
  let numerator := tokenInWithFee * reserveOut
  let denominator := FEE_DENOMINATOR * reserveIn + tokenInWithFee
  bigDiv numerator denominator

/-- Function `GetAmountIn` of `ethmarket.go`. -/
def GetAmountIn (reserveIn reserveOut tokenOut feePerTenThousands : Int) : Option Int :=
  let fee := wrapInt64 (FEE_DENOMINATOR - feePerTenThousands)
  let numerator := tokenOut * FEE_DENOMINATOR * reserveIn
  let denominator := (reserveOut - tokenOut) * fee
  (bigDiv numerator denominator).map (fun q => q + 1)

/-! ## `github.com/shopspring/decimal`

The arbitrary-precision decimal type used by the optimal-size solver.  Only the
operations the solver calls are embedded. -/

/-- A `decimal.Decimal`: the number `value * 10 ^ exp`. -/
structure Decimal where
  value : Int
  exp : Int
  deriving DecidableEq, Repr

namespace Decimal

/-- The library constant `DivisionPrecision`: the number of digits after the
decimal point that `Div` keeps. -/
def DivisionPrecision : Int := 16

/-- Library function `New`. -/
def New (value exp : Int) : Decimal := ⟨value, exp⟩

/-- Library function `NewFromBigInt`. -/
def NewFromBigInt (value exp : Int) : Decimal := ⟨value, exp⟩

/-- The value of `decimal.NewFromFloat(float64(k) / float64(FEE_DENOMINATOR))`
for an integer `k` with `0 ≤ k ≤ 10000`.  The double nearest to `k / 10000`
has `k / 10000` as its shortest round-tripping decimal expansion, which is the
number `NewFromFloat` returns.  It is kept here with exponent `-4`; the library
drops trailing zeros, which changes the representation but not the number, and
no operation below depends on the representation of its arguments. -/
def NewFromFloatOverFeeDenominator (k : Int) : Decimal := ⟨k, -4⟩

/-- Library method `rescale`: the same number with exponent `exp`, truncating
toward zero (`big.Int.Quo`) when digits are dropped. -/
def rescale (d : Decimal) (exp : Int) : Decimal :=
  if d.exp = exp then d
  else
    let diff := (exp - d.exp).natAbs
    if exp > d.exp then ⟨Int.tdiv d.value (10 ^ diff), exp⟩
    else ⟨d.value * 10 ^ diff, exp⟩

/-- Library function `RescalePair`: both numbers at the smaller exponent. -/
def RescalePair (d1 d2 : Decimal) : Decimal × Decimal :=
  if d1.exp = d2.exp then (d1, d2)
  else
    let baseScale := min d1.exp d2.exp
    if baseScale ≠ d1.exp then (d1.rescale baseScale, d2)
    else (d1, d2.rescale baseScale)

/-- Library method `Add`. -/
def Add (d d2 : Decimal) : Decimal :=
  let p := RescalePair d d2
  ⟨p.1.value + p.2.value, p.1.exp⟩

/-- Library method `Sub`. -/
def Sub (d d2 : Decimal) : Decimal :=
  let p := RescalePair d d2
  ⟨p.1.value - p.2.value, p.1.exp⟩

/-- Library method `Neg`. -/
def Neg (d : Decimal) : Decimal := ⟨-d.value, d.exp⟩

/-- Library method `Abs`. -/
def Abs (d : Decimal) : Decimal := ⟨Int.ofNat d.value.natAbs, d.exp⟩

/-- Library method `Mul`. -/
def Mul (d d2 : Decimal) : Decimal := ⟨d.value * d2.value, d.exp + d2.exp⟩

/-- Library method `Pow` at a non-negative integer exponent, where it is an
exact repeated product. -/
def Pow (d : Decimal) : Nat → Decimal
  | 0 => New 1 0
  | n + 1 => (Pow d n).Mul d

/-- Library method `Cmp`: `-1`, `0` or `1`. -/
def Cmp (d d2 : Decimal) : Int :=
  let p := RescalePair d d2
  if p.1.value < p.2.value then -1 else if p.1.value = p.2.value then 0 else 1

/-- Library method `QuoRem`: quotient truncated to a multiple of
`10 ^ (-precision)` and the remainder; panics on a zero divisor. -/
def QuoRem (d d2 : Decimal) (precision : Int) : Option (Decimal × Decimal) :=
  if d2.value = 0 then none
  else
    let scale := -precision
    let e := d.exp - d2.exp - scale
    let aa := if e < 0 then d.value else d.value * 10 ^ e.natAbs
    let bb := if e < 0 then d2.value * 10 ^ e.natAbs else d2.value
    let scalerest := if e < 0 then d.exp else scale + d2.exp
    some (⟨Int.tdiv aa bb, scale⟩, ⟨Int.tmod aa bb, scalerest⟩)

/-- Library method `DivRound`: the quotient rounded to a multiple of
`10 ^ (-precision)`, a final digit 5 rounding away from zero. -/
def DivRound (d d2 : Decimal) (precision : Int) : Option Decimal :=
  match QuoRem d d2 precision with
  | none => none
  | some (q, r) =>
    let rv2 := 2 * Int.ofNat r.value.natAbs
    let r2 : Decimal := ⟨rv2, r.exp + precision⟩
    let c := Cmp r2 d2.Abs
    if c < 0 then some q
    else if Int.sign d.value * Int.sign d2.value < 0 then some (q.Sub (New 1 (-precision)))
    else some (q.Add (New 1 (-precision)))

/-- Library method `Div`. -/
def Div (d d2 : Decimal) : Option Decimal :=
  DivRound d d2 DivisionPrecision

/-- Library method `BigInt`: the integer part, truncated toward zero. -/
def BigInt (d : Decimal) : Int := (d.rescale 0).value

/-- The rational number a `Decimal` denotes. -/
def toRat (d : Decimal) : ℚ := (d.value : ℚ) * (10 : ℚ) ^ d.exp

end Decimal

/-- Function `CalculateOptimalTokenInTwoFees` of `ethmarket.go`. -/
def CalculateOptimalTokenInTwoFees (reserve1In reserve1Out reserve2In reserve2Out
    feePerTenThousandsReserve1 feePerTenThousandsReserve2 : Int) : Option Decimal :=
  let fee1 := Decimal.NewFromFloatOverFeeDenominator
    (wrapInt64 (FEE_DENOMINATOR - feePerTenThousandsReserve1))
  let fee2 := Decimal.NewFromFloatOverFeeDenominator
    (wrapInt64 (FEE_DENOMINATOR - feePerTenThousandsReserve2))
  let reserve1InDec := Decimal.NewFromBigInt reserve1In 0
  let reserve1OutDec := Decimal.NewFromBigInt reserve1Out 0
  let reserve2InDec := Decimal.NewFromBigInt reserve2In 0
  let reserve2OutDec := Decimal.NewFromBigInt reserve2Out 0
  let allReservesMul :=
    (((((reserve1InDec.Mul reserve1OutDec).Mul reserve2InDec).Mul reserve2OutDec).Mul
      (fee1.Pow 3)).Mul fee2)
  match bigSqrt allReservesMul.BigInt with
  | none => none
  | some SqrtAllReservesMul =>
    let term1 := ((fee1.Mul reserve2InDec).Mul reserve1InDec).Neg
    let term2 := Decimal.NewFromBigInt SqrtAllReservesMul 0
    let term3 := (reserve2InDec.Mul (fee1.Pow 2)).Add
      ((fee2.Mul reserve1OutDec).Mul (fee1.Pow 2))
    (term1.Add term2).Div term3

/-- The integer the search uses as trade size:
`ethmarket.CalculateOptimalTokenInTwoFees(...).BigInt()`. -/
def optimalSize (reserve1In reserve1Out reserve2In reserve2Out
    feePerTenThousandsReserve1 feePerTenThousandsReserve2 : Int) : Option Int :=
  (CalculateOptimalTokenInTwoFees reserve1In reserve1Out reserve2In reserve2Out
    feePerTenThousandsReserve1 feePerTenThousandsReserve2).map Decimal.BigInt

/-! ## `metis_simple_arbitrage`: registry state

The package keeps its registry in global variables; here they are the fields of
a `State` value that every function takes and returns.  Values that are fixed
at start-up, and constants whose declaration is not part of the sources at
hand, are the fields of a `Config`. -/

/-- A `common.Address`. -/
abbrev Address := Nat

/-- The struct `models.UniswappyV2Pair`, with the fields `markets.go` uses.
Both cached prices are set by `priceMarkets` before the first search. -/
structure UniswappyV2Pair where
  MarketAdress : Address
  Factory : Address
  FeePerTenThousands : Int
  TokenAddresses : Address × Address
  WethAddress : Address
  NativeIndex : Nat
  TokenIndex : Nat
  TokenReserveIndex : Nat
  SellWethPrice : Int
  BuyWethPrice : Int
  deriving DecidableEq, Repr

/-- The struct `FlashSwapExecutorV1.Arb`. -/
structure Arb where
  BuyFromPair : Address
  NativeInAmount : Int
  TokenAmount : Int
  NativeOutAmount : Int
  SellToPair : Address
  Profit : Int
  BuyFromFee : Int
  SellToFee : Int
  BuyFromIsWMetis : Bool
  SellToIsWMetis : Bool
  deriving DecidableEq, Repr

/-- The struct `models.MarketMapping`. -/
structure MarketMapping where
  TokenAddress : Address
  Index : Nat
  deriving DecidableEq, Repr

/-- One element of `allMarketReserves`, a `[3]*big.Int`: the two reserves and
the slot that carries the freshness flag. -/
structure ReserveRow where
  r0 : Int
  r1 : Int
  flag : Int
  deriving DecidableEq, Repr

/-- A crossed market `[2]models.UniswappyV2Pair`: component 0 is the reference
pair (the pool sold to), component 1 the pair bought from. -/
abbrev CrossedMarket := UniswappyV2Pair × UniswappyV2Pair

/-- Start-up values and constants declared outside the sources at hand. -/
structure Config where
  BASE_WEI : Int
  MIN_NATIVE_AMOUNT_WEI : Int
  MIN_PROFIT_WEI : Int
  MIN_PROFIT_WEI_FOLLOWUP : Int
  /-- The address `common.HexToAddress(WMETIS_TOKEN_ADDRESS)`. -/
  WMETIS_TOKEN_ADDRESS : Address
  /-- The test `a.Hex() == HERMES_FACTORY_ADDRESS` on an address `a`. -/
  hexIsHermesFactory : Address → Bool
  /-- The lookup `uniswapV2FactoryAddressFeePerTenThousands[a.Hex()]` on an
  address `a`; a key that is absent from the map reads as 0. -/
  feeByHex : Address → Int

/-- The mutable globals of the package. -/
structure State where
  allMarketAddresses : List Address
  allMarketReserves : List ReserveRow
  marketPairsByToken : List (Address × List UniswappyV2Pair)
  marketMapping : List (Address × MarketMapping)
  deriving DecidableEq, Repr

/-- The value of `STALE_RESERVE` (set in `RunMetisSimpleArbitrageBot`). -/
def STALE_RESERVE : Int := 0

/-- The value of `UPDATED_RESERVE` (set in `RunMetisSimpleArbitrageBot`). -/
def UPDATED_RESERVE : Int := 1

/-- Indexing of a `[3]*big.Int`; an index outside `0..2` panics. -/
def ReserveRow.get (row : ReserveRow) (j : Nat) : Option Int :=
  match j with
  | 0 => some row.r0
  | 1 => some row.r1
  | 2 => some row.flag
  | _ => none

/-- Assignment to a slot of a `[3]*big.Int`. -/
def ReserveRow.set (row : ReserveRow) (j : Nat) (v : Int) : Option ReserveRow :=
  match j with
  | 0 => some { row with r0 := v }
  | 1 => some { row with r1 := v }
  | 2 => some { row with flag := v }
  | _ => none

/-- The read `allMarketReserves[idx][j]`. -/
def reserveAt (s : State) (idx j : Nat) : Option Int :=
  match s.allMarketReserves[idx]? with
  | none => none
  | some row => row.get j

/-- The write `allMarketReserves[idx][j] = v`. -/
def setReserveAt (s : State) (idx j : Nat) (v : Int) : Option State :=
  match s.allMarketReserves[idx]? with
  | none => none
  | some row =>
    match row.set j v with
    | none => none
    | some row' => some { s with allMarketReserves := s.allMarketReserves.set idx row' }

/-- The read `marketPairsByToken[token]`; an absent key reads as the empty
slice. -/
def pairsOf (s : State) (token : Address) : List UniswappyV2Pair :=
  match s.marketPairsByToken.lookup token with
  | none => []
  | some pairs => pairs

/-- Replacement of the slice stored under the first entry with key `token`. -/
def setPairsIn (token : Address) (pairs : List UniswappyV2Pair) :
    List (Address × List UniswappyV2Pair) → List (Address × List UniswappyV2Pair)
  | [] => []
  | (t, ps) :: rest =>
    if token = t then (t, pairs) :: rest else (t, ps) :: setPairsIn token pairs rest

/-- The two writes `marketPairsByToken[token][count].SellWethPrice = sell` and
`marketPairsByToken[token][count].BuyWethPrice = buy`. -/
def setPrices (s : State) (token : Address) (count : Nat) (sell buy : Int) : State :=
  let pairs := (pairsOf s token).modify
    (fun p => { p with SellWethPrice := sell, BuyWethPrice := buy }) count
  { s with marketPairsByToken := setPairsIn token pairs s.marketPairsByToken }

/-- The expression `pair.TokenAddresses[pair.TokenIndex]` on a `[2]common.Address`. -/
def tokenAddressOf (pair : UniswappyV2Pair) : Option Address :=
  match pair.TokenIndex with
  | 0 => some pair.TokenAddresses.1
  | 1 => some pair.TokenAddresses.2
  | _ => none

/-- Function `isStaleReserves` of `markets.go`; the second row is read only
when the first is stale. -/
def isStaleReserves (s : State) (buyFromPair sellToPair : UniswappyV2Pair) : Option Bool :=
  match reserveAt s buyFromPair.TokenReserveIndex 2 with
  | none => none
  | some a =>
    if a = STALE_RESERVE then
      match reserveAt s sellToPair.TokenReserveIndex 2 with
      | none => none
      | some b => some (decide (b = STALE_RESERVE))
    else some false

/-! ## `metis_simple_arbitrage`: opportunity search -/

/-- The inner loop of the crossing phase of `evaluateMarketsRecursive`: the
pairs crossed with one reference pair, in order. -/
def crossWith (s : State) (refPair : UniswappyV2Pair) :
    List UniswappyV2Pair → Option (List CrossedMarket)
  | [] => some []
  | pair :: rest =>
    match isStaleReserves s refPair pair with
    | none => none
    | some stale =>
      match crossWith s refPair rest with
      | none => none
      | some tail =>
        if stale then some tail
        else if refPair.MarketAdress = pair.MarketAdress then some tail
        else if pair.SellWethPrice > refPair.BuyWethPrice then some ((refPair, pair) :: tail)
        else some tail

/-- The outer loop of the crossing phase over the reference pairs `refs`, each
crossed with every pair of `pairs`. -/
def crossFrom (s : State) (pairs : List UniswappyV2Pair) :
    List UniswappyV2Pair → Option (List CrossedMarket)
  | [] => some []
  | refPair :: rest =>
    match crossWith s refPair pairs with
    | none => none
    | some head =>
      match crossFrom s pairs rest with
      | none => none
      | some tail => some (head ++ tail)

/-- The crossing phase: `crossedMarkets` for one token's pair list. -/
def crossMarkets (s : State) (pairs : List UniswappyV2Pair) : Option (List CrossedMarket) :=
  crossFrom s pairs pairs

/-- The sizing of one crossed market in the selection loop: `optimalSize`,
`tokensOutFromBuyingSize`, `proceedsFromSellingTokens` and `profit`. -/
def sizeCrossedMarket (s : State) (cm : CrossedMarket) : Option (Int × Int × Int × Int) :=
  match reserveAt s cm.2.TokenReserveIndex cm.2.NativeIndex,
        reserveAt s cm.2.TokenReserveIndex cm.2.TokenIndex,
        reserveAt s cm.1.TokenReserveIndex cm.1.TokenIndex,
        reserveAt s cm.1.TokenReserveIndex cm.1.NativeIndex with
  | some buyNative, some buyToken, some sellToken, some sellNative =>
    match optimalSize buyNative buyToken sellToken sellNative
        cm.2.FeePerTenThousands cm.1.FeePerTenThousands with
    | none => none
    | some size =>
      match GetAmountOut buyNative buyToken size cm.2.FeePerTenThousands with
      | none => none
      | some tokensOutFromBuyingSize =>
        match GetAmountOut sellToken sellNative tokensOutFromBuyingSize
            cm.1.FeePerTenThousands with
        | none => none
        | some proceedsFromSellingTokens =>
          some (size, tokensOutFromBuyingSize, proceedsFromSellingTokens,
            proceedsFromSellingTokens - size)
  | _, _, _, _ => none

/-- The `FlashSwapExecutorV1.Arb` literal of the selection loop; the fee fields
are `uint8` conversions. -/
def mkArb (cfg : Config) (cm : CrossedMarket) (size tokensOut proceeds profit : Int) : Arb :=
  { BuyFromPair := cm.2.MarketAdress
    NativeInAmount := size
    TokenAmount := tokensOut
    NativeOutAmount := proceeds
    SellToPair := cm.1.MarketAdress
    Profit := profit
    BuyFromFee := cm.2.FeePerTenThousands % 256
    SellToFee := cm.1.FeePerTenThousands % 256
    BuyFromIsWMetis := decide (cm.2.WethAddress = cfg.WMETIS_TOKEN_ADDRESS)
    SellToIsWMetis := decide (cm.1.WethAddress = cfg.WMETIS_TOKEN_ADDRESS) }

/-- The threshold test of the selection loop. -/
def exceedsThreshold (cfg : Config) (isFollowUp : Bool) (profit : Int) : Bool :=
  (decide (profit > cfg.MIN_PROFIT_WEI) && !isFollowUp)
    || (decide (profit > cfg.MIN_PROFIT_WEI_FOLLOWUP) && isFollowUp)

/-- The selection loop over `crossedMarkets`, with its loop variables
`profitOpportunityFound`, `bestArb` with `bestArbCrossedMarkets`, and
`bestProfit` (a nil pointer until assigned; comparing against nil panics).  The
result is what is appended to `arbs` after the loop. -/
def selectLoop (cfg : Config) (s : State) (isFollowUp : Bool) :
    List CrossedMarket → Bool → Option (Arb × CrossedMarket) → Option Int →
      Option (Option (Arb × CrossedMarket))
  | [], profitOpportunityFound, bestArb, _ =>
    some (if profitOpportunityFound then bestArb else none)
  | cm :: rest, profitOpportunityFound, bestArb, bestProfit =>
    match sizeCrossedMarket s cm with
    | none => none
    | some (size, tokensOut, proceeds, profit) =>
      if exceedsThreshold cfg isFollowUp profit then
        if !profitOpportunityFound then
          some (some (mkArb cfg cm size tokensOut proceeds profit, cm))
        else
          match bestProfit with
          | none => none
          | some best =>
            if profit > best then
              selectLoop cfg s isFollowUp rest profitOpportunityFound
                (some (mkArb cfg cm size tokensOut proceeds profit, cm)) (some profit)
            else selectLoop cfg s isFollowUp rest profitOpportunityFound bestArb bestProfit
      else selectLoop cfg s isFollowUp rest profitOpportunityFound bestArb bestProfit

/-- Crossing and selection for one token's pair list: the arb, with its crossed
market, that the search appends for this token, if any. -/
def evaluateToken (cfg : Config) (s : State) (isFollowUp : Bool)
    (pairs : List UniswappyV2Pair) : Option (Option (Arb × CrossedMarket)) :=
  match crossMarkets s pairs with
  | none => none
  | some crossedMarkets => selectLoop cfg s isFollowUp crossedMarkets false none none

/-- The position of the first pair with the given market address, as found by
the `for count, pair := range ...` loops of `updateReserveByArb`. -/
def findMarket (addr : Address) : List UniswappyV2Pair → Nat → Option (Nat × UniswappyV2Pair)
  | [], _ => none
  | pair :: rest, count =>
    if pair.MarketAdress = addr then some (count, pair) else findMarket addr rest (count + 1)

/-- The price refresh at the end of each leg of `updateReserveByArb`. -/
def repriceAt (cfg : Config) (s : State) (token : Address) (count : Nat)
    (pair : UniswappyV2Pair) : Option State :=
  match reserveAt s pair.TokenReserveIndex pair.NativeIndex,
        reserveAt s pair.TokenReserveIndex pair.TokenIndex with
  | some native, some quote =>
    match GetAmountOut native quote cfg.BASE_WEI pair.FeePerTenThousands with
    | none => none
    | some sell =>
      match GetAmountIn quote native cfg.BASE_WEI pair.FeePerTenThousands with
      | none => none
      | some buy => some (setPrices s token count sell buy)
  | _, _ => none

/-- The quantity a Hermes pool's reserve changes by: `amount` less
`amount / (10000 - fee)`, where `fee` is read from the fee map under the hex
form of the pair's quote token address. -/
def hermesDeduction (cfg : Config) (token : Address) (amount : Int) : Option Int :=
  bigDiv amount (wrapInt64 (10000 - cfg.feeByHex token))

/-- First half of `updateReserveByArb`: the leg on the pair bought from,
`crossedMarket[1]`. -/
def updateBuyLeg (cfg : Config) (arb : Arb) (buy : UniswappyV2Pair) (isUndo : Bool)
    (s : State) : Option State :=
  match tokenAddressOf buy with
  | none => none
  | some token =>
    match findMarket buy.MarketAdress (pairsOf s token) 0 with
    | none => some s
    | some (count, pair) =>
      match reserveAt s buy.TokenReserveIndex buy.NativeIndex with
      | none => none
      | some native =>
        let newNative : Option Int :=
          if !isUndo then
            if cfg.hexIsHermesFactory buy.Factory then
              (hermesDeduction cfg token arb.NativeInAmount).map
                (fun d => native + arb.NativeInAmount - d)
            else some (native + arb.NativeInAmount)
          else
            if cfg.hexIsHermesFactory buy.Factory then
              (hermesDeduction cfg token arb.NativeInAmount).map
                (fun d => native + d - arb.NativeInAmount)
            else some (native - arb.NativeInAmount)
        match newNative with
        | none => none
        | some n =>
          match setReserveAt s buy.TokenReserveIndex buy.NativeIndex n with
          | none => none
          | some s1 =>
            match reserveAt s1 buy.TokenReserveIndex buy.TokenIndex with
            | none => none
            | some quote =>
              match setReserveAt s1 buy.TokenReserveIndex buy.TokenIndex
                  (if !isUndo then quote - arb.TokenAmount else quote + arb.TokenAmount) with
              | none => none
              | some s2 =>
                match setReserveAt s2 buy.TokenReserveIndex 2 UPDATED_RESERVE with
                | none => none
                | some s3 => repriceAt cfg s3 token count pair

/-- Second half of `updateReserveByArb`: the leg on the pair sold to,
`crossedMarket[0]`. -/
def updateSellLeg (cfg : Config) (arb : Arb) (sell : UniswappyV2Pair) (isUndo : Bool)
    (s : State) : Option State :=
  match tokenAddressOf sell with
  | none => none
  | some token =>
    match findMarket sell.MarketAdress (pairsOf s token) 0 with
    | none => some s
    | some (count, pair) =>
      match reserveAt s sell.TokenReserveIndex sell.NativeIndex with
      | none => none
      | some native =>
        match setReserveAt s sell.TokenReserveIndex sell.NativeIndex
            (if !isUndo then native - arb.NativeOutAmount else native + arb.NativeOutAmount) with
        | none => none
        | some s1 =>
          match reserveAt s1 sell.TokenReserveIndex sell.TokenIndex with
          | none => none
          | some quote =>
            let newQuote : Option Int :=
              if !isUndo then
                if cfg.hexIsHermesFactory sell.Factory then
                  (hermesDeduction cfg token arb.TokenAmount).map
                    (fun d => quote + arb.TokenAmount - d)
                else some (quote + arb.TokenAmount)
              else
                if cfg.hexIsHermesFactory sell.Factory then
                  (hermesDeduction cfg token arb.TokenAmount).map
                    (fun d => quote + d - arb.TokenAmount)
                else some (quote - arb.TokenAmount)
            match newQuote with
            | none => none
            | some q =>
              match setReserveAt s1 sell.TokenReserveIndex sell.TokenIndex q with
              | none => none
              | some s2 =>
                match setReserveAt s2 sell.TokenReserveIndex 2 UPDATED_RESERVE with
                | none => none
                | some s3 => repriceAt cfg s3 token count pair

/-- Function `updateReserveByArb` of `markets.go`. -/
def updateReserveByArb (cfg : Config) (arb : Arb) (crossedMarket : CrossedMarket)
    (isUndo : Bool) (s : State) : Option State :=
  match updateBuyLeg cfg arb crossedMarket.2 isUndo s with
  | none => none
  | some s1 => updateSellLeg cfg arb crossedMarket.1 isUndo s1

/-- The loops `for i := 0; i < len(arbs); i++ { updateReserveByArb(arbs[i],
arbsCrossedMarkets[i], isUndo) }`. -/
def applyArbs (cfg : Config) (isUndo : Bool) :
    List (Arb × CrossedMarket) → State → Option State
  | [], s => some s
  | (arb, cm) :: rest, s =>
    match updateReserveByArb cfg arb cm isUndo s with
    | none => none
    | some s1 => applyArbs cfg isUndo rest s1

/-- Function `evaluateMarketsRecursive` of `markets.go`; the result carries the
returned slice and the state of the globals on return. -/
def evaluateMarketsRecursive (cfg : Config) (isFollowUp : Bool) (tokenAddress : Address)
    (depth : Int) (s : State) : Option (List Arb × State) :=
  match evaluateToken cfg s isFollowUp (pairsOf s tokenAddress) with
  | none => none
  | some found =>
    let arbs := found.toList
    if _h : arbs.length > 0 ∧ depth < 100 then
      match applyArbs cfg false arbs s with
      | none => none
      | some s1 =>
        match evaluateMarketsRecursive cfg true tokenAddress (depth + 1) s1 with
        | none => none
        | some (followUpArbs, s2) =>
          match applyArbs cfg true arbs s2 with
          | none => none
          | some s3 => some (arbs.map Prod.fst ++ followUpArbs, s3)
    else some (arbs.map Prod.fst, s)
termination_by (100 - depth).toNat
decreasing_by omega

/-- The loop `for _, pairs := range marketPairsByToken` of
`evaluateMarketsRecursiveAll`, visiting the map's entries in the order of the
list that represents it. -/
def evaluateAllTokens (cfg : Config) (s : State) (isFollowUp : Bool) :
    List (Address × List UniswappyV2Pair) → Option (List (Arb × CrossedMarket))
  | [] => some []
  | entry :: rest =>
    match evaluateToken cfg s isFollowUp entry.2 with
    | none => none
    | some found =>
      match evaluateAllTokens cfg s isFollowUp rest with
      | none => none
      | some tail => some (found.toList ++ tail)

/-- Function `evaluateMarketsRecursiveAll` of `markets.go`. -/
def evaluateMarketsRecursiveAll (cfg : Config) (isFollowUp : Bool) (depth : Int)
    (s : State) : Option (List Arb × State) :=
  match evaluateAllTokens cfg s isFollowUp s.marketPairsByToken with
  | none => none
  | some arbs =>
    if _h : arbs.length > 0 ∧ depth < 100 then
      match applyArbs cfg false arbs s with
      | none => none
      | some s1 =>
        match evaluateMarketsRecursiveAll cfg true (depth + 1) s1 with
        | none => none
        | some (followUpArbs, s2) =>
          match applyArbs cfg true arbs s2 with
          | none => none
          | some s3 => some (arbs.map Prod.fst ++ followUpArbs, s3)
    else some (arbs.map Prod.fst, s)
termination_by (100 - depth).toNat
decreasing_by omega

/-! ## `metis_simple_arbitrage`: reserve updates, discovery and ordering -/

/-- A decoded `Sync` log (`types.Log` with its unpacked `ReservesSyncEvent`):
the pool that emitted it and the two reserves it carries. -/
structure SyncLog where
  Address : MetisArb.Address
  Reserve0 : Int
  Reserve1 : Int
  deriving DecidableEq, Repr

/-- Function `markReservesAsStale` of `markets.go`. -/
def markReservesAsStale (s : State) : State :=
  { s with allMarketReserves :=
      s.allMarketReserves.map (fun row => { row with flag := STALE_RESERVE }) }

/-- Function `updateReserves` of `markets.go`: the answer `rows` of the query
helper's `GetReservesByPairs(allMarketAddresses)` replaces the reserve vector,
third slot included. -/
def updateReserves (rows : List ReserveRow) (s : State) : State :=
  { s with allMarketReserves := rows }

/-- The read `marketMapping[addr]`; an absent key reads as the zero value. -/
def mappingOf (s : State) (addr : Address) : MarketMapping :=
  match s.marketMapping.lookup addr with
  | none => ⟨0, 0⟩
  | some m => m

/-- Function `updateReservesByEvent` of `markets.go`; the result carries the
returned token address and the state of the globals on return. -/
def updateReservesByEvent (cfg : Config) (vLog : SyncLog) (s : State) :
    Option (Address × State) :=
  let mapping := mappingOf s vLog.Address
  match (pairsOf s mapping.TokenAddress)[mapping.Index]? with
  | none => none
  | some pair =>
    match setReserveAt s pair.TokenReserveIndex 0 vLog.Reserve0 with
    | none => none
    | some s1 =>
      match setReserveAt s1 pair.TokenReserveIndex 1 vLog.Reserve1 with
      | none => none
      | some s2 =>
        match setReserveAt s2 pair.TokenReserveIndex 2 UPDATED_RESERVE with
        | none => none
        | some s3 =>
          match repriceAt cfg s3 mapping.TokenAddress mapping.Index pair with
          | none => none
          | some s4 => some (mapping.TokenAddress, s4)

/-- The periodic branch of the event loop of `RunMetisSimpleArbitrageBot`
(`case <-ticker1s.C`): the batch refresh followed at once by the search over all
tokens. -/
def periodicPass (cfg : Config) (rows : List ReserveRow) (s : State) :
    Option (List Arb × State) :=
  evaluateMarketsRecursiveAll cfg false 0 (updateReserves rows s)

/-- The price refresh of one pair list in `priceMarkets`, from position `count`
on. -/
def priceFrom (cfg : Config) (token : Address) :
    List UniswappyV2Pair → Nat → State → Option State
  | [], _, s => some s
  | pair :: rest, count, s =>
    match repriceAt cfg s token count pair with
    | none => none
    | some s1 => priceFrom cfg token rest (count + 1) s1

/-- The loop over the tokens in `priceMarkets`. -/
def priceTokens (cfg : Config) : List (Address × List UniswappyV2Pair) → State → Option State
  | [], s => some s
  | entry :: rest, s =>
    match priceFrom cfg entry.1 entry.2 0 s with
    | none => none
    | some s1 => priceTokens cfg rest s1

/-- Function `priceMarkets` of `markets.go`. -/
def priceMarkets (cfg : Config) (s : State) : Option State :=
  priceTokens cfg s.marketPairsByToken s

/-- The key `sortMartkets` compares: the native-side reserve of a pair. -/
def nativeReserveOf (s : State) (pair : UniswappyV2Pair) : Option Int :=
  reserveAt s pair.TokenReserveIndex pair.NativeIndex

/-- Each pair with its sort key; reading a key of a pair whose reserve row does
not exist panics. -/
def keyPairs (s : State) : List UniswappyV2Pair → Option (List (Int × UniswappyV2Pair))
  | [] => some []
  | pair :: rest =>
    match nativeReserveOf s pair, keyPairs s rest with
    | some key, some tail => some ((key, pair) :: tail)
    | _, _ => none

/-- Go `sort.Slice` with the comparison `less(i, j) = key(i) > key(j)`: the
slice in descending key order.  `sort.Slice` promises an ordered rearrangement
and no particular order among equal keys; this embedding orders by insertion. -/
def sortSlice (keyed : List (Int × UniswappyV2Pair)) : List UniswappyV2Pair :=
  (keyed.insertionSort (fun a b => a.1 ≥ b.1)).map Prod.snd

/-- The body of the loop of `sortMartkets` for one pair list.  A slice of fewer
than two pairs is left alone without any comparison. -/
def sortPairs (s : State) (pairs : List UniswappyV2Pair) : Option (List UniswappyV2Pair) :=
  if pairs.length < 2 then some pairs
  else
    match keyPairs s pairs with
    | none => none
    | some keyed => some (sortSlice keyed)

/-- The loop of `sortMartkets` over the tokens. -/
def sortEntries (s : State) :
    List (Address × List UniswappyV2Pair) → Option (List (Address × List UniswappyV2Pair))
  | [] => some []
  | entry :: rest =>
    match sortPairs s entry.2, sortEntries s rest with
    | some pairs, some tail => some ((entry.1, pairs) :: tail)
    | _, _ => none

/-- Function `sortMartkets` of `markets.go`. -/
def sortMartkets (s : State) : Option State :=
  match sortEntries s s.marketPairsByToken with
  | none => none
  | some entries => some { s with marketPairsByToken := entries }

/-- The inner loop of `mapMarketAddresses`: the assignments
`marketMapping[pair.MarketAdress] = {token, count}` for one pair list, from
position `count` on.  An assignment puts the entry in front, where `lookup`
finds it first. -/
def mapPairs (token : Address) :
    List UniswappyV2Pair → Nat → List (Address × MarketMapping) → List (Address × MarketMapping)
  | [], _, m => m
  | pair :: rest, count, m =>
    mapPairs token rest (count + 1) ((pair.MarketAdress, ⟨token, count⟩) :: m)

/-- The outer loop of `mapMarketAddresses`. -/
def mapEntries :
    List (Address × List UniswappyV2Pair) → List (Address × MarketMapping) →
      List (Address × MarketMapping)
  | [], m => m
  | entry :: rest, m => mapEntries rest (mapPairs entry.1 entry.2 0 m)

/-- Function `mapMarketAddresses` of `markets.go`. -/
def mapMarketAddresses (s : State) : State :=
  { s with marketMapping := mapEntries s.marketPairsByToken s.marketMapping }

/-- The position of the first occurrence of `addr` in `allMarketAddresses`, as
the index-assigning loops of `filterMarkets` find it. -/
def addressIndex (addr : Address) : List Address → Option Nat
  | [] => none
  | a :: rest => if addr = a then some 0 else (addressIndex addr rest).map (fun i => i + 1)

/-- One step of the index-assigning loops of `filterMarkets`: the pair with its
`TokenReserveIndex` set to the position of its address, when that is listed. -/
def assignReserveIndex (addresses : List Address) (pair : UniswappyV2Pair) : UniswappyV2Pair :=
  match addressIndex pair.MarketAdress addresses with
  | none => pair
  | some i => { pair with TokenReserveIndex := i }

/-- The index-assigning loops of `filterMarkets` over the whole registry. -/
def assignReserveIndexes (addresses : List Address)
    (entries : List (Address × List UniswappyV2Pair)) : List (Address × List UniswappyV2Pair) :=
  entries.map (fun entry => (entry.1, entry.2.map (assignReserveIndex addresses)))

/-- The liquidity test of `filterMarkets` on one pair. -/
def passesLiquidityGate (cfg : Config) (s : State) (pair : UniswappyV2Pair) : Option Bool :=
  match reserveAt s pair.TokenReserveIndex pair.NativeIndex,
        reserveAt s pair.TokenReserveIndex pair.TokenIndex with
  | some metisReserve, some tokenReserve =>
    some (decide (metisReserve ≥ cfg.MIN_NATIVE_AMOUNT_WEI) && decide (tokenReserve ≥ 100))
  | _, _ => none

/-- The pairs of one list that pass the liquidity test, in order. -/
def gatePairs (cfg : Config) (s : State) : List UniswappyV2Pair → Option (List UniswappyV2Pair)
  | [] => some []
  | pair :: rest =>
    match passesLiquidityGate cfg s pair, gatePairs cfg s rest with
    | some ok, some tail => some (if ok then pair :: tail else tail)
    | _, _ => none

/-- The liquidity gate of `filterMarkets` over the whole registry. -/
def gateEntries (cfg : Config) (s : State) :
    List (Address × List UniswappyV2Pair) → Option (List (Address × List UniswappyV2Pair))
  | [] => some []
  | entry :: rest =>
    match gatePairs cfg s entry.2, gateEntries cfg s rest with
    | some pairs, some tail => some ((entry.1, pairs) :: tail)
    | _, _ => none

/-- The health test of `filterMarkets` on a token: `tokenIsHealthy` applied to
the token and the first pair of its list. -/
def healthyEntry (tokenIsHealthy : Address → UniswappyV2Pair → Bool)
    (entry : Address × List UniswappyV2Pair) : Bool :=
  match entry.2 with
  | [] => false
  | pair :: _ => tokenIsHealthy entry.1 pair

/-- The addresses `newAllMarketAddresses` that `filterMarkets` collects. -/
def addressesOf (entries : List (Address × List UniswappyV2Pair)) : List Address :=
  entries.flatMap (fun entry => entry.2.map (fun pair => pair.MarketAdress))

/-- Function `filterMarkets` of `markets.go`.  `tokenIsHealthy` is the outcome of
the simulated health check, `rows` the answer of the query helper to the
`updateReserves` call on the new address list. -/
def filterMarkets (cfg : Config) (tokenIsHealthy : Address → UniswappyV2Pair → Bool)
    (rows : List ReserveRow) (s : State) : Option State :=
  let indexed := assignReserveIndexes s.allMarketAddresses s.marketPairsByToken
  match gateEntries cfg s indexed with
  | none => none
  | some withMinAmounts =>
    let multi := withMinAmounts.filter (fun entry => decide (entry.2.length > 1))
    let healthy := multi.filter (healthyEntry tokenIsHealthy)
    let newAllMarketAddresses := addressesOf healthy
    some { allMarketAddresses := newAllMarketAddresses
           allMarketReserves := rows
           marketPairsByToken := assignReserveIndexes newAllMarketAddresses healthy
           marketMapping := s.marketMapping }

/-- The discovery sequence of `RunMetisSimpleArbitrageBot` after the registry is
filled and hydrated: `filterMarkets`, `sortMartkets`, `mapMarketAddresses`. -/
def discover (cfg : Config) (tokenIsHealthy : Address → UniswappyV2Pair → Bool)
    (rows : List ReserveRow) (s : State) : Option State :=
  match filterMarkets cfg tokenIsHealthy rows s with
  | none => none
  | some s1 =>
    match sortMartkets s1 with
    | none => none
    | some s2 => some (mapMarketAddresses s2)

/-! ## `metis_simple_arbitrage`: classification, health-check calls and submission -/

/-- Function `getTokenIndexesInPair` of `utilities.go`.  The constants
`METIS_TOKEN_ADDRESS` and `WMETIS_TOKEN_ADDRESS` are declared outside the sources
at hand; their addresses are the first two arguments. -/
def getTokenIndexesInPair (METIS_TOKEN_ADDRESS WMETIS_TOKEN_ADDRESS : Address)
    (addr1 addr2 : Address) : Int × Int :=
  if addr1 = METIS_TOKEN_ADDRESS ∨ addr1 = WMETIS_TOKEN_ADDRESS then (0, 1)
  else if addr2 = METIS_TOKEN_ADDRESS ∨ addr2 = WMETIS_TOKEN_ADDRESS then (1, 0)
  else (-1, -1)

/-- Indexing `pair[i]` of a batch element `pair`, a `[3]common.Address` holding
the two token addresses and the market address; an index outside `0..2`
panics. -/
def batchAt (pair : Address × Address × Address) (i : Int) : Option Address :=
  if i = 0 then some pair.1
  else if i = 1 then some pair.2.1
  else if i = 2 then some pair.2.2
  else none

/-- The body of the innermost loop of `initAllMarketData` for one element `pair`
of a batch of the factory `factory` with fee `fee`: the outer `none` is a panic,
`some none` a `continue`, and `some (some (token, p))` the append of `p` to
`marketPairsByToken[token]` (and of its address to `allMarketAddresses`).
`banned` stands for `addressInSlice(·, bannedTokenAddresses)`, `stable` for
`factoryAddress == HERMES_FACTORY_ADDRESS && pairIsStable[index]`, and
`hardBanned` for the comparison of the market address with the hard-banned one.
The two prices of the new pool are not set by the literal. -/
def registerPair (METIS_TOKEN_ADDRESS WMETIS_TOKEN_ADDRESS : Address)
    (banned : Address → Bool) (stable : Bool) (hardBanned : Address → Bool)
    (factory : Address) (fee : Int) (pair : Address × Address × Address) :
    Option (Option (Address × UniswappyV2Pair)) :=
  let indexes := getTokenIndexesInPair METIS_TOKEN_ADDRESS WMETIS_TOKEN_ADDRESS pair.1 pair.2.1
  if indexes.1 = -1 then some none
  else
    match batchAt pair indexes.2, batchAt pair indexes.1 with
    | some tokenAddress, some metisAddress =>
      if banned tokenAddress then some none
      else if stable then some none
      else if hardBanned pair.2.2 then some none
      else
        some (some (tokenAddress,
          { MarketAdress := pair.2.2
            Factory := factory
            FeePerTenThousands := fee
            TokenAddresses := (pair.1, pair.2.1)
            WethAddress := metisAddress
            NativeIndex := indexes.1.toNat
            TokenIndex := indexes.2.toNat
            TokenReserveIndex := 0
            SellWethPrice := 0
            BuyWethPrice := 0 }))
    | _, _ => none

/-- The arguments `(token, pairs[0])` of the calls of `tokenIsHealthy` that
`filterMarkets` makes, in the order of its loop over the tokens left with more
than one pool. -/
def healthCheckCalls (cfg : Config) (s : State) : Option (List (Address × UniswappyV2Pair)) :=
  match gateEntries cfg s (assignReserveIndexes s.allMarketAddresses s.marketPairsByToken) with
  | none => none
  | some withMinAmounts =>
    some ((withMinAmounts.filter (fun entry => decide (entry.2.length > 1))).filterMap
      (fun entry => entry.2.head?.map (fun pair => (entry.1, pair))))

/-- The test after a search pass in both branches of the loop of
`RunMetisSimpleArbitrageBot`: `none` where the branch `len(arbTxs) <= 1` is taken
(it logs "No Arbs"), and the batch handed to `go takeOpportunities(...)`
otherwise. -/
def submission (arbTxs : List Arb) : Option (List Arb) :=
  if arbTxs.length ≤ 1 then none else some arbTxs

/-- The periodic branch (`case <-ticker1s.C`) up to the hand-over: the batch
refresh, the search over all tokens, and the submission test. -/
def periodicBranch (cfg : Config) (rows : List ReserveRow) (s : State) :
    Option (Option (List Arb) × State) :=
  match periodicPass cfg rows s with
  | none => none
  | some (arbTxs, s1) => some (submission arbTxs, s1)

/-- The event branch (`case vLog := <-logs`) for one `Sync` event that no further
event follows during the polling window: the event update, one search for the
token of the event, and the submission test. -/
def eventBranch (cfg : Config) (vLog : SyncLog) (s : State) :
    Option (Option (List Arb) × State) :=
  match updateReservesByEvent cfg vLog s with
  | none => none
  | some (tokenAddr, s1) =>
    match evaluateMarketsRecursive cfg false tokenAddr 0 s1 with
    | none => none
    | some (arbTxs, s2) => some (submission arbTxs, s2)

/-! ## A small registry

Two pools quoting the token `7`: pool `1` holds 1000 native and 2000 quote, pool
`2` holds 2000 native and 1000 quote, both with fee 30, priced against a base
amount of 10. -/

/-- A configuration with base amount 10 and both profit thresholds 1, in which
no factory is the Hermes factory. -/
def exampleConfig : Config :=
  { BASE_WEI := 10
    MIN_NATIVE_AMOUNT_WEI := 100
    MIN_PROFIT_WEI := 1
    MIN_PROFIT_WEI_FOLLOWUP := 1
    WMETIS_TOKEN_ADDRESS := 99
    hexIsHermesFactory := fun _ => false
    feeByHex := fun _ => 0 }

/-- Pool `1`: reserves in row 0, cheap quote. -/
def examplePoolA : UniswappyV2Pair :=
  { MarketAdress := 1, Factory := 50, FeePerTenThousands := 30, TokenAddresses := (99, 7)
    WethAddress := 99, NativeIndex := 0, TokenIndex := 1, TokenReserveIndex := 0
    SellWethPrice := 19, BuyWethPrice := 21 }

/-- Pool `2`: reserves in row 1, expensive quote. -/
def examplePoolB : UniswappyV2Pair :=
  { MarketAdress := 2, Factory := 50, FeePerTenThousands := 30, TokenAddresses := (99, 7)
    WethAddress := 99, NativeIndex := 0, TokenIndex := 1, TokenReserveIndex := 1
    SellWethPrice := 4, BuyWethPrice := 6 }

/-- The registry of the two pools, sorted by native reserve, both rows fresh. -/
def exampleState : State :=
  { allMarketAddresses := [1, 2]
    allMarketReserves := [⟨1000, 2000, 1⟩, ⟨2000, 1000, 1⟩]
    marketPairsByToken := [(7, [examplePoolB, examplePoolA])]
    marketMapping := [(2, ⟨7, 0⟩), (1, ⟨7, 1⟩)] }

/-- The arb of the example: buy from pool `1` with 332 native, sell to pool `2`. -/
def exampleArb : Arb :=
  { BuyFromPair := 1, NativeInAmount := 332, TokenAmount := 497, NativeOutAmount := 662
    SellToPair := 2, Profit := 330, BuyFromFee := 30, SellToFee := 30
    BuyFromIsWMetis := true, SellToIsWMetis := true }

/-- The configuration of the example with the factory `50` recognised as the
Hermes factory and listed in the fee map with fee 1; the map has no other key. -/
def hermesConfig : Config :=
  { exampleConfig with
    hexIsHermesFactory := fun a => decide (a = 50)
    feeByHex := fun a => if a = 50 then 1 else 0 }

/-- Pool `1` as a pool of the Hermes factory, with that factory's fee 1. -/
def hermesPoolA : UniswappyV2Pair :=
  { examplePoolA with FeePerTenThousands := 1 }

/-- Pool `2` as a pool of the Hermes factory, with that factory's fee 1. -/
def hermesPoolB : UniswappyV2Pair :=
  { examplePoolB with FeePerTenThousands := 1 }

/-- The registry of the two Hermes pools: pool `1` holds 100000 native and 200000
quote, pool `2` holds 200000 native and 100000 quote. -/
def hermesState : State :=
  { exampleState with
    allMarketReserves := [⟨100000, 200000, 1⟩, ⟨200000, 100000, 1⟩]
    marketPairsByToken := [(7, [hermesPoolB, hermesPoolA])] }

/-- An arb that buys 9999 quote from pool `1` with 9999 native and sells them to
pool `2`. -/
def hermesArb : Arb :=
  { BuyFromPair := 1, NativeInAmount := 9999, TokenAmount := 9999, NativeOutAmount := 5000
    SellToPair := 2, Profit := -4999, BuyFromFee := 1, SellToFee := 1
    BuyFromIsWMetis := true, SellToIsWMetis := true }

/-- The example registry before ordering: the two pools in ascending order of
native reserve. -/
def unsortedState : State :=
  { exampleState with marketPairsByToken := [(7, [examplePoolA, examplePoolB])] }

/-- Pool `1` as `initAllMarketData` registers it, its reserve index not yet
assigned. -/
def rawPoolA : UniswappyV2Pair := { examplePoolA with TokenReserveIndex := 0 }

/-- Pool `2` as `initAllMarketData` registers it. -/
def rawPoolB : UniswappyV2Pair := { examplePoolB with TokenReserveIndex := 0 }

/-- A third pool of token `7`, at address `3`. -/
def rawPoolC : UniswappyV2Pair := { rawPoolA with MarketAdress := 3 }

/-- The single pool of token `8`, at address `4`. -/
def rawPoolD : UniswappyV2Pair := { rawPoolA with MarketAdress := 4, TokenAddresses := (99, 8) }

/-- A registry as `initAllMarketData` and the first reserve query leave it, before
`filterMarkets`: pools `1` and `2` of token `7`, a third pool of token `7` that
holds only 50 native, and the single pool of token `8`. -/
def rawState : State :=
  { allMarketAddresses := [1, 2, 3, 4]
    allMarketReserves := [⟨1000, 2000, 1⟩, ⟨2000, 1000, 1⟩, ⟨50, 5000, 1⟩, ⟨3000, 3000, 1⟩]
    marketPairsByToken := [(7, [rawPoolA, rawPoolB, rawPoolC]), (8, [rawPoolD])]
    marketMapping := [] }

/-- The registry that `filterMarkets` makes of `rawState` when every token is
healthy and the reserve query answers with the reserves of pools `1` and `2`. -/
def filteredState : State :=
  { allMarketAddresses := [1, 2]
    allMarketReserves := [⟨1000, 2000, 1⟩, ⟨2000, 1000, 1⟩]
    marketPairsByToken := [(7, [examplePoolA, examplePoolB])]
    marketMapping := [] }

/-- The registry at the end of the discovery sequence on `rawState`. -/
def discoveredState : State :=
  { exampleState with marketMapping := [(1, ⟨7, 1⟩), (2, ⟨7, 0⟩)] }

/-- The example registry with the row of pool `2` stale. -/
def halfStaleState : State :=
  { exampleState with allMarketReserves := [⟨1000, 2000, 1⟩, ⟨2000, 1000, 0⟩] }

/-- Pool `1` with a cached sell price that its reserves do not give. -/
def mispricedPoolA : UniswappyV2Pair := { examplePoolA with SellWethPrice := 18 }

/-- The example registry with pool `1` mispriced. -/
def mispricedState : State :=
  { exampleState with marketPairsByToken := [(7, [examplePoolB, mispricedPoolA])] }

/-- A pool at address `1` holding 1000 native and 150 quote in row 0, priced
against the base amount 10: it sells at 1. -/
def thinPoolP : UniswappyV2Pair :=
  { examplePoolA with SellWethPrice := 1, BuyWethPrice := 2 }

/-- A pool at address `2` holding 100000 native and 100 quote in row 1, priced
against the base amount 10: it buys at 1. -/
def thinPoolR : UniswappyV2Pair :=
  { examplePoolB with SellWethPrice := 0, BuyWethPrice := 1 }

/-- The registry of the two thin pools, rows fresh and prices as `priceMarkets`
computes them. -/
def thinState : State :=
  { exampleState with
    allMarketReserves := [⟨1000, 150, 1⟩, ⟨100000, 100, 1⟩]
    marketPairsByToken := [(7, [thinPoolR, thinPoolP])] }

/-- The configuration of the profitable-cross scenario: base amount `10^17`, both
profit thresholds `10^18`, no Hermes factory. -/
def scenarioConfig : Config :=
  { exampleConfig with
    BASE_WEI := 10 ^ 17
    MIN_PROFIT_WEI := 10 ^ 18
    MIN_PROFIT_WEI_FOLLOWUP := 10 ^ 18 }

/-- Pool `A` of the scenario, at address `1` with its reserves in row 0, with the
prices `priceMarkets` computes from them. -/
def scenarioPoolA : UniswappyV2Pair :=
  { examplePoolA with SellWethPrice := 199380121801856354, BuyWethPrice := 200621867603009048 }

/-- Pool `B` of the scenario, at address `2` with its reserves in row 1, with the
prices `priceMarkets` computes from them. -/
def scenarioPoolB : UniswappyV2Pair :=
  { examplePoolB with SellWethPrice := 49847515101372196, BuyWethPrice := 50152959002012288 }

/-- The registry of the scenario: the token `7` with the pool list `[B, A]`, `A`
holding `1000 * 10^18` native and `2000 * 10^18` quote, `B` holding
`2000 * 10^18` native and `1000 * 10^18` quote, both rows fresh. -/
def scenarioState : State :=
  { exampleState with
    allMarketReserves :=
      [⟨1000 * 10 ^ 18, 2000 * 10 ^ 18, 1⟩, ⟨2000 * 10 ^ 18, 1000 * 10 ^ 18, 1⟩]
    marketPairsByToken := [(7, [scenarioPoolB, scenarioPoolA])] }

/-- The arb the search emits in the scenario. -/
def scenarioArb : Arb :=
  { BuyFromPair := 1, NativeInAmount := 332996316940132354310
    TokenAmount := 498495486459378134402, NativeOutAmount := 663994655978623914494
    SellToPair := 2, Profit := 330998339038491560184, BuyFromFee := 30, SellToFee := 30
    BuyFromIsWMetis := true, SellToIsWMetis := true }

/-- A third pool of token `7`, at address `3` with its reserves in row 2, priced
for 1500 native and 1500 quote. -/
def examplePoolC : UniswappyV2Pair :=
  { examplePoolA with
    MarketAdress := 3, TokenReserveIndex := 2, SellWethPrice := 9, BuyWethPrice := 11 }

/-- The registry of three pools of token `7`, sorted by native reserve, rows fresh
and prices as `priceMarkets` computes them. -/
def triState : State :=
  { allMarketAddresses := [1, 2, 3]
    allMarketReserves := [⟨1000, 2000, 1⟩, ⟨2000, 1000, 1⟩, ⟨1500, 1500, 1⟩]
    marketPairsByToken := [(7, [examplePoolB, examplePoolC, examplePoolA])]
    marketMapping := [(2, ⟨7, 0⟩), (3, ⟨7, 1⟩), (1, ⟨7, 2⟩)] }

/-! ## Specification-side notions -/

/-- Rounding of a rational to the nearest integer, halves away from zero. -/
def roundHalfAway (q : ℚ) : Int :=
  if 0 ≤ q then ⌊q + 1 / 2⌋ else -⌊-q + 1 / 2⌋

/-- Rounding of the integer quotient `aa / bb` to the nearest integer, halves
away from zero, as `DivRound` performs it on the scaled operands. -/
def divRoundInt (aa bb : Int) : Int :=
  if 2 * |Int.tmod aa bb| < |bb| then Int.tdiv aa bb
  else if Int.sign aa * Int.sign bb < 0 then Int.tdiv aa bb - 1
  else Int.tdiv aa bb + 1

/-- The closed form of the optimal input as the specification writes it: exact
rational fee factors `phi_b`, `phi_s`, and the integer square root of the
truncated product under the root. -/
def specOptimalInput (r_buy_in r_buy_out r_sell_in r_sell_out f_buy f_sell : Int) : ℚ :=
  let phi_b : ℚ := ((10000 - f_buy : Int) : ℚ) / 10000
  let phi_s : ℚ := ((10000 - f_sell : Int) : ℚ) / 10000
  (-phi_b * r_sell_in * r_buy_in
      + ((Nat.sqrt
          ⌊(r_buy_in : ℚ) * r_buy_out * r_sell_in * r_sell_out * phi_b ^ 3 * phi_s⌋.toNat : Nat) : ℚ))
    / (r_sell_in * phi_b ^ 2 + phi_s * r_buy_out * phi_b ^ 2)

/-- The output of a swap with the final integer division replaced by exact
division in a field: `GetAmountOut` without rounding. -/
def amountOutExact {K : Type} [Field K] (reserveIn reserveOut tokenIn fee : K) : K :=
  tokenIn * (10000 - fee) * reserveOut / (10000 * reserveIn + tokenIn * (10000 - fee))

/-- The profit of the buy-then-sell trade without rounding. -/
def profitExact {K : Type} [Field K] (rbi rbo rsi rso fb fs x : K) : K :=
  amountOutExact rsi rso (amountOutExact rbi rbo x fb) fs - x

/-- The closed form that `CalculateOptimalTokenInTwoFees` evaluates, over a
field, with `s` standing for the exact square root. -/
def closedFormExact {K : Type} [Field K] (rbi rbo rsi fb fs s : K) : K :=
  let phi_b : K := (10000 - fb) / 10000
  let phi_s : K := (10000 - fs) / 10000
  (-phi_b * rsi * rbi + s) / (rsi * phi_b ^ 2 + phi_s * rbo * phi_b ^ 2)

/-- The replay of the buy-then-sell path of a crossed market with the native
input `nativeIn` on the reserves of `s`: the quote amount received from the
pair bought from, the native amount received from the pair sold to, and the
profit. -/
def replayArb (s : State) (cm : CrossedMarket) (nativeIn : Int) : Option (Int × Int × Int) :=
  match reserveAt s cm.2.TokenReserveIndex cm.2.NativeIndex,
        reserveAt s cm.2.TokenReserveIndex cm.2.TokenIndex,
        reserveAt s cm.1.TokenReserveIndex cm.1.TokenIndex,
        reserveAt s cm.1.TokenReserveIndex cm.1.NativeIndex with
  | some buyNative, some buyToken, some sellToken, some sellNative =>
    match GetAmountOut buyNative buyToken nativeIn cm.2.FeePerTenThousands with
    | none => none
    | some tokenAmount =>
      match GetAmountOut sellToken sellNative tokenAmount cm.1.FeePerTenThousands with
      | none => none
      | some nativeOut => some (tokenAmount, nativeOut, nativeOut - nativeIn)
  | _, _, _, _ => none

/-- An arb is sound on the reserves of `s` for the crossed market `cm`: it names
the two pools of `cm`, and replaying its `NativeInAmount` reproduces its
`TokenAmount`, `NativeOutAmount` and `Profit`. -/
def ArbSound (s : State) (cm : CrossedMarket) (a : Arb) : Prop :=
  a.BuyFromPair = cm.2.MarketAdress ∧ a.SellToPair = cm.1.MarketAdress
    ∧ replayArb s cm a.NativeInAmount = some (a.TokenAmount, a.NativeOutAmount, a.Profit)

/-- Both pools of a crossed market are registered under one token in `s`. -/
def InRegistry (s : State) (cm : CrossedMarket) : Prop :=
  ∃ entry ∈ s.marketPairsByToken, cm.1 ∈ entry.2 ∧ cm.2 ∈ entry.2

/-- Both pools of a crossed market are in the pair list of `token` in `s`. -/
def InToken (token : Address) (s : State) (cm : CrossedMarket) : Prop :=
  cm.1 ∈ pairsOf s token ∧ cm.2 ∈ pairsOf s token

/-- A slice of arbs is sound level by level from the state `s`: it splits into
the arbs of the outermost level, each sound on the reserves of `s` for a crossed
market that `reg` accepts in `s`, followed by the follow-ups, which are sound
level by level from the state reached by applying the outermost arbs to `s`. -/
inductive SoundLevels (cfg : Config) (reg : State → CrossedMarket → Prop) :
    State → List Arb → Prop
  | done (s : State) (level : List (Arb × CrossedMarket)) :
      (∀ x ∈ level, reg s x.2 ∧ ArbSound s x.2 x.1) →
      SoundLevels cfg reg s (level.map Prod.fst)
  | step (s s1 : State) (level : List (Arb × CrossedMarket)) (rest : List Arb) :
      (∀ x ∈ level, reg s x.2 ∧ ArbSound s x.2 x.1) →
      applyArbs cfg false level s = some s1 →
      SoundLevels cfg reg s1 rest →
      SoundLevels cfg reg s (level.map Prod.fst ++ rest)

/-- The ordered pairs `(ref, p)` of a pair list in the order the crossing phase
visits them: `ref` in the outer loop, `p` in the inner loop. -/
def enumeratePairs (pairs : List UniswappyV2Pair) : List CrossedMarket :=
  pairs.flatMap (fun refPair => pairs.map (fun pair => (refPair, pair)))

/-- A pair `(ref, p)` is a candidate: not both stale, two different pools, and
crossed (`p.SellWethPrice > ref.BuyWethPrice`). -/
def isCandidate (s : State) (cm : CrossedMarket) : Bool :=
  decide (isStaleReserves s cm.1 cm.2 = some false)
    && decide (cm.1.MarketAdress ≠ cm.2.MarketAdress)
    && decide (cm.2.SellWethPrice > cm.1.BuyWethPrice)

/-- The profit of a pair at its optimal size, when the sizing completes. -/
def profitOf (s : State) (cm : CrossedMarket) : Option Int :=
  (sizeCrossedMarket s cm).map (fun r => r.2.2.2)

/-- The arb built from a pair at its optimal size, when the sizing completes. -/
def arbOf (cfg : Config) (s : State) (cm : CrossedMarket) : Option Arb :=
  (sizeCrossedMarket s cm).map (fun r => mkArb cfg cm r.1 r.2.1 r.2.2.1 r.2.2.2)

/-- A pair is eligible: a candidate whose optimally sized profit is strictly
above the active threshold. -/
def Eligible (cfg : Config) (s : State) (isFollowUp : Bool) (cm : CrossedMarket) : Prop :=
  isCandidate s cm = true
    ∧ ∃ profit, profitOf s cm = some profit
        ∧ (if isFollowUp then profit > cfg.MIN_PROFIT_WEI_FOLLOWUP
           else profit > cfg.MIN_PROFIT_WEI)

/-- A pool with its two cached prices blanked: everything `updateReserveByArb`
and the event update leave alone in a pool. -/
def erasePrices (p : UniswappyV2Pair) : UniswappyV2Pair :=
  { p with SellWethPrice := 0, BuyWethPrice := 0 }

/-- The registry with every cached price blanked. -/
def shapeOf (s : State) : List (Address × List UniswappyV2Pair) :=
  s.marketPairsByToken.map (fun e => (e.1, e.2.map erasePrices))

/-- The registry index invariant: for every token `q` of the registry and every
position `i` of its list, the reverse index sends the address of the pool at
`(q, i)` to `(q, i)`, the pool's `TokenReserveIndex` is inside
`allMarketAddresses`, and the address listed there is the pool's own. -/
def IndexInvariant (s : State) : Prop :=
  ∀ e ∈ s.marketPairsByToken, ∀ (i : Nat) (p : UniswappyV2Pair), e.2[i]? = some p →
    s.marketMapping.lookup p.MarketAdress = some ⟨e.1, i⟩
      ∧ p.TokenReserveIndex < s.allMarketAddresses.length
      ∧ s.allMarketAddresses[p.TokenReserveIndex]? = some p.MarketAdress

/-- A pool with its two cached prices overwritten. -/
def priceSet (sell buy : Int) (p : UniswappyV2Pair) : UniswappyV2Pair :=
  { p with SellWethPrice := sell, BuyWethPrice := buy }

/-- The registry with `F` applied to the pair list of the first entry with key
`q`. -/
def mapFirst (q : Address) (F : List UniswappyV2Pair → List UniswappyV2Pair) :
    List (Address × List UniswappyV2Pair) → List (Address × List UniswappyV2Pair)
  | [] => []
  | (t, ps) :: rest => if q = t then (t, F ps) :: rest else (t, ps) :: mapFirst q F rest

/-- The amount `c` when the slot `j` written is the slot `k` looked at, and
nothing otherwise. -/
def slotDelta (j k : Nat) (c : Int) : Int := if j = k then c else 0

/-- The net effect of one leg of `updateReserveByArb` on the reserve row of its
pool: `cn` added to the slot `jn`, `ct` added to the slot `jt`, and the third slot
set to `UPDATED_RESERVE`. -/
def legShift (jn jt : Nat) (cn ct : Int) (row : ReserveRow) : ReserveRow :=
  ⟨row.r0 + (slotDelta jn 0 cn + slotDelta jt 0 ct),
   row.r1 + (slotDelta jn 1 cn + slotDelta jt 1 ct), UPDATED_RESERVE⟩

/-- The amount the buy leg adds to the native reserve when the arb is applied:
`NativeInAmount`, less the Hermes deduction for a pool of the Hermes factory. -/
def nativeInDelta (cfg : Config) (arb : Arb) (buy : UniswappyV2Pair) (token : Address) :
    Option Int :=
  if cfg.hexIsHermesFactory buy.Factory then
    (hermesDeduction cfg token arb.NativeInAmount).map (fun d => arb.NativeInAmount - d)
  else some arb.NativeInAmount

/-- The amount the sell leg adds to the quote reserve when the arb is applied:
`TokenAmount`, less the Hermes deduction for a pool of the Hermes factory. -/
def tokenInDelta (cfg : Config) (arb : Arb) (sell : UniswappyV2Pair) (token : Address) :
    Option Int :=
  if cfg.hexIsHermesFactory sell.Factory then
    (hermesDeduction cfg token arb.TokenAmount).map (fun d => arb.TokenAmount - d)
  else some arb.TokenAmount

/-- The selection loop as the specification describes it: the first crossed
market whose sized profit exceeds the active threshold, with no best-profit
comparison. -/
def selectFirst (cfg : Config) (s : State) (isFollowUp : Bool) :
    List CrossedMarket → Option (Option (Arb × CrossedMarket))
  | [] => some none
  | cm :: rest =>
    match sizeCrossedMarket s cm with
    | none => none
    | some (size, tokensOut, proceeds, profit) =>
      if exceedsThreshold cfg isFollowUp profit then
        some (some (mkArb cfg cm size tokensOut proceeds profit, cm))
      else selectFirst cfg s isFollowUp rest

/-- The two reserves of every row, without the freshness slot. -/
def reservesView (s : State) : List (Int × Int) :=
  s.allMarketReserves.map (fun row => (row.r0, row.r1))

/-- The amounts `e` added to the two reserves at position `idx`. -/
def addAt (idx : Nat) (e : Int × Int) (v : List (Int × Int)) : List (Int × Int) :=
  List.modify (fun pr => (pr.1 + e.1, pr.2 + e.2)) idx v

/-- A sequence of additions, applied from the left. -/
def applyMoves : List (Nat × (Int × Int)) → List (Int × Int) → List (Int × Int)
  | [], v => v
  | m :: rest, v => applyMoves rest (addAt m.1 m.2 v)

/-- The opposite addition. -/
def negMove (m : Nat × (Int × Int)) : Nat × (Int × Int) := (m.1, (-m.2.1, -m.2.2))

/-- The amounts one leg of `updateReserveByArb` adds to the two reserves of the
row `idx`, with `cn` going to the slot `jn` and `ct` to the slot `jt`; nothing
when the pool is not found in the registry. -/
def legMove (found : Bool) (idx jn jt : Nat) (cn ct : Int) : Nat × (Int × Int) :=
  if found then
    (idx, (slotDelta jn 0 cn + slotDelta jt 0 ct, slotDelta jn 1 cn + slotDelta jt 1 ct))
  else (idx, (0, 0))

/-- The addition the buy leg of `updateReserveByArb` makes to the reserves, read
off the registry of `s`, the arb and the pool. -/
def buyMove (cfg : Config) (s : State) (isUndo : Bool) (arb : Arb) (buy : UniswappyV2Pair) :
    Nat × (Int × Int) :=
  match tokenAddressOf buy with
  | none => (buy.TokenReserveIndex, (0, 0))
  | some q =>
    legMove (findMarket buy.MarketAdress (pairsOf s q) 0).isSome
      buy.TokenReserveIndex buy.NativeIndex buy.TokenIndex
      (if isUndo then -(nativeInDelta cfg arb buy q).getD 0
        else (nativeInDelta cfg arb buy q).getD 0)
      (if isUndo then arb.TokenAmount else -arb.TokenAmount)

/-- The addition the sell leg of `updateReserveByArb` makes to the reserves. -/
def sellMove (cfg : Config) (s : State) (isUndo : Bool) (arb : Arb) (sell : UniswappyV2Pair) :
    Nat × (Int × Int) :=
  match tokenAddressOf sell with
  | none => (sell.TokenReserveIndex, (0, 0))
  | some q =>
    legMove (findMarket sell.MarketAdress (pairsOf s q) 0).isSome
      sell.TokenReserveIndex sell.NativeIndex sell.TokenIndex
      (if isUndo then arb.NativeOutAmount else -arb.NativeOutAmount)
      (if isUndo then -(tokenInDelta cfg arb sell q).getD 0
        else (tokenInDelta cfg arb sell q).getD 0)

/-- The additions of the calls `updateReserveByArb(arbs[i], arbsCrossedMarkets[i],
isUndo)` for `i = 0, 1, ...`, in order. -/
def movesOf (cfg : Config) (s : State) (isUndo : Bool) :
    List (Arb × CrossedMarket) → List (Nat × (Int × Int))
  | [] => []
  | (arb, cm) :: rest =>
    buyMove cfg s isUndo arb cm.2 :: sellMove cfg s isUndo arb cm.1 :: movesOf cfg s isUndo rest

/-- The arbs of a search for `token` listed by recursion depth: `arbs` is empty
and the search at `depth` on `s` finds nothing; or `arbs` is the one arb the
search at `depth` finds, and `depth` is not below 100; or `arbs` begins with the
arb the search at `depth < 100` finds on `s` and goes on with a list that is
depth-ordered from `depth + 1`, with the follow-up flag set, on the state with
that arb applied. -/
inductive DepthOrdered (cfg : Config) (token : Address) :
    Int → Bool → State → List Arb → Prop
  | empty (depth : Int) (isFollowUp : Bool) (s : State) :
      evaluateToken cfg s isFollowUp (pairsOf s token) = some none →
      DepthOrdered cfg token depth isFollowUp s []
  | last (depth : Int) (isFollowUp : Bool) (s : State) (arb : Arb) (cm : CrossedMarket) :
      evaluateToken cfg s isFollowUp (pairsOf s token) = some (some (arb, cm)) →
      ¬ depth < 100 →
      DepthOrdered cfg token depth isFollowUp s [arb]
  | step (depth : Int) (isFollowUp : Bool) (s s1 : State) (arb : Arb) (cm : CrossedMarket)
      (rest : List Arb) :
      evaluateToken cfg s isFollowUp (pairsOf s token) = some (some (arb, cm)) →
      depth < 100 →
      updateReserveByArb cfg arb cm false s = some s1 →
      DepthOrdered cfg token (depth + 1) true s1 rest →
      DepthOrdered cfg token depth isFollowUp s (arb :: rest)

/-- The rounding allowance of the optimal size `xStar`: one unit for the final
integer division of the sell leg, the sell pool's marginal price
`phi_s * r_sell_out / r_sell_in` for the unit lost by the integer division of
the buy leg, and the square of the distance bound between `xStar` and the exact
maximiser (truncation to an integer, rounding at 16 digits, integer square
root) divided by `xStar`. -/
def sizingSlack (r_buy_out r_sell_in r_sell_out f_buy f_sell xStar : Int) : ℚ :=
  let phi_b : ℚ := ((10000 - f_buy : Int) : ℚ) / 10000
  let phi_s : ℚ := ((10000 - f_sell : Int) : ℚ) / 10000
  1 + phi_s * r_sell_out / r_sell_in
    + (1 + 5 / 10 ^ 17 + 1 / (r_sell_in * phi_b ^ 2 + phi_s * r_buy_out * phi_b ^ 2)) ^ 2 / xStar

/-! ## Basic facts -/

theorem wrapInt64_of_mem {x : Int} (h1 : -(2 ^ 63) ≤ x) (h2 : x < 2 ^ 63) :
    wrapInt64 x = x := by
  unfold wrapInt64
  omega

theorem wrapInt64_fee {f : Int} (h0 : 0 ≤ f) (h1 : f ≤ 10000) :
    wrapInt64 (FEE_DENOMINATOR - f) = 10000 - f := by
  unfold FEE_DENOMINATOR
  apply wrapInt64_of_mem <;> omega

theorem bigDiv_of_ne {x y : Int} (h : y ≠ 0) : bigDiv x y = some (x / y) := by
  simp [bigDiv, h]
  rfl

theorem bigDiv_zero (x : Int) : bigDiv x 0 = none := by
  simp [bigDiv]

/-- For a positive divisor the Euclidean quotient is the floor of the exact
rational quotient. -/
theorem floor_ratDiv_of_pos (n d : Int) (hd : 0 < d) :
    ⌊((n : ℚ) / (d : ℚ))⌋ = n / d := by
  obtain ⟨k, rfl⟩ := Int.eq_ofNat_of_zero_le hd.le
  exact_mod_cast Rat.floor_intCast_div_natCast n k

theorem GetAmountOut_eq {rin rout x f : Int} (h0 : 0 ≤ f) (h1 : f ≤ 10000)
    (hd : 10000 * rin + x * (10000 - f) ≠ 0) :
    GetAmountOut rin rout x f
      = some (x * (10000 - f) * rout / (10000 * rin + x * (10000 - f))) := by
  unfold GetAmountOut
  simp only [wrapInt64_fee h0 h1]
  unfold FEE_DENOMINATOR
  exact bigDiv_of_ne hd

theorem GetAmountIn_eq {rin rout y f : Int} (h0 : 0 ≤ f) (h1 : f ≤ 10000)
    (hd : (rout - y) * (10000 - f) ≠ 0) :
    GetAmountIn rin rout y f
      = some (y * 10000 * rin / ((rout - y) * (10000 - f)) + 1) := by
  unfold GetAmountIn
  simp only [wrapInt64_fee h0 h1]
  unfold FEE_DENOMINATOR
  rw [bigDiv_of_ne hd]
  rfl

/-! ## Claims on `GetAmountOut` and `GetAmountIn` -/

/-- C1: for non-negative `r_in`, `r_out`, `x_in` and a fee `0 ≤ f ≤ 10000`
with `r_in*10000 + x_in*(10000-f) > 0`, `GetAmountOut` returns the floor of
`x_in*(10000-f)*r_out / (r_in*10000 + x_in*(10000-f))`. -/
theorem GetAmountOut_floor (r_in r_out x_in f : Int)
    (_hin : 0 ≤ r_in) (_hout : 0 ≤ r_out) (_hx : 0 ≤ x_in) (h0 : 0 ≤ f) (h1 : f ≤ 10000)
    (hpos : 0 < r_in * 10000 + x_in * (10000 - f)) :
    GetAmountOut r_in r_out x_in f
      = some ⌊(((x_in * (10000 - f) * r_out : Int) : ℚ)
                / ((r_in * 10000 + x_in * (10000 - f) : Int) : ℚ))⌋ := by
  rw [floor_ratDiv_of_pos _ _ hpos]
  have hd : 10000 * r_in + x_in * (10000 - f) ≠ 0 := by
    have : 10000 * r_in = r_in * 10000 := by ring
    omega
  rw [GetAmountOut_eq h0 h1 hd]
  have e : 10000 * r_in + x_in * (10000 - f) = r_in * 10000 + x_in * (10000 - f) := by ring
  rw [e]

theorem GetAmountOut_floor_witness :
    GetAmountOut 1000 2000 100 30
      = some ⌊(((100 * (10000 - 30) * 2000 : Int) : ℚ)
                / ((1000 * 10000 + 100 * (10000 - 30) : Int) : ℚ))⌋ :=
  GetAmountOut_floor 1000 2000 100 30 (by decide) (by decide) (by decide) (by decide)
    (by decide) (by decide)

/-- C2: for non-negative `r_in`, `r_out`, `y_out` with `y_out < r_out` and a
fee `0 ≤ f < 10000`, `GetAmountIn` returns
`floor(y_out*10000*r_in / ((r_out - y_out)*(10000-f))) + 1`. -/
theorem GetAmountIn_floor (r_in r_out y_out f : Int)
    (_hin : 0 ≤ r_in) (_hout : 0 ≤ r_out) (_hy : 0 ≤ y_out) (hlt : y_out < r_out)
    (h0 : 0 ≤ f) (h1 : f < 10000) :
    GetAmountIn r_in r_out y_out f
      = some (⌊(((y_out * 10000 * r_in : Int) : ℚ)
                / (((r_out - y_out) * (10000 - f) : Int) : ℚ))⌋ + 1) := by
  have hpos : 0 < (r_out - y_out) * (10000 - f) :=
    mul_pos (by omega) (by omega)
  rw [floor_ratDiv_of_pos _ _ hpos]
  exact GetAmountIn_eq h0 h1.le hpos.ne'

theorem GetAmountIn_floor_witness :
    GetAmountIn 1000 2000 100 30
      = some (⌊(((100 * 10000 * 1000 : Int) : ℚ)
                / (((2000 - 100) * (10000 - 30) : Int) : ℚ))⌋ + 1) :=
  GetAmountIn_floor 1000 2000 100 30 (by decide) (by decide) (by decide) (by decide)
    (by decide) (by decide)

/-- C3 (as stated, refuted): with `y_out = 2000 ≥ r_out = 1000` the call
returns the number `-2005`; no error is raised. -/
theorem GetAmountIn_insufficient_counterexample :
    (1000 : Int) ≤ 2000 ∧ GetAmountIn 1000 1000 2000 30 = some (-2005) := by
  decide

/-- C3 (amended): for `y_out ≥ r_out` and a fee `0 ≤ f < 10000`, `GetAmountIn`
yields no amount exactly when `y_out = r_out` (the divisor is zero and the
division panics); for `y_out > r_out` it returns the Euclidean quotient of
`y_out*10000*r_in` by the negative divisor `(r_out - y_out)*(10000-f)`, plus
one. -/
theorem GetAmountIn_insufficient (r_in r_out y_out f : Int)
    (h0 : 0 ≤ f) (h1 : f < 10000) (hge : r_out ≤ y_out) :
    GetAmountIn r_in r_out y_out f
      = if y_out = r_out then none
        else some (Int.ediv (y_out * 10000 * r_in) ((r_out - y_out) * (10000 - f)) + 1) := by
  by_cases he : y_out = r_out
  · subst he
    simp [GetAmountIn, bigDiv_zero]
  · rw [if_neg he]
    have hneg : (r_out - y_out) * (10000 - f) < 0 :=
      mul_neg_of_neg_of_pos (by omega) (by omega)
    rw [GetAmountIn_eq h0 h1.le hneg.ne]
    rfl

theorem GetAmountIn_insufficient_witness :
    GetAmountIn 5 7 7 30
      = if (7 : Int) = 7 then none
        else some (Int.ediv (7 * 10000 * 5) ((7 - 7) * (10000 - 30)) + 1) :=
  GetAmountIn_insufficient 5 7 7 30 (by decide) (by decide) (by decide)

/-- C4: for positive reserves `r0`, `r1`, an input `x ≥ 0` and a fee
`0 ≤ f < 10000`, `GetAmountOut r0 r1 x f` returns a value that is at most the
rational `x*r1/r0`, strictly below it when `f > 0` and `x > 0`. -/
theorem GetAmountOut_le_spot (r0 r1 x f : Int)
    (hr0 : 0 < r0) (hr1 : 0 < r1) (hx : 0 ≤ x) (h0 : 0 ≤ f) (h1 : f < 10000) :
    ∃ v : Int, GetAmountOut r0 r1 x f = some v
      ∧ (v : ℚ) ≤ (x : ℚ) * (r1 : ℚ) / (r0 : ℚ)
      ∧ (0 < f → 0 < x → (v : ℚ) < (x : ℚ) * (r1 : ℚ) / (r0 : ℚ)) := by
  have hg : 0 < 10000 - f := by omega
  have hD : 0 < 10000 * r0 + x * (10000 - f) := by positivity
  refine ⟨_, GetAmountOut_eq h0 h1.le hD.ne', ?_, ?_⟩
  · have hN : 0 ≤ x * (10000 - f) * r1 := by positivity
    have hv0 : 0 ≤ x * (10000 - f) * r1 / (10000 * r0 + x * (10000 - f)) :=
      Int.ediv_nonneg hN hD.le
    have hv := Int.ediv_mul_le (x * (10000 - f) * r1) hD.ne'
    set v := x * (10000 - f) * r1 / (10000 * r0 + x * (10000 - f)) with hvdef
    have key : v * r0 ≤ x * r1 := by
      have hxr : 0 ≤ x * r1 := by positivity
      have hvx : 0 ≤ v * x := by positivity
      nlinarith
    rw [le_div_iff₀ (by exact_mod_cast hr0)]
    exact_mod_cast key
  · intro _ hxpos
    have hN : 0 ≤ x * (10000 - f) * r1 := by positivity
    have hv0 : 0 ≤ x * (10000 - f) * r1 / (10000 * r0 + x * (10000 - f)) :=
      Int.ediv_nonneg hN hD.le
    have hv := Int.ediv_mul_le (x * (10000 - f) * r1) hD.ne'
    set v := x * (10000 - f) * r1 / (10000 * r0 + x * (10000 - f)) with hvdef
    have key : v * r0 < x * r1 := by
      have hxr : 0 < x * r1 := by positivity
      rcases hv0.eq_or_lt with hz | hp
      · rw [← hz]; simpa using hxr
      · have hvx : 0 < v * x := by positivity
        nlinarith
    rw [lt_div_iff₀ (by exact_mod_cast hr0)]
    exact_mod_cast key

theorem GetAmountOut_le_spot_witness :
    ∃ v : Int, GetAmountOut 1000 2000 100 30 = some v
      ∧ (v : ℚ) ≤ ((100 : Int) : ℚ) * ((2000 : Int) : ℚ) / ((1000 : Int) : ℚ)
      ∧ ((0 : Int) < 30 → (0 : Int) < 100
          → (v : ℚ) < ((100 : Int) : ℚ) * ((2000 : Int) : ℚ) / ((1000 : Int) : ℚ)) :=
  GetAmountOut_le_spot 1000 2000 100 30 (by decide) (by decide) (by decide) (by decide)
    (by decide)

/-- C5: for positive reserves `r0`, `r1`, an output `0 ≤ y < r1` and a fee
`0 ≤ f < 10000`, `GetAmountIn r0 r1 y f` returns a value that is at least the
rational `y*r0/r1`, strictly above it when `f > 0` and `y > 0`. -/
theorem GetAmountIn_ge_spot (r0 r1 y f : Int)
    (hr0 : 0 < r0) (hr1 : 0 < r1) (hy : 0 ≤ y) (hlt : y < r1)
    (h0 : 0 ≤ f) (h1 : f < 10000) :
    ∃ a : Int, GetAmountIn r0 r1 y f = some a
      ∧ (y : ℚ) * (r0 : ℚ) / (r1 : ℚ) ≤ (a : ℚ)
      ∧ (0 < f → 0 < y → (y : ℚ) * (r0 : ℚ) / (r1 : ℚ) < (a : ℚ)) := by
  have hg : 0 < 10000 - f := by omega
  have hry : 0 < r1 - y := by omega
  have hD : 0 < (r1 - y) * (10000 - f) := mul_pos hry hg
  have hN : 0 ≤ y * 10000 * r0 := by positivity
  have hq0 : 0 ≤ y * 10000 * r0 / ((r1 - y) * (10000 - f)) := Int.ediv_nonneg hN hD.le
  have hq := Int.lt_ediv_add_one_mul_self (y * 10000 * r0) hD
  set a := y * 10000 * r0 / ((r1 - y) * (10000 - f)) + 1 with hadef
  have ha : 0 < a := by omega
  have key : y * r0 < a * r1 := by
    have e1 : 0 ≤ a * (r1 * f) := by positivity
    have e2 : 0 ≤ a * (y * (10000 - f)) := by positivity
    nlinarith
  have hlt' : (y : ℚ) * (r0 : ℚ) / (r1 : ℚ) < (a : ℚ) := by
    rw [div_lt_iff₀ (by exact_mod_cast hr1)]
    exact_mod_cast key
  exact ⟨a, GetAmountIn_eq h0 h1.le hD.ne', hlt'.le, fun _ _ => hlt'⟩

theorem GetAmountIn_ge_spot_witness :
    ∃ a : Int, GetAmountIn 1000 2000 100 30 = some a
      ∧ ((100 : Int) : ℚ) * ((1000 : Int) : ℚ) / ((2000 : Int) : ℚ) ≤ (a : ℚ)
      ∧ ((0 : Int) < 30 → (0 : Int) < 100
          → ((100 : Int) : ℚ) * ((1000 : Int) : ℚ) / ((2000 : Int) : ℚ) < (a : ℚ)) :=
  GetAmountIn_ge_spot 1000 2000 100 30 (by decide) (by decide) (by decide) (by decide)
    (by decide) (by decide)

/-- C6 (as stated, refuted): with `r0 = 1000`, `r1 = 2000`, `y = 100` and fee
30 the quoted input is 53, and swapping 53 with the reserves exchanged returns
25, which is below `y = 100`. -/
theorem roundTrip_swapped_counterexample :
    GetAmountIn 1000 2000 100 30 = some 53
      ∧ GetAmountOut 2000 1000 53 30 = some 25
      ∧ ¬ ((100 : Int) ≤ 25) := by
  decide

/-- C6 (amended): the round trip bound with the reserves exchanged on the outer
call holds when additionally `r1 ≤ r0`: for positive reserves, `0 < y < r1`
and a fee `0 ≤ f < 10000`,
`GetAmountOut r1 r0 (GetAmountIn r0 r1 y f) f ≥ y`. -/
theorem roundTrip_swapped (r0 r1 y f : Int)
    (hr0 : 0 < r0) (hr1 : 0 < r1) (hy : 0 < y) (hlt : y < r1)
    (h0 : 0 ≤ f) (h1 : f < 10000) (hle : r1 ≤ r0) :
    ∃ a v : Int, GetAmountIn r0 r1 y f = some a
      ∧ GetAmountOut r1 r0 a f = some v ∧ y ≤ v := by
  have hg : 0 < 10000 - f := by omega
  have hry : 0 < r1 - y := by omega
  have hD : 0 < (r1 - y) * (10000 - f) := mul_pos hry hg
  have hN : 0 ≤ y * 10000 * r0 := by positivity
  have hq0 : 0 ≤ y * 10000 * r0 / ((r1 - y) * (10000 - f)) := Int.ediv_nonneg hN hD.le
  have hq := Int.lt_ediv_add_one_mul_self (y * 10000 * r0) hD
  set a := y * 10000 * r0 / ((r1 - y) * (10000 - f)) + 1 with hadef
  have ha : 0 < a := by omega
  have hD2 : 0 < 10000 * r1 + a * (10000 - f) := by positivity
  refine ⟨a, _, GetAmountIn_eq h0 h1.le hD.ne', GetAmountOut_eq h0 h1.le hD2.ne', ?_⟩
  rw [Int.le_ediv_iff_mul_le hD2]
  have ht : 0 < a * (10000 - f) := mul_pos ha hg
  have h2 : 0 ≤ (r0 - r1) * (y * 10000 + a * (10000 - f)) :=
    mul_nonneg (by omega) (by positivity)
  nlinarith

theorem roundTrip_swapped_witness :
    ∃ a v : Int, GetAmountIn 2000 1000 100 30 = some a
      ∧ GetAmountOut 1000 2000 a 30 = some v ∧ 100 ≤ v :=
  roundTrip_swapped 2000 1000 100 30 (by decide) (by decide) (by decide) (by decide)
    (by decide) (by decide) (by decide)

/-! ## The optimal-size solver -/

theorem natSqrtAux_eq : ∀ (fuel n : Nat), n ≤ fuel → natSqrtAux fuel n = Nat.sqrt n := by
  intro fuel
  induction fuel with
  | zero =>
    intro n hn
    have : n = 0 := by omega
    subst this
    simp [natSqrtAux]
  | succ fuel ih =>
    intro n hn
    unfold natSqrtAux
    by_cases h0 : n = 0
    · subst h0; simp
    · rw [if_neg h0]
      have hq : n / 4 ≤ fuel := by omega
      rw [ih (n / 4) hq]
      have hm := Nat.sqrt_le' (n / 4)
      have hm2 := Nat.lt_succ_sqrt' (n / 4)
      set m := Nat.sqrt (n / 4) with hmdef
      have h4 : 4 * (n / 4) ≤ n := Nat.mul_div_le n 4
      have h5 : n < 4 * (n / 4) + 4 := by omega
      have hlo : (2 * m) * (2 * m) ≤ n := by nlinarith
      have hhi : n < (2 * m + 1 + 1) * (2 * m + 1 + 1) := by
        have hm3 : n / 4 + 1 ≤ (m + 1) * (m + 1) := by
          have := hm2; simp only [Nat.succ_eq_add_one] at this
          nlinarith
        nlinarith
      dsimp only
      split_ifs with hc
      · exact Nat.eq_sqrt.mpr ⟨hc, hhi⟩
      · exact Nat.eq_sqrt.mpr ⟨hlo, by omega⟩

/-- The digit-by-digit root is the integer square root. -/
theorem natSqrt_eq (n : Nat) : natSqrt n = Nat.sqrt n := natSqrtAux_eq n n le_rfl

theorem bigSqrt_eq {x k : Int} (hk : 0 ≤ k) (h1 : k * k ≤ x) (h2 : x < (k + 1) * (k + 1)) :
    bigSqrt x = some k := by
  have hx : 0 ≤ x := le_trans (mul_self_nonneg k) h1
  obtain ⟨n, rfl⟩ := Int.eq_ofNat_of_zero_le hx
  obtain ⟨m, rfl⟩ := Int.eq_ofNat_of_zero_le hk
  have hs : m = Nat.sqrt n := by
    rw [Nat.eq_sqrt]
    constructor
    · exact_mod_cast h1
    · exact_mod_cast h2
  simp [bigSqrt, natSqrt_eq, hs]

theorem Decimal.Div_m4_m12 (n m : Int) (hm : 0 < m) :
    Decimal.Div ⟨n, -4⟩ ⟨m, -12⟩ = some ⟨divRoundInt (n * 10 ^ 24) m, -16⟩ := by
  have hm0 : m ≠ 0 := hm.ne'
  have habs : |m| = m := abs_of_pos hm
  simp only [Decimal.Div, Decimal.DivRound, Decimal.QuoRem, Decimal.DivisionPrecision, hm0,
    if_false]
  norm_num [Decimal.Cmp, Decimal.RescalePair, Decimal.Abs, Decimal.Sub, Decimal.Add, Decimal.New,
    Decimal.rescale, divRoundInt, habs]
  have hsg : Int.sign 1000000000000000000000000 = 1 := by decide
  rw [hsg, mul_one]
  by_cases hc : 2 * |(n * 1000000000000000000000000).tmod m| < m
  · simp [hc]
  · have hc2 : ¬ ((if 2 * |(n * 1000000000000000000000000).tmod m| = m then (0 : Int) else 1) < 0) := by
      split_ifs <;> decide
    simp only [hc, if_false, hc2]
    split_ifs <;> rfl

theorem floor_add_half_of_nonneg (a b : Int) (hb : 0 < b) :
    ⌊((a : ℚ) / (b : ℚ) + 1 / 2)⌋ = if 2 * (a % b) < b then a / b else a / b + 1 := by
  have hbq : (0 : ℚ) < (b : ℚ) := by exact_mod_cast hb
  have hdecomp : (a : ℚ) = (b : ℚ) * ((a / b : Int) : ℚ) + ((a % b : Int) : ℚ) := by
    have := Int.emod_add_ediv a b
    have h2 : (a : ℚ) = (((a % b + b * (a / b) : Int)) : ℚ) := by rw [this]
    rw [h2]; push_cast; ring
  have hr0 : (0 : ℚ) ≤ ((a % b : Int) : ℚ) := by exact_mod_cast Int.emod_nonneg a hb.ne'
  have hr1 : ((a % b : Int) : ℚ) < (b : ℚ) := by exact_mod_cast Int.emod_lt_of_pos a hb
  have hx : (a : ℚ) / (b : ℚ) = ((a / b : Int) : ℚ) + ((a % b : Int) : ℚ) / (b : ℚ) := by
    field_simp
    linarith
  split_ifs with h
  · rw [Int.floor_eq_iff, hx]
    have h' : 2 * ((a % b : Int) : ℚ) < (b : ℚ) := by exact_mod_cast h
    have hfrac : ((a % b : Int) : ℚ) / (b : ℚ) < 1 / 2 := by
      rw [div_lt_iff₀ hbq]; linarith
    have hfrac0 : 0 ≤ ((a % b : Int) : ℚ) / (b : ℚ) := div_nonneg hr0 hbq.le
    constructor <;> linarith
  · rw [Int.floor_eq_iff, hx]
    have h' : (b : ℚ) ≤ 2 * ((a % b : Int) : ℚ) := by exact_mod_cast not_lt.mp h
    have hfrac : 1 / 2 ≤ ((a % b : Int) : ℚ) / (b : ℚ) := by
      rw [le_div_iff₀ hbq]; linarith
    have hfrac1 : ((a % b : Int) : ℚ) / (b : ℚ) < 1 := by
      rw [div_lt_iff₀ hbq]; linarith
    push_cast
    constructor <;> linarith

theorem divRoundInt_eq_roundHalfAway (aa bb : Int) (hb : 0 < bb) :
    divRoundInt aa bb = roundHalfAway ((aa : ℚ) / (bb : ℚ)) := by
  have hbq : (0 : ℚ) < (bb : ℚ) := by exact_mod_cast hb
  have habs : |bb| = bb := abs_of_pos hb
  have hsb : Int.sign bb = 1 := Int.sign_eq_one_of_pos hb
  unfold divRoundInt roundHalfAway
  rw [habs, hsb, mul_one]
  rcases le_or_lt 0 aa with ha | ha
  · have hq : (0 : ℚ) ≤ (aa : ℚ) / (bb : ℚ) := div_nonneg (by exact_mod_cast ha) hbq.le
    rw [if_pos hq, floor_add_half_of_nonneg aa bb hb, Int.tdiv_eq_ediv ha hb.le,
      Int.tmod_eq_emod ha hb.le, abs_of_nonneg (Int.emod_nonneg aa hb.ne')]
    have hs : ¬ (Int.sign aa < 0) := by
      rcases ha.eq_or_lt with h | h
      · rw [← h]; decide
      · rw [Int.sign_eq_one_of_pos h]; decide
    simp only [hs, if_false]
  · have hq : ¬ ((0 : ℚ) ≤ (aa : ℚ) / (bb : ℚ)) := by
      rw [not_le]
      exact div_neg_of_neg_of_pos (by exact_mod_cast ha) hbq
    have hna : 0 ≤ -aa := by omega
    have e1 : Int.tdiv aa bb = -((-aa) / bb) := by
      have := Int.neg_tdiv (-aa) bb
      rw [neg_neg] at this
      rw [this, Int.tdiv_eq_ediv hna hb.le]
    have e2 : Int.tmod aa bb = -((-aa) % bb) := by
      have h1 := Int.tmod_add_tdiv aa bb
      have h2 := Int.emod_add_ediv (-aa) bb
      rw [e1] at h1
      linarith
    have e3 : -((aa : ℚ) / (bb : ℚ)) = (((-aa : Int)) : ℚ) / (bb : ℚ) := by
      push_cast; ring
    rw [if_neg hq, e3, floor_add_half_of_nonneg (-aa) bb hb, e1, e2, abs_neg,
      abs_of_nonneg (Int.emod_nonneg (-aa) hb.ne'), Int.sign_eq_neg_one_of_neg ha]
    have hs : ((-1 : Int) < 0) := by decide
    simp only [hs, if_true]
    split_ifs <;> ring

theorem bigSqrt_of_nonneg {x : Int} (hx : 0 ≤ x) :
    bigSqrt x = some (Int.ofNat (Nat.sqrt x.toNat)) := by
  simp [bigSqrt, natSqrt_eq, not_lt.mpr hx]

theorem Decimal.BigInt_m16 (v : Int) : Decimal.BigInt ⟨v, -16⟩ = Int.tdiv v (10 ^ 16) := rfl

/-- The scaled denominator of the solver is positive. -/
theorem solverDenominator_pos (rbo rsi fb fs : Int) (hb1 : fb < 10000) (hs1 : fs < 10000)
    (h2 : 0 ≤ rbo) (h3 : 0 ≤ rsi) (hpos : 0 < rsi + rbo) :
    0 < rsi * ((10000 - fb) * (10000 - fb)) * 10 ^ 4
      + (10000 - fs) * rbo * ((10000 - fb) * (10000 - fb)) := by
  have hk1 : 0 < 10000 - fb := by omega
  have hk2 : 0 < 10000 - fs := by omega
  have hkk : 0 < (10000 - fb) * (10000 - fb) := mul_pos hk1 hk1
  rcases h3.eq_or_lt with hz | hp
  · have hrbo : 0 < rbo := by omega
    have : 0 < (10000 - fs) * rbo * ((10000 - fb) * (10000 - fb)) := by positivity
    rw [← hz]; simpa using this
  · have t1 : 0 < rsi * ((10000 - fb) * (10000 - fb)) * 10 ^ 4 := by positivity
    have t2 : 0 ≤ (10000 - fs) * rbo * ((10000 - fb) * (10000 - fb)) := by positivity
    linarith

/-- The solver in explicit integer form: the radicand is the product of the four
reserves and the fee numerators divided by `10 ^ 16`, and the quotient is the
scaled numerator over the scaled denominator, rounded at 16 decimals. -/
theorem CalculateOptimalTokenInTwoFees_eq (rbi rbo rsi rso fb fs : Int)
    (hb0 : 0 ≤ fb) (hb1 : fb < 10000) (hs0 : 0 ≤ fs) (hs1 : fs < 10000)
    (h1 : 0 ≤ rbi) (h2 : 0 ≤ rbo) (h3 : 0 ≤ rsi) (h4 : 0 ≤ rso) (hpos : 0 < rsi + rbo) :
    CalculateOptimalTokenInTwoFees rbi rbo rsi rso fb fs
      = some ⟨divRoundInt
          ((-((10000 - fb) * rsi * rbi)
              + Int.ofNat (Nat.sqrt (Int.toNat
                  ((rbi * rbo * rsi * rso * ((10000 - fb) * (10000 - fb) * (10000 - fb))
                    * (10000 - fs)) / 10 ^ 16))) * 10 ^ 4) * 10 ^ 24)
          (rsi * ((10000 - fb) * (10000 - fb)) * 10 ^ 4
            + (10000 - fs) * rbo * ((10000 - fb) * (10000 - fb))), -16⟩ := by
  have hk1 : 0 < 10000 - fb := by omega
  have hk2 : 0 < 10000 - fs := by omega
  have hP : 0 ≤ rbi * rbo * rsi * rso * ((10000 - fb) * (10000 - fb) * (10000 - fb))
      * (10000 - fs) := by positivity
  have hden := solverDenominator_pos rbo rsi fb fs hb1 hs1 h2 h3 hpos
  unfold CalculateOptimalTokenInTwoFees
  simp only [wrapInt64_fee hb0 hb1.le, wrapInt64_fee hs0 hs1.le]
  have hrad : ∀ k1 k2 : Int,
      Decimal.BigInt ((((((Decimal.NewFromBigInt rbi 0).Mul (Decimal.NewFromBigInt rbo 0)).Mul
        (Decimal.NewFromBigInt rsi 0)).Mul (Decimal.NewFromBigInt rso 0)).Mul
        ((Decimal.NewFromFloatOverFeeDenominator k1).Pow 3)).Mul
        (Decimal.NewFromFloatOverFeeDenominator k2))
      = Int.tdiv (rbi * rbo * rsi * rso * (1 * k1 * k1 * k1) * k2) (10 ^ 16) := fun _ _ => rfl
  rw [hrad]
  have e1 : rbi * rbo * rsi * rso * (1 * (10000 - fb) * (10000 - fb) * (10000 - fb))
      * (10000 - fs)
      = rbi * rbo * rsi * rso * ((10000 - fb) * (10000 - fb) * (10000 - fb))
      * (10000 - fs) := by ring
  rw [e1, Int.tdiv_eq_ediv hP (by positivity),
    bigSqrt_of_nonneg (Int.ediv_nonneg hP (by positivity))]
  have hnum : ∀ k1 s : Int,
      ((((Decimal.NewFromFloatOverFeeDenominator k1).Mul (Decimal.NewFromBigInt rsi 0)).Mul
        (Decimal.NewFromBigInt rbi 0)).Neg).Add (Decimal.NewFromBigInt s 0)
      = ⟨-(k1 * rsi * rbi) + s * 10 ^ 4, -4⟩ := fun _ _ => rfl
  have hdn : ∀ k1 k2 : Int,
      ((Decimal.NewFromBigInt rsi 0).Mul ((Decimal.NewFromFloatOverFeeDenominator k1).Pow 2)).Add
        (((Decimal.NewFromFloatOverFeeDenominator k2).Mul (Decimal.NewFromBigInt rbo 0)).Mul
          ((Decimal.NewFromFloatOverFeeDenominator k1).Pow 2))
      = ⟨rsi * (1 * k1 * k1) * 10 ^ 4 + k2 * rbo * (1 * k1 * k1), -12⟩ := fun _ _ => rfl
  simp only [hnum, hdn]
  have e2 : rsi * (1 * (10000 - fb) * (10000 - fb)) * 10 ^ 4
      + (10000 - fs) * rbo * (1 * (10000 - fb) * (10000 - fb))
      = rsi * ((10000 - fb) * (10000 - fb)) * 10 ^ 4
      + (10000 - fs) * rbo * ((10000 - fb) * (10000 - fb)) := by ring
  rw [e2, Decimal.Div_m4_m12 _ _ hden]

theorem specOptimalInput_scaled (rbi rbo rsi rso fb fs : Int)
    (hb1 : fb < 10000) (hs1 : fs < 10000)
    (h2 : 0 ≤ rbo) (h3 : 0 ≤ rsi) (hpos : 0 < rsi + rbo) :
    specOptimalInput rbi rbo rsi rso fb fs * 10 ^ 16
      = (((-((10000 - fb) * rsi * rbi)
              + Int.ofNat (Nat.sqrt (Int.toNat
                  ((rbi * rbo * rsi * rso * ((10000 - fb) * (10000 - fb) * (10000 - fb))
                    * (10000 - fs)) / 10 ^ 16))) * 10 ^ 4) * 10 ^ 24 : Int) : ℚ)
        / ((rsi * ((10000 - fb) * (10000 - fb)) * 10 ^ 4
            + (10000 - fs) * rbo * ((10000 - fb) * (10000 - fb)) : Int) : ℚ) := by
  have hk1 : 0 < 10000 - fb := by omega
  have hk2 : 0 < 10000 - fs := by omega
  have hden := solverDenominator_pos rbo rsi fb fs hb1 hs1 h2 h3 hpos
  have hdenq : ((rsi * ((10000 - fb) * (10000 - fb)) * 10 ^ 4
      + (10000 - fs) * rbo * ((10000 - fb) * (10000 - fb)) : Int) : ℚ) ≠ 0 := by
    exact_mod_cast hden.ne'
  have hfloor : ⌊(rbi : ℚ) * rbo * rsi * rso * (((10000 - fb : Int) : ℚ) / 10000) ^ 3
        * (((10000 - fs : Int) : ℚ) / 10000)⌋
      = (rbi * rbo * rsi * rso * ((10000 - fb) * (10000 - fb) * (10000 - fb))
          * (10000 - fs)) / 10 ^ 16 := by
    rw [← floor_ratDiv_of_pos _ _ (by positivity : (0 : Int) < 10 ^ 16)]
    congr 1
    push_cast
    ring
  unfold specOptimalInput
  simp only [hfloor]
  have hden2 : (rsi : ℚ) * (((10000 - fb : Int) : ℚ) / 10000) ^ 2
      + (((10000 - fs : Int) : ℚ) / 10000) * rbo * (((10000 - fb : Int) : ℚ) / 10000) ^ 2 ≠ 0 := by
    have : (rsi : ℚ) * (((10000 - fb : Int) : ℚ) / 10000) ^ 2
      + (((10000 - fs : Int) : ℚ) / 10000) * rbo * (((10000 - fb : Int) : ℚ) / 10000) ^ 2
      = ((rsi * ((10000 - fb) * (10000 - fb)) * 10 ^ 4
      + (10000 - fs) * rbo * ((10000 - fb) * (10000 - fb)) : Int) : ℚ) / 10 ^ 12 := by
      push_cast; ring
    rw [this]
    exact div_ne_zero hdenq (by positivity)
  rw [div_mul_eq_mul_div, div_eq_div_iff hden2 hdenq]
  push_cast
  simp only [Int.ofNat_eq_coe, Int.cast_natCast]
  ring

/-- C8 (as stated, refuted): for a buy pool `(2, 1)`, a sell pool `(1, 1)` and
zero fees the closed form is `-1/2`, whose floor is `-1`, while the integer the
search uses is `0`. -/
theorem optimalSize_floor_counterexample :
    optimalSize 2 1 1 1 0 0 = some 0
      ∧ ⌊specOptimalInput 2 1 1 1 0 0⌋ = -1 := by
  constructor
  · decide!
  · have hs : Nat.sqrt 2 = 1 := (Nat.eq_sqrt.mpr ⟨by decide, by decide⟩).symm
    have hv : specOptimalInput 2 1 1 1 0 0 = -1 / 2 := by
      have ht : Int.toNat 2 = 2 := rfl
      unfold specOptimalInput
      norm_num [ht, hs]
    rw [hv, Int.floor_eq_iff]
    norm_num

/-- C8 (amended): for non-negative reserves with `r_sell_in + r_buy_out > 0` and
fees in `[0, 10000)`, the integer optimal input the search uses is the closed
form of the specification rounded to 16 decimal places (halves away from zero)
and then truncated toward zero. -/
theorem optimalSize_eq_spec (r_buy_in r_buy_out r_sell_in r_sell_out f_buy f_sell : Int)
    (hb0 : 0 ≤ f_buy) (hb1 : f_buy < 10000) (hs0 : 0 ≤ f_sell) (hs1 : f_sell < 10000)
    (h1 : 0 ≤ r_buy_in) (h2 : 0 ≤ r_buy_out) (h3 : 0 ≤ r_sell_in) (h4 : 0 ≤ r_sell_out)
    (hpos : 0 < r_sell_in + r_buy_out) :
    optimalSize r_buy_in r_buy_out r_sell_in r_sell_out f_buy f_sell
      = some (Int.tdiv
          (roundHalfAway
            (specOptimalInput r_buy_in r_buy_out r_sell_in r_sell_out f_buy f_sell * 10 ^ 16))
          (10 ^ 16)) := by
  have hden := solverDenominator_pos r_buy_out r_sell_in f_buy f_sell hb1 hs1 h2 h3 hpos
  unfold optimalSize
  rw [CalculateOptimalTokenInTwoFees_eq _ _ _ _ _ _ hb0 hb1 hs0 hs1 h1 h2 h3 h4 hpos,
    specOptimalInput_scaled _ _ _ _ _ _ hb1 hs1 h2 h3 hpos,
    ← divRoundInt_eq_roundHalfAway _ _ hden]
  rfl

theorem optimalSize_eq_spec_witness :
    optimalSize 1 4 1 10 30 30
      = some (Int.tdiv (roundHalfAway (specOptimalInput 1 4 1 10 30 30 * 10 ^ 16)) (10 ^ 16)) :=
  optimalSize_eq_spec 1 4 1 10 30 30 (by decide) (by decide) (by decide) (by decide)
    (by decide) (by decide) (by decide) (by decide) (by decide)

theorem profit_le_max {K : Type} [LinearOrderedField K] (Kc A B σ x : K)
    (hA : 0 < A) (hB : 0 < B) (hσ : 0 < σ) (hσ2 : σ * σ = Kc * A) (hx : 0 ≤ x) :
    Kc * x / (A + B * x) - x ≤ Kc * ((σ - A) / B) / (A + B * ((σ - A) / B)) - (σ - A) / B := by
  have hu : 0 < A + B * x := by positivity
  have e : A + B * ((σ - A) / B) = σ := by field_simp
  rw [e]
  have hK : Kc = σ * σ / A := by field_simp; linarith
  subst hK
  rw [← sub_nonneg]
  have key : σ * σ / A * ((σ - A) / B) / σ - (σ - A) / B - (σ * σ / A * x / (A + B * x) - x)
      = (A + B * x - σ) ^ 2 / (B * (A + B * x)) := by
    field_simp
    ring
  rw [key]
  positivity

theorem profitExact_eq {K : Type} [LinearOrderedField K] (rbi rbo rsi rso fb fs x : K)
    (hD1 : 10000 * rbi + x * (10000 - fb) ≠ 0)
    (hu : 10000 * 10000 * rbi * rsi + (10000 - fb) * (10000 * rsi + (10000 - fs) * rbo) * x ≠ 0) :
    profitExact rbi rbo rsi rso fb fs x
      = (10000 - fb) * (10000 - fs) * rbo * rso * x
          / (10000 * 10000 * rbi * rsi + (10000 - fb) * (10000 * rsi + (10000 - fs) * rbo) * x)
        - x := by
  unfold profitExact amountOutExact
  congr 1
  have h2 : 10000 * rsi + x * (10000 - fb) * rbo / (10000 * rbi + x * (10000 - fb)) * (10000 - fs)
      = (10000 * 10000 * rbi * rsi + (10000 - fb) * (10000 * rsi + (10000 - fs) * rbo) * x)
        / (10000 * rbi + x * (10000 - fb)) := by
    field_simp
    ring
  rw [h2]
  field_simp
  ring

theorem profitExact_le_closedForm {K : Type} [LinearOrderedField K]
    (rbi rbo rsi rso fb fs s x : K)
    (h1 : 0 < rbi) (h2 : 0 < rbo) (h3 : 0 < rsi) (h4 : 0 < rso)
    (hb : fb < 10000) (hs : fs < 10000) (hs0 : 0 ≤ s)
    (hsq : s ^ 2 = rbi * rbo * rsi * rso * ((10000 - fb) / 10000) ^ 3 * ((10000 - fs) / 10000))
    (hx : 0 ≤ x) :
    profitExact rbi rbo rsi rso fb fs x
      ≤ profitExact rbi rbo rsi rso fb fs (closedFormExact rbi rbo rsi fb fs s) := by
  have hk1 : 0 < 10000 - fb := by linarith
  have hk2 : 0 < 10000 - fs := by linarith
  set k1 := 10000 - fb with hk1def
  set k2 := 10000 - fs with hk2def
  set A := 10000 * 10000 * rbi * rsi with hAdef
  set B := k1 * (10000 * rsi + k2 * rbo) with hBdef
  set Kc := k1 * k2 * rbo * rso with hKdef
  set σ := s * 10000 ^ 3 / k1 with hσdef
  have hA : 0 < A := by positivity
  have hB : 0 < B := by positivity
  have hKc : 0 < Kc := by positivity
  have hσ2 : σ * σ = Kc * A := by
    rw [hσdef, hKdef, hAdef]
    field_simp
    field_simp at hsq
    linear_combination (10000 : K) ^ 2 * hsq
  have hσ0 : 0 ≤ σ := by positivity
  have hσ : 0 < σ := by
    rcases hσ0.eq_or_lt with h | h
    · exfalso
      rw [← h] at hσ2
      have : 0 < Kc * A := by positivity
      linarith
    · exact h
  have hcf : closedFormExact rbi rbo rsi fb fs s = (σ - A) / B := by
    unfold closedFormExact
    simp only [← hk1def, ← hk2def]
    rw [hσdef, hAdef, hBdef]
    have hden : rsi * (k1 / 10000) ^ 2 + k2 / 10000 * rbo * (k1 / 10000) ^ 2 ≠ 0 := by
      have : 0 < rsi * (k1 / 10000) ^ 2 + k2 / 10000 * rbo * (k1 / 10000) ^ 2 := by positivity
      exact this.ne'
    rw [div_eq_div_iff hden hB.ne']
    field_simp
    ring
  have hux : 0 < A + B * x := by positivity
  have hD1x : 0 < 10000 * rbi + x * k1 := by positivity
  have hur : A + B * ((σ - A) / B) = σ := by field_simp
  have hD1r : 0 < 10000 * rbi + (σ - A) / B * k1 := by
    have : 10000 * rbi + (σ - A) / B * k1
        = k1 * (10000 * rbi * k2 * rbo + σ) / B := by
      rw [hAdef, hBdef]
      field_simp
      ring
    rw [this]
    positivity
  rw [hcf, profitExact_eq _ _ _ _ _ _ x hD1x.ne' (by
        simp only [← hk1def, ← hk2def]; exact hux.ne'),
    profitExact_eq _ _ _ _ _ _ ((σ - A) / B) hD1r.ne' (by
        simp only [← hk1def, ← hk2def]
        show A + B * ((σ - A) / B) ≠ 0
        rw [hur]; exact hσ.ne')]
  exact profit_le_max Kc A B σ x hA hB hσ hσ2 hx

theorem amountOutExact_mono {K : Type} [LinearOrderedField K] (rin rout fee t1 t2 : K)
    (hin : 0 < rin) (hout : 0 ≤ rout) (hfee : fee ≤ 10000) (h1 : 0 ≤ t1) (h12 : t1 ≤ t2) :
    amountOutExact rin rout t1 fee ≤ amountOutExact rin rout t2 fee := by
  unfold amountOutExact
  have hk : 0 ≤ 10000 - fee := by linarith
  have h2 : 0 ≤ t2 := le_trans h1 h12
  have hd1 : 0 < 10000 * rin + t1 * (10000 - fee) := by positivity
  have hd2 : 0 < 10000 * rin + t2 * (10000 - fee) := by positivity
  rw [div_le_div_iff₀ hd1 hd2]
  have : 0 ≤ (t2 - t1) * ((10000 - fee) * rout * (10000 * rin)) :=
    mul_nonneg (by linarith) (by positivity)
  nlinarith

theorem cast_ediv_le {K : Type} [LinearOrderedField K] (n d : Int) (hd : 0 < d) :
    ((n / d : Int) : K) ≤ (n : K) / (d : K) := by
  have h := Int.ediv_mul_le n hd.ne'
  rw [le_div_iff₀ (by exact_mod_cast hd)]
  exact_mod_cast h

/-- C7 (as stated, refuted): for a buy pool `(1, 4)`, a sell pool `(1, 10)` and
fee 30 on both, the integer optimal input is `1` with profit `4 - 1 = 3`, while
the input `2` earns `6 - 2 = 4`. -/
theorem optimalSize_not_maximal :
    optimalSize 1 4 1 10 30 30 = some 1
      ∧ GetAmountOut 1 4 1 30 = some 1 ∧ GetAmountOut 1 10 1 30 = some 4
      ∧ GetAmountOut 1 4 2 30 = some 2 ∧ GetAmountOut 1 10 2 30 = some 6
      ∧ ¬ ((6 : Int) - 2 ≤ 4 - 1) := by
  refine ⟨by decide!, by decide, by decide, by decide, by decide, by decide⟩

theorem twoLeg_le_exactOptimum (K : Type) [LinearOrderedField K]
    (r_buy_in r_buy_out r_sell_in r_sell_out f_buy f_sell x' : Int) (s : K)
    (h1 : 0 < r_buy_in) (h2 : 0 < r_buy_out) (h3 : 0 < r_sell_in) (h4 : 0 < r_sell_out)
    (hb0 : 0 ≤ f_buy) (hb1 : f_buy < 10000) (hs0 : 0 ≤ f_sell) (hs1 : f_sell < 10000)
    (hs : 0 ≤ s)
    (hsq : s ^ 2 = (r_buy_in : K) * r_buy_out * r_sell_in * r_sell_out
      * ((10000 - (f_buy : K)) / 10000) ^ 3 * ((10000 - (f_sell : K)) / 10000))
    (hx : 0 ≤ x') :
    ∃ tokens proceeds : Int,
      GetAmountOut r_buy_in r_buy_out x' f_buy = some tokens
      ∧ GetAmountOut r_sell_in r_sell_out tokens f_sell = some proceeds
      ∧ ((proceeds - x' : Int) : K)
          ≤ profitExact (r_buy_in : K) r_buy_out r_sell_in r_sell_out f_buy f_sell
              (closedFormExact (r_buy_in : K) r_buy_out r_sell_in f_buy f_sell s)
      ∧ ∀ x : K, 0 ≤ x →
          profitExact (r_buy_in : K) r_buy_out r_sell_in r_sell_out f_buy f_sell x
            ≤ profitExact (r_buy_in : K) r_buy_out r_sell_in r_sell_out f_buy f_sell
                (closedFormExact (r_buy_in : K) r_buy_out r_sell_in f_buy f_sell s) := by
  have hk1 : 0 < 10000 - f_buy := by omega
  have hk2 : 0 < 10000 - f_sell := by omega
  have hD1 : 0 < 10000 * r_buy_in + x' * (10000 - f_buy) := by positivity
  have hN1 : 0 ≤ x' * (10000 - f_buy) * r_buy_out := by positivity
  have hy0 : 0 ≤ x' * (10000 - f_buy) * r_buy_out / (10000 * r_buy_in + x' * (10000 - f_buy)) :=
    Int.ediv_nonneg hN1 hD1.le
  set y := x' * (10000 - f_buy) * r_buy_out / (10000 * r_buy_in + x' * (10000 - f_buy))
    with hydef
  have hD2 : 0 < 10000 * r_sell_in + y * (10000 - f_sell) := by positivity
  have hmax : ∀ x : K, 0 ≤ x →
      profitExact (r_buy_in : K) r_buy_out r_sell_in r_sell_out f_buy f_sell x
        ≤ profitExact (r_buy_in : K) r_buy_out r_sell_in r_sell_out f_buy f_sell
            (closedFormExact (r_buy_in : K) r_buy_out r_sell_in f_buy f_sell s) :=
    fun x hx0 => profitExact_le_closedForm _ _ _ _ _ _ s x (by exact_mod_cast h1)
      (by exact_mod_cast h2) (by exact_mod_cast h3) (by exact_mod_cast h4)
      (by exact_mod_cast hb1) (by exact_mod_cast hs1) hs hsq hx0
  refine ⟨y, _, GetAmountOut_eq hb0 hb1.le hD1.ne', GetAmountOut_eq hs0 hs1.le hD2.ne', ?_, hmax⟩
  have hxK : (0 : K) ≤ (x' : K) := by exact_mod_cast hx
  have hyK : (0 : K) ≤ (y : K) := by exact_mod_cast hy0
  have e1 : (y : K) ≤ amountOutExact (r_buy_in : K) r_buy_out x' f_buy := by
    have := cast_ediv_le (K := K) (x' * (10000 - f_buy) * r_buy_out)
      (10000 * r_buy_in + x' * (10000 - f_buy)) hD1
    unfold amountOutExact
    push_cast at this
    exact this
  have e2 : ((y * (10000 - f_sell) * r_sell_out / (10000 * r_sell_in + y * (10000 - f_sell)) : Int) : K)
      ≤ amountOutExact (r_sell_in : K) r_sell_out y f_sell := by
    have := cast_ediv_le (K := K) (y * (10000 - f_sell) * r_sell_out)
      (10000 * r_sell_in + y * (10000 - f_sell)) hD2
    unfold amountOutExact
    push_cast at this
    exact this
  have e3 := amountOutExact_mono (r_sell_in : K) r_sell_out f_sell (y : K)
    (amountOutExact (r_buy_in : K) r_buy_out x' f_buy) (by exact_mod_cast h3)
    (by exact_mod_cast h4.le) (by exact_mod_cast hs1.le) hyK e1
  have e4 := hmax (x' : K) hxK
  unfold profitExact at e4 ⊢
  push_cast
  linarith

theorem profit_gap_eq {K : Type} [LinearOrderedField K] (Kc A B σ x : K)
    (hA : 0 < A) (hB : 0 < B) (hσ : 0 < σ) (hσ2 : σ * σ = Kc * A) (hx : 0 ≤ x) :
    Kc * ((σ - A) / B) / (A + B * ((σ - A) / B)) - (σ - A) / B - (Kc * x / (A + B * x) - x)
      = (A + B * x - σ) ^ 2 / (B * (A + B * x)) := by
  have hu : 0 < A + B * x := by positivity
  have e : A + B * ((σ - A) / B) = σ := by field_simp
  rw [e]
  have hK : Kc = σ * σ / A := by field_simp; linarith
  subst hK
  field_simp
  ring

theorem profitExact_gap {K : Type} [LinearOrderedField K]
    (rbi rbo rsi rso fb fs s x : K)
    (h1 : 0 < rbi) (h2 : 0 < rbo) (h3 : 0 < rsi) (h4 : 0 < rso)
    (hb : fb < 10000) (hs : fs < 10000) (hs0 : 0 ≤ s)
    (hsq : s ^ 2 = rbi * rbo * rsi * rso * ((10000 - fb) / 10000) ^ 3 * ((10000 - fs) / 10000))
    (hx : 0 < x) :
    profitExact rbi rbo rsi rso fb fs (closedFormExact rbi rbo rsi fb fs s)
        - profitExact rbi rbo rsi rso fb fs x
      ≤ (x - closedFormExact rbi rbo rsi fb fs s) ^ 2 / x := by
  have hk1 : 0 < 10000 - fb := by linarith
  have hk2 : 0 < 10000 - fs := by linarith
  set k1 := 10000 - fb with hk1def
  set k2 := 10000 - fs with hk2def
  set A := 10000 * 10000 * rbi * rsi with hAdef
  set B := k1 * (10000 * rsi + k2 * rbo) with hBdef
  set Kc := k1 * k2 * rbo * rso with hKdef
  set σ := s * 10000 ^ 3 / k1 with hσdef
  have hA : 0 < A := by positivity
  have hB : 0 < B := by positivity
  have hKc : 0 < Kc := by positivity
  have hσ2 : σ * σ = Kc * A := by
    rw [hσdef, hKdef, hAdef]
    field_simp
    field_simp at hsq
    linear_combination (10000 : K) ^ 2 * hsq
  have hσ0 : 0 ≤ σ := by positivity
  have hσ : 0 < σ := by
    rcases hσ0.eq_or_lt with h | h
    · exfalso
      rw [← h] at hσ2
      have : 0 < Kc * A := by positivity
      linarith
    · exact h
  have hcf : closedFormExact rbi rbo rsi fb fs s = (σ - A) / B := by
    unfold closedFormExact
    simp only [← hk1def, ← hk2def]
    rw [hσdef, hAdef, hBdef]
    have hden : rsi * (k1 / 10000) ^ 2 + k2 / 10000 * rbo * (k1 / 10000) ^ 2 ≠ 0 := by
      have : 0 < rsi * (k1 / 10000) ^ 2 + k2 / 10000 * rbo * (k1 / 10000) ^ 2 := by positivity
      exact this.ne'
    rw [div_eq_div_iff hden hB.ne']
    field_simp
    ring
  have hux : 0 < A + B * x := by positivity
  have hD1x : 0 < 10000 * rbi + x * k1 := by positivity
  have hur : A + B * ((σ - A) / B) = σ := by field_simp
  have hD1r : 0 < 10000 * rbi + (σ - A) / B * k1 := by
    have : 10000 * rbi + (σ - A) / B * k1
        = k1 * (10000 * rbi * k2 * rbo + σ) / B := by
      rw [hAdef, hBdef]
      field_simp
      ring
    rw [this]
    positivity
  rw [hcf, profitExact_eq _ _ _ _ _ _ x hD1x.ne' (by
        simp only [← hk1def, ← hk2def]; exact hux.ne'),
    profitExact_eq _ _ _ _ _ _ ((σ - A) / B) hD1r.ne' (by
        simp only [← hk1def, ← hk2def]
        show A + B * ((σ - A) / B) ≠ 0
        rw [hur]; exact hσ.ne')]
  simp only [← hk1def, ← hk2def]
  have hgap := profit_gap_eq Kc A B σ x hA hB hσ hσ2 hx.le
  have e1 : (A + B * x - σ) ^ 2 / (B * (A + B * x))
      = (x - (σ - A) / B) ^ 2 * (B / (A + B * x)) := by
    field_simp
    ring
  have hle : B / (A + B * x) ≤ 1 / x := by
    rw [div_le_div_iff₀ hux hx]
    linarith
  have hsqn : 0 ≤ (x - (σ - A) / B) ^ 2 := sq_nonneg _
  calc Kc * ((σ - A) / B) / (A + B * ((σ - A) / B)) - (σ - A) / B - (Kc * x / (A + B * x) - x)
      = (x - (σ - A) / B) ^ 2 * (B / (A + B * x)) := by rw [hgap, e1]
    _ ≤ (x - (σ - A) / B) ^ 2 * (1 / x) := mul_le_mul_of_nonneg_left hle hsqn
    _ = (x - (σ - A) / B) ^ 2 / x := by rw [mul_one_div]

theorem amountOutExact_lipschitz {K : Type} [LinearOrderedField K] (rin rout fee t1 t2 : K)
    (hin : 0 < rin) (hout : 0 ≤ rout) (hfee : fee ≤ 10000) (h1 : 0 ≤ t1) (h12 : t1 ≤ t2) :
    amountOutExact rin rout t2 fee - amountOutExact rin rout t1 fee
      ≤ (t2 - t1) * ((10000 - fee) * rout / (10000 * rin)) := by
  unfold amountOutExact
  have hk : 0 ≤ 10000 - fee := by linarith
  have h2 : 0 ≤ t2 := le_trans h1 h12
  have hd1 : 0 < 10000 * rin + t1 * (10000 - fee) := by positivity
  have hd2 : 0 < 10000 * rin + t2 * (10000 - fee) := by positivity
  have hd0 : 0 < 10000 * rin := by positivity
  have e : t2 * (10000 - fee) * rout / (10000 * rin + t2 * (10000 - fee))
      - t1 * (10000 - fee) * rout / (10000 * rin + t1 * (10000 - fee))
      = (t2 - t1) * ((10000 - fee) * rout) * (10000 * rin)
        / ((10000 * rin + t2 * (10000 - fee)) * (10000 * rin + t1 * (10000 - fee))) := by
    field_simp
    ring
  rw [e]
  have hX : 0 ≤ t2 - t1 := by linarith
  have hN : 0 ≤ (10000 - fee) * rout := by positivity
  have hP : (10000 * rin) * (10000 * rin)
      ≤ (10000 * rin + t2 * (10000 - fee)) * (10000 * rin + t1 * (10000 - fee)) := by
    have a1 : 0 ≤ t2 * (10000 - fee) := by positivity
    have a2 : 0 ≤ t1 * (10000 - fee) := by positivity
    nlinarith [mul_nonneg a1 a2, mul_nonneg a1 hd0.le, mul_nonneg a2 hd0.le]
  have e2 : (t2 - t1) * ((10000 - fee) * rout / (10000 * rin))
      = (t2 - t1) * ((10000 - fee) * rout) / (10000 * rin) := by ring
  rw [e2, div_le_div_iff₀ (by positivity) hd0]
  have hXN : 0 ≤ (t2 - t1) * ((10000 - fee) * rout) := mul_nonneg hX hN
  calc (t2 - t1) * ((10000 - fee) * rout) * (10000 * rin) * (10000 * rin)
      = (t2 - t1) * ((10000 - fee) * rout) * ((10000 * rin) * (10000 * rin)) := by ring
    _ ≤ (t2 - t1) * ((10000 - fee) * rout)
        * ((10000 * rin + t2 * (10000 - fee)) * (10000 * rin + t1 * (10000 - fee))) :=
      mul_le_mul_of_nonneg_left hP hXN

theorem natSqrt_floor_bounds (P : ℚ) (hP : 0 ≤ P) (s : ℝ) (hs : 0 ≤ s) (hsq : s ^ 2 = (P : ℝ)) :
    ((Nat.sqrt ⌊P⌋.toNat : Nat) : ℝ) ≤ s ∧ s < ((Nat.sqrt ⌊P⌋.toNat : Nat) : ℝ) + 1 := by
  have hf0 : 0 ≤ ⌊P⌋ := Int.floor_nonneg.mpr hP
  have hcast : ((⌊P⌋.toNat : Nat) : Int) = ⌊P⌋ := Int.toNat_of_nonneg hf0
  set n := ⌊P⌋.toNat with hn
  set m := Nat.sqrt n with hm
  have h1 : m * m ≤ n := Nat.sqrt_le n
  have h2 : n < (m + 1) * (m + 1) := Nat.lt_succ_sqrt n
  have hnP : ((n : Nat) : ℝ) ≤ (P : ℝ) := by
    have : ((n : Nat) : ℚ) ≤ P := by
      have e : ((n : Nat) : ℚ) = ((⌊P⌋ : Int) : ℚ) := by
        rw [← hcast]; push_cast; rfl
      rw [e]; exact Int.floor_le P
    exact_mod_cast this
  have hPn : (P : ℝ) < ((n : Nat) : ℝ) + 1 := by
    have : P < ((n : Nat) : ℚ) + 1 := by
      have e : ((n : Nat) : ℚ) = ((⌊P⌋ : Int) : ℚ) := by
        rw [← hcast]; push_cast; rfl
      rw [e]; exact Int.lt_floor_add_one P
    exact_mod_cast this
  have h1r : (m : ℝ) * (m : ℝ) ≤ (n : ℝ) := by exact_mod_cast h1
  have h2r : (n : ℝ) + 1 ≤ ((m : ℝ) + 1) * ((m : ℝ) + 1) := by
    have : n + 1 ≤ (m + 1) * (m + 1) := h2
    exact_mod_cast this
  have hm0 : (0 : ℝ) ≤ (m : ℝ) := Nat.cast_nonneg m
  constructor
  · by_contra hlt
    rw [not_le] at hlt
    nlinarith
  · by_contra hge
    rw [not_lt] at hge
    nlinarith

theorem optimalSize_round_bounds
    (r_buy_in r_buy_out r_sell_in r_sell_out f_buy f_sell xs : Int)
    (h1 : 0 < r_buy_in) (h2 : 0 < r_buy_out) (h3 : 0 < r_sell_in) (h4 : 0 < r_sell_out)
    (hb0 : 0 ≤ f_buy) (hb1 : f_buy < 10000) (hs0 : 0 ≤ f_sell) (hs1 : f_sell < 10000)
    (hopt : optimalSize r_buy_in r_buy_out r_sell_in r_sell_out f_buy f_sell = some xs)
    (hxs : 0 < xs) :
    (xs : ℚ) ≤ specOptimalInput r_buy_in r_buy_out r_sell_in r_sell_out f_buy f_sell + 5 / 10 ^ 17
      ∧ specOptimalInput r_buy_in r_buy_out r_sell_in r_sell_out f_buy f_sell < (xs : ℚ) + 1 := by
  have hspec : optimalSize r_buy_in r_buy_out r_sell_in r_sell_out f_buy f_sell
      = some (Int.tdiv
          (roundHalfAway
            (specOptimalInput r_buy_in r_buy_out r_sell_in r_sell_out f_buy f_sell * 10 ^ 16))
          (10 ^ 16)) := by
    have hsum : 0 < r_sell_in + r_buy_out := by omega
    have hden := solverDenominator_pos r_buy_out r_sell_in f_buy f_sell hb1 hs1 h2.le h3.le hsum
    unfold optimalSize
    rw [CalculateOptimalTokenInTwoFees_eq _ _ _ _ _ _ hb0 hb1 hs0 hs1 h1.le h2.le h3.le h4.le hsum,
      specOptimalInput_scaled _ _ _ _ _ _ hb1 hs1 h2.le h3.le hsum,
      ← divRoundInt_eq_roundHalfAway _ _ hden]
    rfl
  rw [hspec] at hopt
  have hx := Option.some.inj hopt
  set Q := specOptimalInput r_buy_in r_buy_out r_sell_in r_sell_out f_buy f_sell with hQ
  have hd : (0 : Int) < 10 ^ 16 := by positivity
  have hq0 : 0 ≤ Q * 10 ^ 16 := by
    by_contra hneg
    have hR : roundHalfAway (Q * 10 ^ 16) ≤ 0 := by
      unfold roundHalfAway
      rw [if_neg hneg]
      rw [not_le] at hneg
      have : 0 ≤ ⌊-(Q * 10 ^ 16) + 1 / 2⌋ := by
        rw [Int.le_floor]; push_cast; linarith
      omega
    have hle : Int.tdiv (roundHalfAway (Q * 10 ^ 16)) (10 ^ 16) ≤ 0 := by
      have h0 : 0 ≤ -roundHalfAway (Q * 10 ^ 16) := by omega
      have := Int.neg_tdiv (-roundHalfAway (Q * 10 ^ 16)) (10 ^ 16)
      rw [neg_neg] at this
      rw [this, Int.tdiv_eq_ediv h0 hd.le]
      have : 0 ≤ (-roundHalfAway (Q * 10 ^ 16)) / 10 ^ 16 := Int.ediv_nonneg h0 hd.le
      omega
    omega
  have hR : roundHalfAway (Q * 10 ^ 16) = ⌊Q * 10 ^ 16 + 1 / 2⌋ := by
    unfold roundHalfAway
    rw [if_pos hq0]
  have hR0 : 0 ≤ ⌊Q * 10 ^ 16 + 1 / 2⌋ := by
    rw [Int.le_floor]; push_cast; linarith
  rw [hR, Int.tdiv_eq_ediv hR0 hd.le] at hx
  have e1 := Int.ediv_mul_le ⌊Q * 10 ^ 16 + 1 / 2⌋ hd.ne'
  have e2 := Int.lt_ediv_add_one_mul_self ⌊Q * 10 ^ 16 + 1 / 2⌋ hd
  rw [hx] at e1 e2
  have f1 : ((⌊Q * 10 ^ 16 + 1 / 2⌋ : Int) : ℚ) ≤ Q * 10 ^ 16 + 1 / 2 := Int.floor_le _
  have f2 : Q * 10 ^ 16 + 1 / 2 < ((⌊Q * 10 ^ 16 + 1 / 2⌋ : Int) : ℚ) + 1 :=
    Int.lt_floor_add_one _
  have e1q : (xs : ℚ) * 10 ^ 16 ≤ ((⌊Q * 10 ^ 16 + 1 / 2⌋ : Int) : ℚ) := by exact_mod_cast e1
  have e2q : ((⌊Q * 10 ^ 16 + 1 / 2⌋ : Int) : ℚ) + 1 ≤ ((xs : ℚ) + 1) * 10 ^ 16 := by
    have : ⌊Q * 10 ^ 16 + 1 / 2⌋ + 1 ≤ (xs + 1) * 10 ^ 16 := e2
    exact_mod_cast this
  constructor
  · have : (xs : ℚ) * 10 ^ 16 ≤ (Q + 5 / 10 ^ 17) * 10 ^ 16 := by
      have e : (Q + 5 / 10 ^ 17) * 10 ^ 16 = Q * 10 ^ 16 + 1 / 2 := by norm_num; ring
      rw [e]; linarith
    exact le_of_mul_le_mul_right this (by positivity)
  · have : Q * 10 ^ 16 < ((xs : ℚ) + 1) * 10 ^ 16 := by linarith
    exact lt_of_mul_lt_mul_right this (by positivity)

theorem optimalSize_near_closedForm
    (r_buy_in r_buy_out r_sell_in r_sell_out f_buy f_sell xs : Int) (s : ℝ)
    (h1 : 0 < r_buy_in) (h2 : 0 < r_buy_out) (h3 : 0 < r_sell_in) (h4 : 0 < r_sell_out)
    (hb0 : 0 ≤ f_buy) (hb1 : f_buy < 10000) (hs0 : 0 ≤ f_sell) (hs1 : f_sell < 10000)
    (hopt : optimalSize r_buy_in r_buy_out r_sell_in r_sell_out f_buy f_sell = some xs)
    (hxs : 0 < xs) (hs : 0 ≤ s)
    (hsq : s ^ 2 = (r_buy_in : ℝ) * r_buy_out * r_sell_in * r_sell_out
      * ((10000 - (f_buy : ℝ)) / 10000) ^ 3 * ((10000 - (f_sell : ℝ)) / 10000)) :
    closedFormExact (r_buy_in : ℝ) r_buy_out r_sell_in f_buy f_sell s
        - (1 + 1 / ((r_sell_in : ℝ) * ((10000 - (f_buy : ℝ)) / 10000) ^ 2
            + (10000 - (f_sell : ℝ)) / 10000 * r_buy_out * ((10000 - (f_buy : ℝ)) / 10000) ^ 2))
      < (xs : ℝ)
    ∧ (xs : ℝ) ≤ closedFormExact (r_buy_in : ℝ) r_buy_out r_sell_in f_buy f_sell s
        + 5 / 10 ^ 17 := by
  obtain ⟨b1, b2⟩ := optimalSize_round_bounds _ _ _ _ _ _ xs h1 h2 h3 h4 hb0 hb1 hs0 hs1 hopt hxs
  have hk1 : (0 : ℝ) < 10000 - (f_buy : ℝ) := by
    have : (f_buy : ℝ) < 10000 := by exact_mod_cast hb1
    linarith
  have hk2 : (0 : ℝ) < 10000 - (f_sell : ℝ) := by
    have : (f_sell : ℝ) < 10000 := by exact_mod_cast hs1
    linarith
  have r1 : (0 : ℝ) < r_buy_in := by exact_mod_cast h1
  have r2 : (0 : ℝ) < r_buy_out := by exact_mod_cast h2
  have r3 : (0 : ℝ) < r_sell_in := by exact_mod_cast h3
  have r4 : (0 : ℝ) < r_sell_out := by exact_mod_cast h4
  set P : ℚ := (r_buy_in : ℚ) * r_buy_out * r_sell_in * r_sell_out
    * (((10000 - f_buy : Int) : ℚ) / 10000) ^ 3 * (((10000 - f_sell : Int) : ℚ) / 10000) with hP
  have hP0 : 0 ≤ P := by
    have q1 : (0 : ℚ) < r_buy_in := by exact_mod_cast h1
    have q2 : (0 : ℚ) < r_buy_out := by exact_mod_cast h2
    have q3 : (0 : ℚ) < r_sell_in := by exact_mod_cast h3
    have q4 : (0 : ℚ) < r_sell_out := by exact_mod_cast h4
    have q5 : (0 : ℚ) < ((10000 - f_buy : Int) : ℚ) := by
      have : 0 < 10000 - f_buy := by omega
      exact_mod_cast this
    have q6 : (0 : ℚ) < ((10000 - f_sell : Int) : ℚ) := by
      have : 0 < 10000 - f_sell := by omega
      exact_mod_cast this
    rw [hP]; positivity
  have hPs : s ^ 2 = (P : ℝ) := by
    rw [hsq, hP]; push_cast; ring
  obtain ⟨m1, m2⟩ := natSqrt_floor_bounds P hP0 s hs hPs
  set D : ℝ := (r_sell_in : ℝ) * ((10000 - (f_buy : ℝ)) / 10000) ^ 2
      + (10000 - (f_sell : ℝ)) / 10000 * r_buy_out * ((10000 - (f_buy : ℝ)) / 10000) ^ 2 with hD
  have hD0 : 0 < D := by rw [hD]; positivity
  have hQ : ((specOptimalInput r_buy_in r_buy_out r_sell_in r_sell_out f_buy f_sell : ℚ) : ℝ)
      = (-((10000 - (f_buy : ℝ)) / 10000) * r_sell_in * r_buy_in
          + ((Nat.sqrt ⌊P⌋.toNat : Nat) : ℝ)) / D := by
    unfold specOptimalInput
    simp only [← hP]
    rw [hD]
    push_cast
    ring
  have hcf : closedFormExact (r_buy_in : ℝ) r_buy_out r_sell_in f_buy f_sell s
      = (-((10000 - (f_buy : ℝ)) / 10000) * r_sell_in * r_buy_in + s) / D := by
    unfold closedFormExact
    rw [hD]
  have b1r : (xs : ℝ)
      ≤ ((specOptimalInput r_buy_in r_buy_out r_sell_in r_sell_out f_buy f_sell : ℚ) : ℝ)
        + 5 / 10 ^ 17 := by
    have := (Rat.cast_le (K := ℝ)).mpr b1
    push_cast at this
    exact this
  have b2r : ((specOptimalInput r_buy_in r_buy_out r_sell_in r_sell_out f_buy f_sell : ℚ) : ℝ)
      < (xs : ℝ) + 1 := by
    have := (Rat.cast_lt (K := ℝ)).mpr b2
    push_cast at this
    exact this
  have hdiff : closedFormExact (r_buy_in : ℝ) r_buy_out r_sell_in f_buy f_sell s
      - ((specOptimalInput r_buy_in r_buy_out r_sell_in r_sell_out f_buy f_sell : ℚ) : ℝ)
      = (s - ((Nat.sqrt ⌊P⌋.toNat : Nat) : ℝ)) / D := by
    rw [hcf, hQ]; ring
  have d1 : 0 ≤ (s - ((Nat.sqrt ⌊P⌋.toNat : Nat) : ℝ)) / D :=
    div_nonneg (by linarith) hD0.le
  have d2 : (s - ((Nat.sqrt ⌊P⌋.toNat : Nat) : ℝ)) / D < 1 / D :=
    div_lt_div_of_pos_right (by linarith) hD0
  constructor <;> linarith

theorem twoLeg_ge_exact {K : Type} [LinearOrderedField K]
    (r_buy_in r_buy_out r_sell_in r_sell_out f_buy f_sell x : Int)
    (h1 : 0 < r_buy_in) (h2 : 0 < r_buy_out) (h3 : 0 < r_sell_in) (h4 : 0 < r_sell_out)
    (hb0 : 0 ≤ f_buy) (hb1 : f_buy < 10000) (hs0 : 0 ≤ f_sell) (hs1 : f_sell < 10000)
    (hx : 0 ≤ x) :
    ∃ tokens proceeds : Int,
      GetAmountOut r_buy_in r_buy_out x f_buy = some tokens
      ∧ GetAmountOut r_sell_in r_sell_out tokens f_sell = some proceeds
      ∧ profitExact (r_buy_in : K) r_buy_out r_sell_in r_sell_out f_buy f_sell x
          < ((proceeds - x : Int) : K) + 1
            + (10000 - (f_sell : K)) * r_sell_out / (10000 * r_sell_in) := by
  have hk1 : 0 < 10000 - f_buy := by omega
  have hk2 : 0 < 10000 - f_sell := by omega
  have hD1 : 0 < 10000 * r_buy_in + x * (10000 - f_buy) := by positivity
  have hN1 : 0 ≤ x * (10000 - f_buy) * r_buy_out := by positivity
  have hy0 : 0 ≤ x * (10000 - f_buy) * r_buy_out / (10000 * r_buy_in + x * (10000 - f_buy)) :=
    Int.ediv_nonneg hN1 hD1.le
  set y := x * (10000 - f_buy) * r_buy_out / (10000 * r_buy_in + x * (10000 - f_buy))
    with hydef
  have hD2 : 0 < 10000 * r_sell_in + y * (10000 - f_sell) := by positivity
  refine ⟨y, _, GetAmountOut_eq hb0 hb1.le hD1.ne', GetAmountOut_eq hs0 hs1.le hD2.ne', ?_⟩
  have hyK : (0 : K) ≤ (y : K) := by exact_mod_cast hy0
  have hD1K : (0 : K) < 10000 * (r_buy_in : K) + (x : K) * (10000 - (f_buy : K)) := by
    exact_mod_cast hD1
  have hD2K : (0 : K) < 10000 * (r_sell_in : K) + (y : K) * (10000 - (f_sell : K)) := by
    exact_mod_cast hD2
  have e1 : (y : K) ≤ amountOutExact (r_buy_in : K) r_buy_out x f_buy := by
    have := cast_ediv_le (K := K) (x * (10000 - f_buy) * r_buy_out)
      (10000 * r_buy_in + x * (10000 - f_buy)) hD1
    unfold amountOutExact
    push_cast at this
    exact this
  have e1u : amountOutExact (r_buy_in : K) r_buy_out x f_buy < (y : K) + 1 := by
    have := Int.lt_ediv_add_one_mul_self (x * (10000 - f_buy) * r_buy_out) hD1
    rw [← hydef] at this
    unfold amountOutExact
    rw [div_lt_iff₀ hD1K]
    exact_mod_cast this
  have e2u : amountOutExact (r_sell_in : K) r_sell_out y f_sell
      < ((y * (10000 - f_sell) * r_sell_out / (10000 * r_sell_in + y * (10000 - f_sell)) : Int) : K)
        + 1 := by
    have := Int.lt_ediv_add_one_mul_self (y * (10000 - f_sell) * r_sell_out) hD2
    unfold amountOutExact
    rw [div_lt_iff₀ hD2K]
    exact_mod_cast this
  have e3 := amountOutExact_lipschitz (r_sell_in : K) r_sell_out f_sell (y : K)
    (amountOutExact (r_buy_in : K) r_buy_out x f_buy) (by exact_mod_cast h3)
    (by exact_mod_cast h4.le) (by exact_mod_cast hs1.le) hyK e1
  have hc0 : (0 : K) ≤ (10000 - (f_sell : K)) * r_sell_out / (10000 * r_sell_in) := by
    have a1 : (0 : K) < (r_sell_in : K) := by exact_mod_cast h3
    have a2 : (0 : K) ≤ (r_sell_out : K) := by exact_mod_cast h4.le
    have a3 : (0 : K) ≤ 10000 - (f_sell : K) := by
      have : (f_sell : K) ≤ 10000 := by exact_mod_cast hs1.le
      linarith
    positivity
  have e4 : (amountOutExact (r_buy_in : K) r_buy_out x f_buy - (y : K))
      * ((10000 - (f_sell : K)) * r_sell_out / (10000 * r_sell_in))
      ≤ 1 * ((10000 - (f_sell : K)) * r_sell_out / (10000 * r_sell_in)) :=
    mul_le_mul_of_nonneg_right (by linarith) hc0
  unfold profitExact
  push_cast
  linarith

/-- C7 (amended): for positive reserves and fees in `[0, 10000)` for which the
integer optimal input `xStar` of the solver is positive, `xStar` maximises the
two-leg integer profit up to the rounding allowance `sizingSlack`: both trades
are defined and the profit of every non-negative integer input `x'` is below
the profit of `xStar` plus the allowance. -/
theorem optimalSize_nearly_maximal
    (r_buy_in r_buy_out r_sell_in r_sell_out f_buy f_sell xStar x' : Int)
    (h1 : 0 < r_buy_in) (h2 : 0 < r_buy_out) (h3 : 0 < r_sell_in) (h4 : 0 < r_sell_out)
    (hb0 : 0 ≤ f_buy) (hb1 : f_buy < 10000) (hs0 : 0 ≤ f_sell) (hs1 : f_sell < 10000)
    (hopt : optimalSize r_buy_in r_buy_out r_sell_in r_sell_out f_buy f_sell = some xStar)
    (hpos : 0 < xStar) (hx : 0 ≤ x') :
    ∃ tokens' proceeds' tokens proceeds : Int,
      GetAmountOut r_buy_in r_buy_out x' f_buy = some tokens'
      ∧ GetAmountOut r_sell_in r_sell_out tokens' f_sell = some proceeds'
      ∧ GetAmountOut r_buy_in r_buy_out xStar f_buy = some tokens
      ∧ GetAmountOut r_sell_in r_sell_out tokens f_sell = some proceeds
      ∧ ((proceeds' - x' : Int) : ℚ)
          < ((proceeds - xStar : Int) : ℚ)
            + sizingSlack r_buy_out r_sell_in r_sell_out f_buy f_sell xStar := by
  have hk1 : (0 : ℝ) < 10000 - (f_buy : ℝ) := by
    have : (f_buy : ℝ) < 10000 := by exact_mod_cast hb1
    linarith
  have hk2 : (0 : ℝ) < 10000 - (f_sell : ℝ) := by
    have : (f_sell : ℝ) < 10000 := by exact_mod_cast hs1
    linarith
  have r1 : (0 : ℝ) < r_buy_in := by exact_mod_cast h1
  have r2 : (0 : ℝ) < r_buy_out := by exact_mod_cast h2
  have r3 : (0 : ℝ) < r_sell_in := by exact_mod_cast h3
  have r4 : (0 : ℝ) < r_sell_out := by exact_mod_cast h4
  have hxs : (0 : ℝ) < (xStar : ℝ) := by exact_mod_cast hpos
  have hP0 : (0 : ℝ) ≤ (r_buy_in : ℝ) * r_buy_out * r_sell_in * r_sell_out
      * ((10000 - (f_buy : ℝ)) / 10000) ^ 3 * ((10000 - (f_sell : ℝ)) / 10000) := by positivity
  set s : ℝ := Real.sqrt ((r_buy_in : ℝ) * r_buy_out * r_sell_in * r_sell_out
      * ((10000 - (f_buy : ℝ)) / 10000) ^ 3 * ((10000 - (f_sell : ℝ)) / 10000)) with hsdef
  have hs : 0 ≤ s := Real.sqrt_nonneg _
  have hsq : s ^ 2 = (r_buy_in : ℝ) * r_buy_out * r_sell_in * r_sell_out
      * ((10000 - (f_buy : ℝ)) / 10000) ^ 3 * ((10000 - (f_sell : ℝ)) / 10000) :=
    Real.sq_sqrt hP0
  obtain ⟨t', p', ht', hp', hup, -⟩ := twoLeg_le_exactOptimum ℝ r_buy_in r_buy_out
    r_sell_in r_sell_out f_buy f_sell x' s h1 h2 h3 h4 hb0 hb1 hs0 hs1 hs hsq hx
  obtain ⟨t, p, ht, hp, hlow⟩ := @twoLeg_ge_exact ℝ _ r_buy_in r_buy_out
    r_sell_in r_sell_out f_buy f_sell xStar h1 h2 h3 h4 hb0 hb1 hs0 hs1 hpos.le
  refine ⟨t', p', t, p, ht', hp', ht, hp, ?_⟩
  have hgap := profitExact_gap (r_buy_in : ℝ) r_buy_out r_sell_in r_sell_out f_buy f_sell s
    (xStar : ℝ) r1 r2 r3 r4 (by exact_mod_cast hb1) (by exact_mod_cast hs1) hs hsq hxs
  obtain ⟨n1, n2⟩ := optimalSize_near_closedForm r_buy_in r_buy_out r_sell_in r_sell_out
    f_buy f_sell xStar s h1 h2 h3 h4 hb0 hb1 hs0 hs1 hopt hpos hs hsq
  set cf := closedFormExact (r_buy_in : ℝ) r_buy_out r_sell_in f_buy f_sell s with hcf
  set D : ℝ := (r_sell_in : ℝ) * ((10000 - (f_buy : ℝ)) / 10000) ^ 2
      + (10000 - (f_sell : ℝ)) / 10000 * r_buy_out * ((10000 - (f_buy : ℝ)) / 10000) ^ 2 with hD
  have hD0 : 0 < D := by rw [hD]; positivity
  have hinv : 0 < 1 / D := by positivity
  have hsqlt : ((xStar : ℝ) - cf) ^ 2 < (1 + 5 / 10 ^ 17 + 1 / D) ^ 2 := by
    apply sq_lt_sq'
    · have : (0 : ℝ) < 5 / 10 ^ 17 := by norm_num
      linarith
    · have : (0 : ℝ) ≤ 1 := by norm_num
      linarith
  have hdiv : ((xStar : ℝ) - cf) ^ 2 / xStar < (1 + 5 / 10 ^ 17 + 1 / D) ^ 2 / xStar :=
    div_lt_div_of_pos_right hsqlt hxs
  have hslack : ((sizingSlack r_buy_out r_sell_in r_sell_out f_buy f_sell xStar : ℚ) : ℝ)
      = 1 + (10000 - (f_sell : ℝ)) * r_sell_out / (10000 * r_sell_in)
        + (1 + 5 / 10 ^ 17 + 1 / D) ^ 2 / xStar := by
    unfold sizingSlack
    rw [hD]
    push_cast
    field_simp
  have hreal : (((p' - x' : Int) : ℚ) : ℝ)
      < (((p - xStar : Int) : ℚ) : ℝ)
        + ((sizingSlack r_buy_out r_sell_in r_sell_out f_buy f_sell xStar : ℚ) : ℝ) := by
    rw [hslack]
    push_cast
    push_cast at hup hlow
    linarith
  have := (Rat.cast_lt (K := ℝ)).mp (by push_cast at hreal ⊢; exact hreal :
    (((p' - x' : Int) : ℚ) : ℝ)
      < ((((p - xStar : Int) : ℚ)
        + sizingSlack r_buy_out r_sell_in r_sell_out f_buy f_sell xStar : ℚ) : ℝ))
  exact this

theorem optimalSize_nearly_maximal_witness :
    ∃ tokens' proceeds' tokens proceeds : Int,
      GetAmountOut 1000 2000 400 30 = some tokens'
      ∧ GetAmountOut 1000 2000 tokens' 30 = some proceeds'
      ∧ GetAmountOut 1000 2000 332 30 = some tokens
      ∧ GetAmountOut 1000 2000 tokens 30 = some proceeds
      ∧ ((proceeds' - 400 : Int) : ℚ)
          < ((proceeds - 332 : Int) : ℚ) + sizingSlack 2000 1000 2000 30 30 332 :=
  optimalSize_nearly_maximal 1000 2000 1000 2000 30 30 332 400 (by decide) (by decide)
    (by decide) (by decide) (by decide) (by decide) (by decide) (by decide) (by decide!)
    (by decide) (by decide)

theorem roundHalfAway_le_neg (q : ℚ) (n : Int) (hn : 0 < n) (h : q ≤ -(n : ℚ)) :
    roundHalfAway q ≤ -n := by
  have hnq : (0 : ℚ) < (n : ℚ) := by exact_mod_cast hn
  have hq : ¬ (0 ≤ q) := by
    rw [not_le]; linarith
  unfold roundHalfAway
  rw [if_neg hq]
  have : n ≤ ⌊-q + 1 / 2⌋ := by
    rw [Int.le_floor]; linarith
  omega

theorem roundHalfAway_abs_lt (q : ℚ) (n : Int) (h1 : -(n : ℚ) + 1 / 2 < q)
    (h2 : q < (n : ℚ) - 1 / 2) : -n < roundHalfAway q ∧ roundHalfAway q < n := by
  unfold roundHalfAway
  split_ifs with hq
  · have hf : ⌊q + 1 / 2⌋ < n := by
      rw [Int.floor_lt]; linarith
    have hf0 : 0 ≤ ⌊q + 1 / 2⌋ := by
      rw [Int.le_floor]; push_cast; linarith
    constructor <;> omega
  · rw [not_le] at hq
    have hf : ⌊-q + 1 / 2⌋ < n := by
      rw [Int.floor_lt]; linarith
    have hf0 : 0 ≤ ⌊-q + 1 / 2⌋ := by
      rw [Int.le_floor]; push_cast; linarith
    constructor <;> omega

theorem tdiv_le_neg_one {r d : Int} (hd : 0 < d) (h : r ≤ -d) : Int.tdiv r d ≤ -1 := by
  have h0 : 0 ≤ -r := by omega
  have e : Int.tdiv r d = -((-r) / d) := by
    have := Int.neg_tdiv (-r) d
    rw [neg_neg] at this
    rw [this, Int.tdiv_eq_ediv h0 hd.le]
  have : 1 ≤ (-r) / d := by
    rw [Int.le_ediv_iff_mul_le hd]; omega
  omega

theorem tdiv_eq_zero_of_abs_lt {r d : Int} (h1 : -d < r) (h2 : r < d) : Int.tdiv r d = 0 := by
  rcases le_or_lt 0 r with h | h
  · rw [Int.tdiv_eq_ediv h (by omega)]
    exact Int.ediv_eq_zero_of_lt h h2
  · have h0 : 0 ≤ -r := by omega
    have := Int.neg_tdiv (-r) d
    rw [neg_neg] at this
    rw [this, Int.tdiv_eq_ediv h0 (by omega), Int.ediv_eq_zero_of_lt h0 (by omega)]
    rfl

/-- C9 (as stated, refuted): for two pools with reserves
`(1000 * 10^18, 1000 * 10^18)` and fee 30 the integer optimal input the solver
returns is `-1506773701173626035`, a negative number and not `0`. -/
theorem optimalSize_symmetric_negative :
    optimalSize (1000 * 10 ^ 18) (1000 * 10 ^ 18) (1000 * 10 ^ 18) (1000 * 10 ^ 18) 30 30
      = some (-1506773701173626035) := by
  decide!

/-- C9 (amended): the native input is the truncated closed form, with no clamp.
For non-negative reserves with `r_sell_in + r_buy_out > 0` and fees in
`[0, 10000)` the solver returns an integer `x`; when the closed form is at most
`-1` then `x ≤ -1`, and `x = 0` when the closed form lies strictly between
`-1 + 5/10^17` and `1 - 5/10^17`. -/
theorem optimalSize_unclamped (r_buy_in r_buy_out r_sell_in r_sell_out f_buy f_sell : Int)
    (hb0 : 0 ≤ f_buy) (hb1 : f_buy < 10000) (hs0 : 0 ≤ f_sell) (hs1 : f_sell < 10000)
    (h1 : 0 ≤ r_buy_in) (h2 : 0 ≤ r_buy_out) (h3 : 0 ≤ r_sell_in) (h4 : 0 ≤ r_sell_out)
    (hpos : 0 < r_sell_in + r_buy_out) :
    ∃ x : Int, optimalSize r_buy_in r_buy_out r_sell_in r_sell_out f_buy f_sell = some x
      ∧ (specOptimalInput r_buy_in r_buy_out r_sell_in r_sell_out f_buy f_sell ≤ -1 → x ≤ -1)
      ∧ (-1 + 5 / 10 ^ 17
            < specOptimalInput r_buy_in r_buy_out r_sell_in r_sell_out f_buy f_sell
          → specOptimalInput r_buy_in r_buy_out r_sell_in r_sell_out f_buy f_sell
            < 1 - 5 / 10 ^ 17
          → x = 0) := by
  have hden := solverDenominator_pos r_buy_out r_sell_in f_buy f_sell hb1 hs1 h2 h3 hpos
  have hx : optimalSize r_buy_in r_buy_out r_sell_in r_sell_out f_buy f_sell
      = some (Int.tdiv
          (roundHalfAway
            (specOptimalInput r_buy_in r_buy_out r_sell_in r_sell_out f_buy f_sell * 10 ^ 16))
          (10 ^ 16)) := by
    unfold optimalSize
    rw [CalculateOptimalTokenInTwoFees_eq _ _ _ _ _ _ hb0 hb1 hs0 hs1 h1 h2 h3 h4 hpos,
      specOptimalInput_scaled _ _ _ _ _ _ hb1 hs1 h2 h3 hpos,
      ← divRoundInt_eq_roundHalfAway _ _ hden]
    rfl
  refine ⟨_, hx, ?_, ?_⟩
  · intro hq
    apply tdiv_le_neg_one (by positivity)
    apply roundHalfAway_le_neg _ _ (by positivity)
    push_cast
    linarith
  · intro hlo hhi
    have hb := roundHalfAway_abs_lt
      (specOptimalInput r_buy_in r_buy_out r_sell_in r_sell_out f_buy f_sell * 10 ^ 16)
      (10 ^ 16) (by push_cast; linarith) (by push_cast; linarith)
    exact tdiv_eq_zero_of_abs_lt hb.1 hb.2

theorem optimalSize_unclamped_witness :
    ∃ x : Int, optimalSize 2 1 1 1 0 0 = some x
      ∧ (specOptimalInput 2 1 1 1 0 0 ≤ -1 → x ≤ -1)
      ∧ (-1 + 5 / 10 ^ 17 < specOptimalInput 2 1 1 1 0 0
          → specOptimalInput 2 1 1 1 0 0 < 1 - 5 / 10 ^ 17
          → x = 0) :=
  optimalSize_unclamped 2 1 1 1 0 0 (by decide) (by decide) (by decide) (by decide)
    (by decide) (by decide) (by decide) (by decide) (by decide)

/-! ## Soundness of the emitted arbs -/

theorem crossWith_mem (s : State) (refPair : UniswappyV2Pair) :
    ∀ (pairs : List UniswappyV2Pair) (cms : List CrossedMarket),
      crossWith s refPair pairs = some cms → ∀ cm ∈ cms, cm.1 = refPair ∧ cm.2 ∈ pairs := by
  intro pairs
  induction pairs with
  | nil =>
    intro cms h cm hcm
    simp [crossWith] at h
    subst h
    simp at hcm
  | cons pair rest ih =>
    intro cms h cm hcm
    unfold crossWith at h
    split at h
    · exact absurd h (by simp)
    · split at h
      · exact absurd h (by simp)
      · rename_i stale _ tail htail
        have ht := ih tail htail
        split_ifs at h <;> simp only [Option.some.injEq] at h <;> subst h
        · exact ⟨(ht cm hcm).1, List.mem_cons_of_mem _ (ht cm hcm).2⟩
        · exact ⟨(ht cm hcm).1, List.mem_cons_of_mem _ (ht cm hcm).2⟩
        · rcases List.mem_cons.mp hcm with rfl | hmem
          · exact ⟨rfl, List.mem_cons_self _ _⟩
          · exact ⟨(ht cm hmem).1, List.mem_cons_of_mem _ (ht cm hmem).2⟩
        · exact ⟨(ht cm hcm).1, List.mem_cons_of_mem _ (ht cm hcm).2⟩

theorem crossFrom_mem (s : State) (pairs : List UniswappyV2Pair) :
    ∀ (refs : List UniswappyV2Pair) (cms : List CrossedMarket),
      crossFrom s pairs refs = some cms → ∀ cm ∈ cms, cm.1 ∈ refs ∧ cm.2 ∈ pairs := by
  intro refs
  induction refs with
  | nil =>
    intro cms h cm hcm
    simp [crossFrom] at h
    subst h
    simp at hcm
  | cons refPair rest ih =>
    intro cms h cm hcm
    unfold crossFrom at h
    split at h
    · exact absurd h (by simp)
    · split at h
      · exact absurd h (by simp)
      · rename_i head hhead _ tail htail
        simp only [Option.some.injEq] at h
        subst h
        rcases List.mem_append.mp hcm with hm | hm
        · have := crossWith_mem s refPair pairs head hhead cm hm
          exact ⟨by rw [this.1]; exact List.mem_cons_self _ _, this.2⟩
        · have := ih tail htail cm hm
          exact ⟨List.mem_cons_of_mem _ this.1, this.2⟩

theorem sizeCrossedMarket_replay (s : State) (cm : CrossedMarket)
    (size tokensOut proceeds profit : Int)
    (h : sizeCrossedMarket s cm = some (size, tokensOut, proceeds, profit)) :
    replayArb s cm size = some (tokensOut, proceeds, profit) := by
  unfold sizeCrossedMarket at h
  unfold replayArb
  split at h
  · rename_i bn bt st sn h1 h2 h3 h4
    split at h
    · exact absurd h (by simp)
    · split at h
      · exact absurd h (by simp)
      · rename_i t ht
        split at h
        · exact absurd h (by simp)
        · rename_i pr hpr
          simp only [Option.some.injEq, Prod.mk.injEq] at h
          obtain ⟨rfl, rfl, rfl, rfl⟩ := h
          rw [ht]
          dsimp only
          rw [hpr]
  · exact absurd h (by simp)

theorem selectLoop_sound (cfg : Config) (s : State) (isFollowUp : Bool) :
    ∀ (cms : List CrossedMarket) (bestArb : Option (Arb × CrossedMarket))
      (bestProfit : Option Int) (a : Arb) (cm : CrossedMarket),
      selectLoop cfg s isFollowUp cms false bestArb bestProfit = some (some (a, cm)) →
      cm ∈ cms ∧ ArbSound s cm a := by
  intro cms
  induction cms with
  | nil =>
    intro bestArb bestProfit a cm h
    simp [selectLoop] at h
  | cons c rest ih =>
    intro bestArb bestProfit a cm h
    unfold selectLoop at h
    split at h
    · exact absurd h (by simp)
    · rename_i size tokensOut proceeds profit hsize
      by_cases hex : exceedsThreshold cfg isFollowUp profit = true
      · simp only [hex, if_true, Bool.not_false, Option.some.injEq, Prod.mk.injEq] at h
        obtain ⟨rfl, rfl⟩ := h
        exact ⟨List.mem_cons_self _ _, rfl, rfl,
          sizeCrossedMarket_replay s _ size tokensOut proceeds profit hsize⟩
      · simp only [hex, if_false] at h
        have := ih bestArb bestProfit a cm h
        exact ⟨List.mem_cons_of_mem _ this.1, this.2⟩

theorem evaluateToken_sound (cfg : Config) (s : State) (isFollowUp : Bool)
    (pairs : List UniswappyV2Pair) (found : Option (Arb × CrossedMarket))
    (h : evaluateToken cfg s isFollowUp pairs = some found) :
    ∀ x ∈ found.toList, (x.2.1 ∈ pairs ∧ x.2.2 ∈ pairs) ∧ ArbSound s x.2 x.1 := by
  intro x hx
  unfold evaluateToken at h
  split at h
  · exact absurd h (by simp)
  · rename_i cms hcms
    cases found with
    | none => simp at hx
    | some ac =>
      simp only [Option.toList, List.mem_singleton] at hx
      subst hx
      obtain ⟨hm, hs⟩ := selectLoop_sound cfg s isFollowUp cms none none x.1 x.2 h
      exact ⟨crossFrom_mem s pairs pairs cms hcms x.2 hm, hs⟩

theorem evaluateAllTokens_sound (cfg : Config) (s : State) (isFollowUp : Bool) :
    ∀ (entries : List (Address × List UniswappyV2Pair)) (arbs : List (Arb × CrossedMarket)),
      evaluateAllTokens cfg s isFollowUp entries = some arbs →
      ∀ x ∈ arbs, (∃ entry ∈ entries, x.2.1 ∈ entry.2 ∧ x.2.2 ∈ entry.2) ∧ ArbSound s x.2 x.1 := by
  intro entries
  induction entries with
  | nil =>
    intro arbs h x hx
    simp [evaluateAllTokens] at h
    subst h
    simp at hx
  | cons entry rest ih =>
    intro arbs h x hx
    unfold evaluateAllTokens at h
    split at h
    · exact absurd h (by simp)
    · rename_i found hfound
      split at h
      · exact absurd h (by simp)
      · rename_i tail htail
        simp only [Option.some.injEq] at h
        subst h
        rcases List.mem_append.mp hx with hm | hm
        · have := evaluateToken_sound cfg s isFollowUp entry.2 found hfound x hm
          exact ⟨⟨entry, List.mem_cons_self _ _, this.1⟩, this.2⟩
        · obtain ⟨⟨e, he, hmem⟩, hs⟩ := ih tail htail x hm
          exact ⟨⟨e, List.mem_cons_of_mem _ he, hmem⟩, hs⟩

theorem pairsOf_mem_registry (s : State) (token : Address) (p : UniswappyV2Pair)
    (h : p ∈ pairsOf s token) : (token, pairsOf s token) ∈ s.marketPairsByToken := by
  unfold pairsOf at h ⊢
  cases hl : List.lookup token s.marketPairsByToken with
  | none => rw [hl] at h; simp at h
  | some ps =>
    simp only
    have : ∀ (l : List (Address × List UniswappyV2Pair)),
        List.lookup token l = some ps → (token, ps) ∈ l := by
      intro l
      induction l with
      | nil => intro h0; simp at h0
      | cons e rest ih =>
        intro h0
        obtain ⟨k, v⟩ := e
        by_cases hk : token = k
        · subst hk
          simp only [List.lookup_cons, beq_self_eq_true, Option.some.injEq] at h0
          subst h0
          exact List.mem_cons_self _ _
        · have hb : (token == k) = false := by simpa using hk
          simp only [List.lookup_cons, hb] at h0
          exact List.mem_cons_of_mem _ (ih h0)
    exact this _ hl

/-- C10: every arb returned by `evaluateMarketsRecursive` or
`evaluateMarketsRecursiveAll` is sound on the reserves as they stood when it was
found: the arbs of the outermost level on the reserves before the call, each
follow-up on the reserves after applying the arbs of all shallower levels.
Soundness of an arb: its `TokenAmount` is `GetAmountOut` of its `NativeInAmount`
on the buy pool, its `NativeOutAmount` is `GetAmountOut` of its `TokenAmount` on
the sell pool, and its `Profit` is `NativeOutAmount - NativeInAmount`. -/
theorem emitted_arbs_sound (cfg : Config) (isFollowUp : Bool) (depth : Int) (s : State) :
    (∀ (token : Address) (arbs : List Arb) (s' : State),
        evaluateMarketsRecursive cfg isFollowUp token depth s = some (arbs, s') →
        SoundLevels cfg (InToken token) s arbs)
    ∧ (∀ (arbs : List Arb) (s' : State),
        evaluateMarketsRecursiveAll cfg isFollowUp depth s = some (arbs, s') →
        SoundLevels cfg InRegistry s arbs) := by
  constructor
  · intro token
    have key : ∀ (n : Nat) (depth : Int), (100 - depth).toNat = n →
        ∀ (isFollowUp : Bool) (s : State) (arbs : List Arb) (s' : State),
          evaluateMarketsRecursive cfg isFollowUp token depth s = some (arbs, s') →
          SoundLevels cfg (InToken token) s arbs := by
      intro n
      induction n using Nat.strong_induction_on with
      | _ n ih =>
        intro depth hn isFollowUp s arbs s' h
        rw [evaluateMarketsRecursive] at h
        split at h
        · exact absurd h (by simp)
        · rename_i found hfound
          have hsound := evaluateToken_sound cfg s isFollowUp (pairsOf s token) found hfound
          dsimp only at h
          split at h
          · rename_i hc
            split at h
            · exact absurd h (by simp)
            · rename_i s1 hs1
              split at h
              · exact absurd h (by simp)
              · rename_i followUpArbs s2 hrec
                split at h
                · exact absurd h (by simp)
                · simp only [Option.some.injEq, Prod.mk.injEq] at h
                  obtain ⟨rfl, _⟩ := h
                  exact SoundLevels.step s s1 found.toList followUpArbs hsound hs1
                    (ih (100 - (depth + 1)).toNat (by omega) (depth + 1) rfl true s1
                      followUpArbs s2 hrec)
          · simp only [Option.some.injEq, Prod.mk.injEq] at h
            obtain ⟨rfl, _⟩ := h
            exact SoundLevels.done s found.toList hsound
    intro arbs s' h
    exact key _ depth rfl isFollowUp s arbs s' h
  · have key : ∀ (n : Nat) (depth : Int), (100 - depth).toNat = n →
        ∀ (isFollowUp : Bool) (s : State) (arbs : List Arb) (s' : State),
          evaluateMarketsRecursiveAll cfg isFollowUp depth s = some (arbs, s') →
          SoundLevels cfg InRegistry s arbs := by
      intro n
      induction n using Nat.strong_induction_on with
      | _ n ih =>
        intro depth hn isFollowUp s arbs s' h
        rw [evaluateMarketsRecursiveAll] at h
        split at h
        · exact absurd h (by simp)
        · rename_i level hlevel
          have hsound : ∀ x ∈ level, InRegistry s x.2 ∧ ArbSound s x.2 x.1 :=
            evaluateAllTokens_sound cfg s isFollowUp s.marketPairsByToken level hlevel
          split at h
          · rename_i hc
            split at h
            · exact absurd h (by simp)
            · rename_i s1 hs1
              split at h
              · exact absurd h (by simp)
              · rename_i followUpArbs s2 hrec
                split at h
                · exact absurd h (by simp)
                · simp only [Option.some.injEq, Prod.mk.injEq] at h
                  obtain ⟨rfl, _⟩ := h
                  exact SoundLevels.step s s1 level followUpArbs hsound hs1
                    (ih (100 - (depth + 1)).toNat (by omega) (depth + 1) rfl true s1
                      followUpArbs s2 hrec)
          · simp only [Option.some.injEq, Prod.mk.injEq] at h
            obtain ⟨rfl, _⟩ := h
            exact SoundLevels.done s level hsound
    intro arbs s' h
    exact key _ depth rfl isFollowUp s arbs s' h

theorem emitted_arbs_sound_witness :
    evaluateMarketsRecursive exampleConfig false 7 0 exampleState
        = some ([exampleArb], exampleState)
      ∧ SoundLevels exampleConfig (InToken 7) exampleState [exampleArb]
      ∧ evaluateMarketsRecursiveAll exampleConfig false 0 exampleState
        = some ([exampleArb], exampleState)
      ∧ SoundLevels exampleConfig InRegistry exampleState [exampleArb] :=
  ⟨by decide!,
    (emitted_arbs_sound exampleConfig false 0 exampleState).1 7 [exampleArb] exampleState
      (by decide!),
    by decide!,
    (emitted_arbs_sound exampleConfig false 0 exampleState).2 [exampleArb] exampleState
      (by decide!)⟩

/-! ## The freshness filter -/

theorem reserveAt_flag_of_allStale (s : State)
    (hstale : ∀ row ∈ s.allMarketReserves, row.flag = STALE_RESERVE) (idx : Nat) (v : Int)
    (h : reserveAt s idx 2 = some v) : v = STALE_RESERVE := by
  unfold reserveAt at h
  cases hrow : s.allMarketReserves[idx]? with
  | none => rw [hrow] at h; exact absurd h (by simp)
  | some row =>
    rw [hrow] at h
    simp only [ReserveRow.get, Option.some.injEq] at h
    rw [← h]
    exact hstale row (List.getElem?_mem hrow)

theorem reserveAt_flag_of_lt (s : State) (idx : Nat) (h : idx < s.allMarketReserves.length) :
    ∃ v, reserveAt s idx 2 = some v := by
  unfold reserveAt
  rw [List.getElem?_eq_getElem h]
  exact ⟨_, rfl⟩

theorem isStaleReserves_of_allStale (s : State)
    (hstale : ∀ row ∈ s.allMarketReserves, row.flag = STALE_RESERVE)
    (a b : UniswappyV2Pair) (r : Bool) (h : isStaleReserves s a b = some r) : r = true := by
  unfold isStaleReserves at h
  split at h
  · exact absurd h (by simp)
  · rename_i va hva
    have ha := reserveAt_flag_of_allStale s hstale _ _ hva
    rw [if_pos ha] at h
    split at h
    · exact absurd h (by simp)
    · rename_i vb hvb
      have hb := reserveAt_flag_of_allStale s hstale _ _ hvb
      simp only [Option.some.injEq] at h
      rw [← h]
      simpa using hb

theorem isStaleReserves_isSome (s : State) (a b : UniswappyV2Pair)
    (ha : a.TokenReserveIndex < s.allMarketReserves.length)
    (hb : b.TokenReserveIndex < s.allMarketReserves.length) :
    ∃ r, isStaleReserves s a b = some r := by
  obtain ⟨va, hva⟩ := reserveAt_flag_of_lt s _ ha
  obtain ⟨vb, hvb⟩ := reserveAt_flag_of_lt s _ hb
  unfold isStaleReserves
  rw [hva]
  dsimp only
  split_ifs
  · rw [hvb]; exact ⟨_, rfl⟩
  · exact ⟨_, rfl⟩

theorem crossWith_of_allStale (s : State)
    (hstale : ∀ row ∈ s.allMarketReserves, row.flag = STALE_RESERVE) (refPair : UniswappyV2Pair) :
    ∀ (pairs : List UniswappyV2Pair) (cms : List CrossedMarket),
      crossWith s refPair pairs = some cms → cms = [] := by
  intro pairs
  induction pairs with
  | nil => intro cms h; simpa [crossWith] using h.symm
  | cons pair rest ih =>
    intro cms h
    unfold crossWith at h
    split at h
    · exact absurd h (by simp)
    · rename_i stale hst
      have := isStaleReserves_of_allStale s hstale _ _ _ hst
      subst this
      split at h
      · exact absurd h (by simp)
      · rename_i tail htail
        simp only [if_true, Option.some.injEq] at h
        rw [← h]
        exact ih tail htail

theorem crossWith_isSome (s : State) (refPair : UniswappyV2Pair)
    (href : refPair.TokenReserveIndex < s.allMarketReserves.length) :
    ∀ (pairs : List UniswappyV2Pair),
      (∀ p ∈ pairs, p.TokenReserveIndex < s.allMarketReserves.length) →
      ∃ cms, crossWith s refPair pairs = some cms := by
  intro pairs
  induction pairs with
  | nil => intro _; exact ⟨[], rfl⟩
  | cons pair rest ih =>
    intro hv
    obtain ⟨r, hr⟩ := isStaleReserves_isSome s refPair pair href (hv pair (List.mem_cons_self _ _))
    obtain ⟨tail, ht⟩ := ih (fun p hp => hv p (List.mem_cons_of_mem _ hp))
    unfold crossWith
    rw [hr, ht]
    dsimp only
    split_ifs <;> exact ⟨_, rfl⟩

theorem crossFrom_of_allStale (s : State)
    (hstale : ∀ row ∈ s.allMarketReserves, row.flag = STALE_RESERVE)
    (pairs : List UniswappyV2Pair) :
    ∀ (refs : List UniswappyV2Pair) (cms : List CrossedMarket),
      crossFrom s pairs refs = some cms → cms = [] := by
  intro refs
  induction refs with
  | nil => intro cms h; simpa [crossFrom] using h.symm
  | cons refPair rest ih =>
    intro cms h
    unfold crossFrom at h
    split at h
    · exact absurd h (by simp)
    · rename_i head hhead
      split at h
      · exact absurd h (by simp)
      · rename_i tail htail
        simp only [Option.some.injEq] at h
        rw [← h, crossWith_of_allStale s hstale refPair pairs head hhead, ih tail htail]
        rfl

theorem crossFrom_isSome (s : State) (pairs : List UniswappyV2Pair)
    (hv : ∀ p ∈ pairs, p.TokenReserveIndex < s.allMarketReserves.length) :
    ∀ (refs : List UniswappyV2Pair),
      (∀ p ∈ refs, p.TokenReserveIndex < s.allMarketReserves.length) →
      ∃ cms, crossFrom s pairs refs = some cms := by
  intro refs
  induction refs with
  | nil => intro _; exact ⟨[], rfl⟩
  | cons refPair rest ih =>
    intro hr
    obtain ⟨head, hh⟩ := crossWith_isSome s refPair (hr refPair (List.mem_cons_self _ _)) pairs hv
    obtain ⟨tail, ht⟩ := ih (fun p hp => hr p (List.mem_cons_of_mem _ hp))
    unfold crossFrom
    rw [hh, ht]
    exact ⟨_, rfl⟩

theorem evaluateToken_of_allStale (cfg : Config) (s : State)
    (hstale : ∀ row ∈ s.allMarketReserves, row.flag = STALE_RESERVE) (isFollowUp : Bool)
    (pairs : List UniswappyV2Pair) (found : Option (Arb × CrossedMarket))
    (h : evaluateToken cfg s isFollowUp pairs = some found) : found = none := by
  unfold evaluateToken crossMarkets at h
  split at h
  · exact absurd h (by simp)
  · rename_i cms hcms
    have := crossFrom_of_allStale s hstale pairs pairs cms hcms
    subst this
    simpa [selectLoop] using h.symm

theorem evaluateToken_allStale_isSome (cfg : Config) (s : State)
    (hstale : ∀ row ∈ s.allMarketReserves, row.flag = STALE_RESERVE) (isFollowUp : Bool)
    (pairs : List UniswappyV2Pair)
    (hv : ∀ p ∈ pairs, p.TokenReserveIndex < s.allMarketReserves.length) :
    evaluateToken cfg s isFollowUp pairs = some none := by
  obtain ⟨cms, hcms⟩ := crossFrom_isSome s pairs hv pairs hv
  have := crossFrom_of_allStale s hstale pairs pairs cms hcms
  subst this
  unfold evaluateToken crossMarkets
  rw [hcms]
  rfl

theorem evaluateAllTokens_of_allStale (cfg : Config) (s : State)
    (hstale : ∀ row ∈ s.allMarketReserves, row.flag = STALE_RESERVE) (isFollowUp : Bool) :
    ∀ (entries : List (Address × List UniswappyV2Pair)) (arbs : List (Arb × CrossedMarket)),
      evaluateAllTokens cfg s isFollowUp entries = some arbs → arbs = [] := by
  intro entries
  induction entries with
  | nil => intro arbs h; simpa [evaluateAllTokens] using h.symm
  | cons entry rest ih =>
    intro arbs h
    unfold evaluateAllTokens at h
    split at h
    · exact absurd h (by simp)
    · rename_i found hfound
      split at h
      · exact absurd h (by simp)
      · rename_i tail htail
        simp only [Option.some.injEq] at h
        rw [← h, evaluateToken_of_allStale cfg s hstale isFollowUp entry.2 found hfound,
          ih tail htail]
        rfl

theorem evaluateAllTokens_allStale_isSome (cfg : Config) (s : State)
    (hstale : ∀ row ∈ s.allMarketReserves, row.flag = STALE_RESERVE) (isFollowUp : Bool) :
    ∀ (entries : List (Address × List UniswappyV2Pair)),
      (∀ entry ∈ entries, ∀ p ∈ entry.2, p.TokenReserveIndex < s.allMarketReserves.length) →
      evaluateAllTokens cfg s isFollowUp entries = some [] := by
  intro entries
  induction entries with
  | nil => intro _; rfl
  | cons entry rest ih =>
    intro hv
    unfold evaluateAllTokens
    rw [evaluateToken_allStale_isSome cfg s hstale isFollowUp entry.2
        (hv entry (List.mem_cons_self _ _)),
      ih (fun e he => hv e (List.mem_cons_of_mem _ he))]
    rfl

/-- C12: `isStaleReserves` answers true exactly when the flags of both rows are
`STALE`; and in a state where every row's flag is `STALE` both
`evaluateMarketsRecursive` and `evaluateMarketsRecursiveAll` can only return the
empty slice with the state untouched, and do return it when every registered
pool's reserve row exists. -/
theorem stale_filter (cfg : Config) (s : State)
    (hstale : ∀ row ∈ s.allMarketReserves, row.flag = STALE_RESERVE) :
    (∀ (s0 : State) (a b : UniswappyV2Pair),
        isStaleReserves s0 a b = some true ↔
          reserveAt s0 a.TokenReserveIndex 2 = some STALE_RESERVE
            ∧ reserveAt s0 b.TokenReserveIndex 2 = some STALE_RESERVE)
    ∧ (∀ (isFollowUp : Bool) (token : Address) (depth : Int) (arbs : List Arb) (s' : State),
        evaluateMarketsRecursive cfg isFollowUp token depth s = some (arbs, s') →
        arbs = [] ∧ s' = s)
    ∧ (∀ (isFollowUp : Bool) (depth : Int) (arbs : List Arb) (s' : State),
        evaluateMarketsRecursiveAll cfg isFollowUp depth s = some (arbs, s') →
        arbs = [] ∧ s' = s)
    ∧ ((∀ entry ∈ s.marketPairsByToken, ∀ p ∈ entry.2,
          p.TokenReserveIndex < s.allMarketReserves.length) →
        ∀ (isFollowUp : Bool) (token : Address) (depth : Int),
          evaluateMarketsRecursive cfg isFollowUp token depth s = some ([], s)
            ∧ evaluateMarketsRecursiveAll cfg isFollowUp depth s = some ([], s)) := by
  refine ⟨?_, ?_, ?_, ?_⟩
  · intro s0 a b
    unfold isStaleReserves
    constructor
    · intro h
      split at h
      · exact absurd h (by simp)
      · rename_i va hva
        split_ifs at h with hc
        · subst hc
          split at h
          · exact absurd h (by simp)
          · rename_i vb hvb
            simp only [Option.some.injEq, decide_eq_true_eq] at h
            subst h
            exact ⟨hva, hvb⟩
        · exact absurd h (by simp)
    · rintro ⟨ha, hb⟩
      rw [ha, hb]
      simp
  · intro isFollowUp token depth arbs s' h
    rw [evaluateMarketsRecursive] at h
    split at h
    · exact absurd h (by simp)
    · rename_i found hfound
      have := evaluateToken_of_allStale cfg s hstale isFollowUp _ found hfound
      subst this
      simpa [eq_comm] using h
  · intro isFollowUp depth arbs s' h
    rw [evaluateMarketsRecursiveAll] at h
    split at h
    · exact absurd h (by simp)
    · rename_i level hlevel
      have := evaluateAllTokens_of_allStale cfg s hstale isFollowUp _ level hlevel
      subst this
      simpa [eq_comm] using h
  · intro hv isFollowUp token depth
    constructor
    · have hvt : ∀ p ∈ pairsOf s token, p.TokenReserveIndex < s.allMarketReserves.length :=
        fun p hp => hv _ (pairsOf_mem_registry s token p hp) p hp
      rw [evaluateMarketsRecursive,
        evaluateToken_allStale_isSome cfg s hstale isFollowUp (pairsOf s token) hvt]
      simp
    · rw [evaluateMarketsRecursiveAll,
        evaluateAllTokens_allStale_isSome cfg s hstale isFollowUp s.marketPairsByToken hv]
      simp

theorem stale_filter_witness :
    (∀ row ∈ (markReservesAsStale exampleState).allMarketReserves, row.flag = STALE_RESERVE)
      ∧ evaluateMarketsRecursive exampleConfig false 7 0 (markReservesAsStale exampleState)
          = some ([], markReservesAsStale exampleState)
      ∧ evaluateMarketsRecursiveAll exampleConfig false 0 (markReservesAsStale exampleState)
          = some ([], markReservesAsStale exampleState) :=
  ⟨by decide,
    ((stale_filter exampleConfig (markReservesAsStale exampleState) (by decide)).2.2.2
      (by decide) false 7 0).1,
    ((stale_filter exampleConfig (markReservesAsStale exampleState) (by decide)).2.2.2
      (by decide) false 7 0).2⟩

/-! ## First eligible pair -/

theorem crossWith_eq_filter (s : State) (refPair : UniswappyV2Pair) :
    ∀ (pairs : List UniswappyV2Pair) (cms : List CrossedMarket),
      crossWith s refPair pairs = some cms →
      cms = (pairs.map (fun pair => (refPair, pair))).filter (isCandidate s) := by
  intro pairs
  induction pairs with
  | nil => intro cms h; simpa [crossWith] using h.symm
  | cons pair rest ih =>
    intro cms h
    unfold crossWith at h
    split at h
    · exact absurd h (by simp)
    · rename_i stale hst
      split at h
      · exact absurd h (by simp)
      · rename_i tail htail
        have ht := ih tail htail
        simp only [List.map_cons, List.filter_cons, isCandidate, hst]
        cases stale with
        | true =>
          simp only [if_true, Option.some.injEq] at h
          simp [← h, ht]
        | false =>
          simp only [Bool.false_eq_true, if_false] at h
          by_cases hadr : refPair.MarketAdress = pair.MarketAdress
          · simp only [hadr, if_true, Option.some.injEq] at h
            simp [← h, ht, hadr]
          · simp only [hadr, if_false] at h
            by_cases hx : pair.SellWethPrice > refPair.BuyWethPrice
            · simp only [hx, if_true, Option.some.injEq] at h
              simp [← h, ht, hadr, hx]
            · simp only [hx, if_false, Option.some.injEq] at h
              simp [← h, ht, hadr, hx]

theorem crossFrom_eq_filter (s : State) (pairs : List UniswappyV2Pair) :
    ∀ (refs : List UniswappyV2Pair) (cms : List CrossedMarket),
      crossFrom s pairs refs = some cms →
      cms = (refs.flatMap (fun refPair => pairs.map (fun pair => (refPair, pair)))).filter
        (isCandidate s) := by
  intro refs
  induction refs with
  | nil => intro cms h; simpa [crossFrom] using h.symm
  | cons refPair rest ih =>
    intro cms h
    unfold crossFrom at h
    split at h
    · exact absurd h (by simp)
    · rename_i head hhead
      split at h
      · exact absurd h (by simp)
      · rename_i tail htail
        simp only [Option.some.injEq] at h
        rw [← h, crossWith_eq_filter s refPair pairs head hhead, ih tail htail]
        simp [List.flatMap_cons]

theorem exceedsThreshold_iff (cfg : Config) (isFollowUp : Bool) (profit : Int) :
    exceedsThreshold cfg isFollowUp profit = true ↔
      (if isFollowUp then profit > cfg.MIN_PROFIT_WEI_FOLLOWUP else profit > cfg.MIN_PROFIT_WEI) := by
  cases isFollowUp <;> simp [exceedsThreshold]

theorem selectLoop_first (cfg : Config) (s : State) (isFollowUp : Bool) :
    ∀ (cms : List CrossedMarket) (bestArb : Option (Arb × CrossedMarket))
      (bestProfit : Option Int) (found : Option (Arb × CrossedMarket)),
      selectLoop cfg s isFollowUp cms false bestArb bestProfit = some found →
      match found with
      | some (a, cm) =>
        ∃ pre post, cms = pre ++ cm :: post
          ∧ (∃ profit, profitOf s cm = some profit ∧ exceedsThreshold cfg isFollowUp profit = true)
          ∧ arbOf cfg s cm = some a
          ∧ ∀ c ∈ pre, ∃ profit, profitOf s c = some profit
              ∧ exceedsThreshold cfg isFollowUp profit = false
      | none =>
        ∀ c ∈ cms, ∃ profit, profitOf s c = some profit
          ∧ exceedsThreshold cfg isFollowUp profit = false := by
  intro cms
  induction cms with
  | nil =>
    intro bestArb bestProfit found h
    simp only [selectLoop, Bool.false_eq_true, if_false, Option.some.injEq] at h
    subst h
    simp
  | cons c rest ih =>
    intro bestArb bestProfit found h
    unfold selectLoop at h
    split at h
    · exact absurd h (by simp)
    · rename_i size tokensOut proceeds profit hsize
      by_cases hex : exceedsThreshold cfg isFollowUp profit = true
      · simp only [hex, if_true, Bool.not_false, Option.some.injEq] at h
        subst h
        refine ⟨[], rest, rfl, ⟨profit, ?_, hex⟩, ?_, ?_⟩
        · simp [profitOf, hsize]
        · simp [arbOf, hsize]
        · simp
      · simp only [hex, if_false] at h
        have hexf : exceedsThreshold cfg isFollowUp profit = false := by simpa using hex
        have hc : ∃ profit, profitOf s c = some profit
            ∧ exceedsThreshold cfg isFollowUp profit = false :=
          ⟨profit, by simp [profitOf, hsize], hexf⟩
        have := ih bestArb bestProfit found h
        cases found with
        | none =>
          intro x hx
          rcases List.mem_cons.mp hx with rfl | hmem
          · exact hc
          · exact this x hmem
        | some ac =>
          obtain ⟨a, cm⟩ := ac
          obtain ⟨pre, post, hl, hp, ha, hpre⟩ := this
          refine ⟨c :: pre, post, by rw [hl]; rfl, hp, ha, ?_⟩
          intro x hx
          rcases List.mem_cons.mp hx with rfl | hmem
          · exact hc
          · exact hpre x hmem

theorem selectLoop_isSome (cfg : Config) (s : State) (isFollowUp : Bool) :
    ∀ (cms : List CrossedMarket) (bestArb : Option (Arb × CrossedMarket))
      (bestProfit : Option Int),
      (∀ c ∈ cms, (sizeCrossedMarket s c).isSome = true) →
      ∃ found, selectLoop cfg s isFollowUp cms false bestArb bestProfit = some found := by
  intro cms
  induction cms with
  | nil => intro bestArb bestProfit _; exact ⟨_, rfl⟩
  | cons c rest ih =>
    intro bestArb bestProfit hs
    have hc := hs c (List.mem_cons_self _ _)
    obtain ⟨r, hr⟩ := Option.isSome_iff_exists.mp hc
    obtain ⟨size, tokensOut, proceeds, profit⟩ := r
    unfold selectLoop
    rw [hr]
    dsimp only
    by_cases hex : exceedsThreshold cfg isFollowUp profit = true
    · simp only [hex, if_true, Bool.not_false]
      exact ⟨_, rfl⟩
    · simp only [hex, if_false]
      exact ih bestArb bestProfit (fun x hx => hs x (List.mem_cons_of_mem _ hx))

/-- C11: for one token at one recursion level the search emits at most one arb.
When it emits one, the arb is built from the first pair `(ref, p)` in enumeration
order that is eligible (two different pools, not both stale, crossed, and with an
optimally sized profit strictly above `MIN_PROFIT_WEI`, or above
`MIN_PROFIT_WEI_FOLLOWUP` on a follow-up); it emits nothing exactly when no pair
is eligible.  The search completes whenever every pool's reserve row exists and
every candidate can be sized. -/
theorem evaluateToken_first (cfg : Config) (s : State) (isFollowUp : Bool)
    (pairs : List UniswappyV2Pair) :
    (∀ found, evaluateToken cfg s isFollowUp pairs = some found →
        found.toList.length ≤ 1
        ∧ ((∃ c ∈ enumeratePairs pairs, Eligible cfg s isFollowUp c) ↔ found.isSome = true)
        ∧ ∀ a cm, found = some (a, cm) →
            ∃ pre post, enumeratePairs pairs = pre ++ cm :: post
              ∧ Eligible cfg s isFollowUp cm
              ∧ arbOf cfg s cm = some a
              ∧ ∀ c ∈ pre, ¬ Eligible cfg s isFollowUp c)
    ∧ ((∀ p ∈ pairs, p.TokenReserveIndex < s.allMarketReserves.length) →
        (∀ c ∈ enumeratePairs pairs, isCandidate s c = true →
          (sizeCrossedMarket s c).isSome = true) →
        ∃ found, evaluateToken cfg s isFollowUp pairs = some found) := by
  constructor
  · intro found h
    unfold evaluateToken crossMarkets at h
    split at h
    · exact absurd h (by simp)
    · rename_i cms hcms
      have hf := crossFrom_eq_filter s pairs pairs cms hcms
      have hsel := selectLoop_first cfg s isFollowUp cms none none found h
      have hnot : ∀ c, (∃ profit, profitOf s c = some profit
          ∧ exceedsThreshold cfg isFollowUp profit = false) → ¬ Eligible cfg s isFollowUp c := by
        rintro c ⟨profit, hp, hex⟩ ⟨_, profit', hp', hgt⟩
        rw [hp] at hp'
        simp only [Option.some.injEq] at hp'
        subst hp'
        have := (exceedsThreshold_iff cfg isFollowUp profit).mpr hgt
        rw [hex] at this
        exact absurd this (by simp)
      refine ⟨by cases found <;> simp, ?_, ?_⟩
      · cases found with
        | none =>
          simp only [Option.isSome_none, Bool.false_eq_true, iff_false, not_exists, not_and]
          intro c hc hel
          have hcm : c ∈ cms := by
            rw [hf]
            exact List.mem_filter.mpr ⟨hc, hel.1⟩
          exact hnot c (hsel c hcm) hel
        | some ac =>
          obtain ⟨a, cm⟩ := ac
          obtain ⟨pre, post, hl, ⟨profit, hp, hex⟩, _, _⟩ := hsel
          simp only [Option.isSome_some, iff_true]
          have hmem : cm ∈ cms := by rw [hl]; simp
          rw [hf] at hmem
          obtain ⟨hin, hcand⟩ := List.mem_filter.mp hmem
          exact ⟨cm, hin, hcand, profit, hp, (exceedsThreshold_iff cfg isFollowUp profit).mp hex⟩
      · intro a cm hfound
        subst hfound
        obtain ⟨pre, post, hl, ⟨profit, hp, hex⟩, ha, hpre⟩ := hsel
        rw [hf] at hl
        obtain ⟨l1, l2, hsplit, h1, h2⟩ := List.filter_eq_append_iff.mp hl
        obtain ⟨m1, m2, hsplit2, hm1, hcand, _⟩ := List.filter_eq_cons_iff.mp h2
        refine ⟨l1 ++ m1, m2, ?_, ⟨hcand, profit, hp,
          (exceedsThreshold_iff cfg isFollowUp profit).mp hex⟩, ha, ?_⟩
        · unfold enumeratePairs
          rw [hsplit, hsplit2, List.append_assoc]
        · intro c hc hel
          rcases List.mem_append.mp hc with hc1 | hc2
          · have : c ∈ pre := by
              rw [← h1]
              exact List.mem_filter.mpr ⟨hc1, hel.1⟩
            exact hnot c (hpre c this) hel
          · have := hm1 c hc2
            rw [hel.1] at this
            exact absurd this (by simp)
  · intro hv hsz
    obtain ⟨cms, hcms⟩ := crossFrom_isSome s pairs hv pairs hv
    have hf := crossFrom_eq_filter s pairs pairs cms hcms
    have hall : ∀ c ∈ cms, (sizeCrossedMarket s c).isSome = true := by
      intro c hc
      rw [hf] at hc
      obtain ⟨hin, hcand⟩ := List.mem_filter.mp hc
      exact hsz c hin hcand
    unfold evaluateToken crossMarkets
    rw [hcms]
    exact selectLoop_isSome cfg s isFollowUp cms none none hall

theorem evaluateToken_first_witness :
    evaluateToken exampleConfig exampleState false [examplePoolB, examplePoolA]
        = some (some (exampleArb, (examplePoolB, examplePoolA)))
      ∧ evaluateToken { exampleConfig with MIN_PROFIT_WEI := 330 } exampleState false
          [examplePoolB, examplePoolA] = some none
      ∧ ∃ pre post, enumeratePairs [examplePoolB, examplePoolA]
            = pre ++ (examplePoolB, examplePoolA) :: post
          ∧ Eligible exampleConfig exampleState false (examplePoolB, examplePoolA)
          ∧ arbOf exampleConfig exampleState (examplePoolB, examplePoolA) = some exampleArb
          ∧ ∀ c ∈ pre, ¬ Eligible exampleConfig exampleState false c :=
  ⟨by decide!, by decide!,
    ((evaluateToken_first exampleConfig exampleState false [examplePoolB, examplePoolA]).1 _
      (by decide!)).2.2 exampleArb (examplePoolB, examplePoolA) rfl⟩

/-! ## Reserve updates -/

/-- C14 (as stated, refuted): a batch whose rows carry 0 in the third slot leaves
both pools of the example stale. -/
theorem updateReserves_stale_counterexample :
    isStaleReserves (updateReserves [⟨1000, 2000, 0⟩, ⟨2000, 1000, 0⟩] exampleState)
      examplePoolA examplePoolB = some true := by
  decide

/-- C14 (amended): after the batch refresh the reserve vector is the input,
third slot included, and nothing else changes; a row is fresh exactly when its
third slot is not 0, so `isStaleReserves` reports a pair stale exactly when the
input rows of both pools carry 0 there. -/
theorem updateReserves_fresh (rows : List ReserveRow) (s : State) :
    (updateReserves rows s).allMarketReserves = rows
      ∧ (updateReserves rows s).marketPairsByToken = s.marketPairsByToken
      ∧ (updateReserves rows s).allMarketAddresses = s.allMarketAddresses
      ∧ (updateReserves rows s).marketMapping = s.marketMapping
      ∧ ∀ (a b : UniswappyV2Pair) (ra rb : ReserveRow),
          rows[a.TokenReserveIndex]? = some ra → rows[b.TokenReserveIndex]? = some rb →
          isStaleReserves (updateReserves rows s) a b
            = some (decide (ra.flag = 0 ∧ rb.flag = 0)) := by
  refine ⟨rfl, rfl, rfl, rfl, ?_⟩
  intro a b ra rb ha hb
  unfold isStaleReserves reserveAt updateReserves
  simp only [ha, hb, ReserveRow.get, STALE_RESERVE]
  by_cases h0 : ra.flag = 0
  · simp [h0]
  · simp [h0]

theorem updateReserves_fresh_witness :
    isStaleReserves (updateReserves [⟨1000, 2000, 5⟩, ⟨2000, 1000, 0⟩] exampleState)
      examplePoolA examplePoolB
        = some (decide ((⟨1000, 2000, 5⟩ : ReserveRow).flag = 0
            ∧ (⟨2000, 1000, 0⟩ : ReserveRow).flag = 0)) :=
  (updateReserves_fresh [⟨1000, 2000, 5⟩, ⟨2000, 1000, 0⟩] exampleState).2.2.2.2
    examplePoolA examplePoolB ⟨1000, 2000, 5⟩ ⟨2000, 1000, 0⟩ rfl rfl

theorem setReserveAt_eq (s : State) (idx j : Nat) (v : Int) (row row' : ReserveRow)
    (h : s.allMarketReserves[idx]? = some row) (hr : row.set j v = some row') :
    setReserveAt s idx j v
      = some { s with allMarketReserves := s.allMarketReserves.set idx row' } := by
  unfold setReserveAt
  rw [h]
  dsimp only
  rw [hr]

theorem getElem?_set_self_of_some {α : Type} (l : List α) (i : Nat) (a b : α)
    (h : l[i]? = some a) : (l.set i b)[i]? = some b := by
  have hlt : i < l.length := by
    rcases List.getElem?_eq_some.mp h with ⟨hlt, _⟩
    exact hlt
  rw [List.getElem?_set]
  simp [hlt]

theorem GetAmountOut_isSome_of_pos {rin rout x f : Int} (hrin : 0 ≤ rin) (hx : 0 < x)
    (h0 : 0 ≤ f) (h1 : f < 10000) : ∃ v, GetAmountOut rin rout x f = some v := by
  have : 0 < 10000 * rin + x * (10000 - f) := by
    have h2 : 0 < x * (10000 - f) := mul_pos hx (by omega)
    have h3 : 0 ≤ 10000 * rin := by positivity
    linarith
  exact ⟨_, GetAmountOut_eq h0 h1.le this.ne'⟩

theorem GetAmountIn_isSome_of_ne {rin rout y f : Int} (hne : rout ≠ y)
    (h0 : 0 ≤ f) (h1 : f < 10000) : ∃ v, GetAmountIn rin rout y f = some v := by
  have : (rout - y) * (10000 - f) ≠ 0 :=
    mul_ne_zero (sub_ne_zero.mpr hne) (by omega)
  exact ⟨_, GetAmountIn_eq h0 h1.le this⟩

/-- C13 (as stated, refuted): after `markReservesAsStale`, a `Sync` event of pool
`1` that reports a native-side reserve equal to `BASE_WEI` (10 here) makes the
price refresh divide by zero, so the update does not complete. -/
theorem updateReservesByEvent_counterexample :
    updateReservesByEvent exampleConfig ⟨1, 10, 2000⟩ (markReservesAsStale exampleState)
      = none := by
  decide

/-- C13 (amended): in a state where the reverse index locates the pool `p` at
`(q, i)`, its reserve row exists, its two indices are 0 and 1, its fee lies in
`[0, 10000)` and `BASE_WEI > 0`: for all non-negative `r0`, `r1` whose
native-side value differs from `BASE_WEI`, `markReservesAsStale` followed by the
event update of `p` with `(r0, r1)` completes, returns `q`, leaves `p`'s row
equal to `(r0, r1, UPDATED_RESERVE)`, and leaves every other row with its `r0`,
`r1` and the flag `STALE_RESERVE`. -/
theorem event_after_stale (cfg : Config) (s : State) (p : UniswappyV2Pair) (q : Address)
    (i : Nat) (r0 r1 : Int)
    (hmap : s.marketMapping.lookup p.MarketAdress = some ⟨q, i⟩)
    (hpair : (pairsOf s q)[i]? = some p)
    (hidx : p.TokenReserveIndex < s.allMarketReserves.length)
    (hind : (p.NativeIndex = 0 ∧ p.TokenIndex = 1) ∨ (p.NativeIndex = 1 ∧ p.TokenIndex = 0))
    (hf0 : 0 ≤ p.FeePerTenThousands) (hf1 : p.FeePerTenThousands < 10000)
    (hbase : 0 < cfg.BASE_WEI) (hr0 : 0 ≤ r0) (hr1 : 0 ≤ r1)
    (hne : (if p.NativeIndex = 0 then r0 else r1) ≠ cfg.BASE_WEI) :
    ∃ s', updateReservesByEvent cfg ⟨p.MarketAdress, r0, r1⟩ (markReservesAsStale s)
        = some (q, s')
      ∧ s'.allMarketReserves[p.TokenReserveIndex]? = some ⟨r0, r1, UPDATED_RESERVE⟩
      ∧ s'.allMarketReserves.length = s.allMarketReserves.length
      ∧ ∀ (j : Nat) (row : ReserveRow), j ≠ p.TokenReserveIndex →
          s.allMarketReserves[j]? = some row →
          s'.allMarketReserves[j]? = some ⟨row.r0, row.r1, STALE_RESERVE⟩ := by
  set sm := markReservesAsStale s with hsm
  have hmapm : mappingOf sm p.MarketAdress = ⟨q, i⟩ := by
    simp [mappingOf, hsm, markReservesAsStale, hmap]
  have hpairm : (pairsOf sm q)[i]? = some p := hpair
  obtain ⟨row, hrow⟩ : ∃ row, sm.allMarketReserves[p.TokenReserveIndex]? = some row := by
    have : p.TokenReserveIndex < sm.allMarketReserves.length := by
      simp [hsm, markReservesAsStale, hidx]
    exact ⟨_, List.getElem?_eq_getElem this⟩
  -- the three writes
  have e1 := setReserveAt_eq sm p.TokenReserveIndex 0 r0 row { row with r0 := r0 } hrow rfl
  set s1 : State := { sm with allMarketReserves :=
    (sm.allMarketReserves.set p.TokenReserveIndex { row with r0 := r0 }) } with hs1
  have hrow1 : s1.allMarketReserves[p.TokenReserveIndex]? = some { row with r0 := r0 } :=
    getElem?_set_self_of_some _ _ _ _ hrow
  have e2 := setReserveAt_eq s1 p.TokenReserveIndex 1 r1 _
    { row with r0 := r0, r1 := r1 } hrow1 rfl
  set s2 : State := { s1 with allMarketReserves :=
    (s1.allMarketReserves.set p.TokenReserveIndex { row with r0 := r0, r1 := r1 }) } with hs2
  have hrow2 : s2.allMarketReserves[p.TokenReserveIndex]?
      = some { row with r0 := r0, r1 := r1 } :=
    getElem?_set_self_of_some _ _ _ _ hrow1
  have e3 := setReserveAt_eq s2 p.TokenReserveIndex 2 UPDATED_RESERVE _
    ⟨r0, r1, UPDATED_RESERVE⟩ hrow2 rfl
  set s3 : State := { s2 with allMarketReserves :=
    (s2.allMarketReserves.set p.TokenReserveIndex ⟨r0, r1, UPDATED_RESERVE⟩) } with hs3
  have hrow3 : s3.allMarketReserves[p.TokenReserveIndex]? = some ⟨r0, r1, UPDATED_RESERVE⟩ :=
    getElem?_set_self_of_some _ _ _ _ hrow2
  -- the price refresh
  have hnat : ∃ native quote, reserveAt s3 p.TokenReserveIndex p.NativeIndex = some native
      ∧ reserveAt s3 p.TokenReserveIndex p.TokenIndex = some quote
      ∧ 0 ≤ native ∧ 0 ≤ quote ∧ native ≠ cfg.BASE_WEI := by
    unfold reserveAt
    rw [hrow3]
    rcases hind with ⟨hn, ht⟩ | ⟨hn, ht⟩
    · rw [hn, ht]
      rw [hn] at hne
      exact ⟨r0, r1, rfl, rfl, hr0, hr1, by simpa using hne⟩
    · rw [hn, ht]
      rw [hn] at hne
      exact ⟨r1, r0, rfl, rfl, hr1, hr0, by simpa using hne⟩
  obtain ⟨native, quote, hN, hT, hn0, _, hnb⟩ := hnat
  obtain ⟨sell, hsell⟩ := @GetAmountOut_isSome_of_pos native quote cfg.BASE_WEI
    p.FeePerTenThousands hn0 hbase hf0 hf1
  obtain ⟨buy, hbuy⟩ := @GetAmountIn_isSome_of_ne quote native cfg.BASE_WEI
    p.FeePerTenThousands hnb hf0 hf1
  have hre : repriceAt cfg s3 q i p = some (setPrices s3 q i sell buy) := by
    unfold repriceAt
    rw [hN, hT]
    dsimp only
    rw [hsell]
    dsimp only
    rw [hbuy]
  refine ⟨setPrices s3 q i sell buy, ?_, ?_, ?_, ?_⟩
  · unfold updateReservesByEvent
    simp only [hmapm, hpairm, e1, e2, e3, hre]
  · exact hrow3
  · simp [setPrices, hs3, hs2, hs1, hsm, markReservesAsStale]
  · intro j row0 hj hrow0
    have : (setPrices s3 q i sell buy).allMarketReserves
        = ((((s.allMarketReserves.map (fun row => { row with flag := STALE_RESERVE })).set
            p.TokenReserveIndex { row with r0 := r0 }).set
            p.TokenReserveIndex { row with r0 := r0, r1 := r1 }).set
            p.TokenReserveIndex ⟨r0, r1, UPDATED_RESERVE⟩) := rfl
    rw [this]
    simp only [List.getElem?_set, List.getElem?_map, hrow0]
    simp [Ne.symm hj]

theorem event_after_stale_witness :
    ∃ s', updateReservesByEvent exampleConfig ⟨examplePoolA.MarketAdress, 3000, 2000⟩
          (markReservesAsStale exampleState) = some (7, s')
      ∧ s'.allMarketReserves[examplePoolA.TokenReserveIndex]?
          = some ⟨3000, 2000, UPDATED_RESERVE⟩
      ∧ s'.allMarketReserves.length = exampleState.allMarketReserves.length
      ∧ ∀ (j : Nat) (row : ReserveRow), j ≠ examplePoolA.TokenReserveIndex →
          exampleState.allMarketReserves[j]? = some row →
          s'.allMarketReserves[j]? = some ⟨row.r0, row.r1, STALE_RESERVE⟩ :=
  event_after_stale exampleConfig exampleState examplePoolA 7 1 3000 2000 (by decide)
    (by decide) (by decide) (by decide) (by decide) (by decide) (by decide) (by decide)
    (by decide) (by decide)

/-! ## Findings on the Hermes deduction and on the periodic pass -/

/-- C16 (the code at the failing input): for a buy pool and a sell pool of the
Hermes factory, whose fee numerator is 1 both on the pools and in the fee map
under the factory, `updateReserveByArb` raises the buy pool's native reserve
100000 by the whole 9999 and the sell pool's quote reserve 100000 by the whole
9999: the divisor of the deduction is read from the fee map under the quote
token's address, where the map has no entry, so it is 10000 and not `10000 - 1`,
the divisor that takes 1 off the 9999. -/
theorem hermes_deduction_divergence :
    hermesConfig.hexIsHermesFactory hermesPoolA.Factory = true
      ∧ hermesConfig.hexIsHermesFactory hermesPoolB.Factory = true
      ∧ hermesConfig.feeByHex hermesPoolA.Factory = 1
      ∧ hermesPoolA.FeePerTenThousands = 1 ∧ hermesPoolB.FeePerTenThousands = 1
      ∧ nativeReserveOf hermesState hermesPoolA = some 100000
      ∧ reserveAt hermesState hermesPoolB.TokenReserveIndex hermesPoolB.TokenIndex = some 100000
      ∧ (updateReserveByArb hermesConfig hermesArb (hermesPoolB, hermesPoolA) false
          hermesState).bind (fun s' => nativeReserveOf s' hermesPoolA) = some (100000 + 9999)
      ∧ (updateReserveByArb hermesConfig hermesArb (hermesPoolB, hermesPoolA) false
          hermesState).bind
            (fun s' => reserveAt s' hermesPoolB.TokenReserveIndex hermesPoolB.TokenIndex)
          = some (100000 + 9999)
      ∧ (100000 + 9999 : Int) ≠ 100000 + (9999 - 9999 / (10000 - 1)) := by
  decide!

/-- C17 (the code at the failing input): the periodic pass refreshes the reserves
and searches at once, without pricing.  When the batch reports the reserves of the
two example pools exchanged, the cached prices still say that pool `1` is the cheap
one (cached 19, while its new reserves price at 4), and the search emits an arb
that buys from pool `1` with the negative input `-671`; pricing first, as the
start-up path does, gives the arb in the opposite direction. -/
theorem periodicPass_stale_prices :
    (updateReserves [⟨2000, 1000, 5⟩, ⟨1000, 2000, 5⟩] exampleState).marketPairsByToken
        = exampleState.marketPairsByToken
      ∧ examplePoolA.SellWethPrice = 19
      ∧ nativeReserveOf (updateReserves [⟨2000, 1000, 5⟩, ⟨1000, 2000, 5⟩] exampleState)
          examplePoolA = some 2000
      ∧ GetAmountOut 2000 1000 exampleConfig.BASE_WEI examplePoolA.FeePerTenThousands = some 4
      ∧ (periodicPass exampleConfig [⟨2000, 1000, 5⟩, ⟨1000, 2000, 5⟩] exampleState).map
          (fun r => r.1.map (fun a => (a.BuyFromPair, a.NativeInAmount, a.SellToPair)))
          = some [(1, -671, 2)]
      ∧ ((priceMarkets exampleConfig
            (updateReserves [⟨2000, 1000, 5⟩, ⟨1000, 2000, 5⟩] exampleState)).bind
          (fun s => evaluateMarketsRecursiveAll exampleConfig false 0 s)).map
          (fun r => r.1.map (fun a => (a.BuyFromPair, a.NativeInAmount, a.SellToPair)))
          = some [(2, 332, 1)] := by
  decide!

/-! ## Ordering by liquidity -/

theorem keyPairs_spec (s : State) :
    ∀ (pairs : List UniswappyV2Pair) (keyed : List (Int × UniswappyV2Pair)),
      keyPairs s pairs = some keyed →
        keyed.map Prod.snd = pairs ∧ ∀ x ∈ keyed, nativeReserveOf s x.2 = some x.1 := by
  intro pairs
  induction pairs with
  | nil =>
    intro keyed h
    simp only [keyPairs, Option.some.injEq] at h
    subst h
    simp
  | cons p rest ih =>
    intro keyed h
    rw [keyPairs] at h
    cases hk : nativeReserveOf s p with
    | none => simp [hk] at h
    | some key =>
      cases ht : keyPairs s rest with
      | none => simp [hk, ht] at h
      | some tail =>
        simp only [hk, ht, Option.some.injEq] at h
        subst h
        obtain ⟨h1, h2⟩ := ih tail ht
        refine ⟨by simp [h1], ?_⟩
        intro x hx
        rcases List.mem_cons.1 hx with hx | hx
        · subst hx
          exact hk
        · exact h2 x hx

theorem keyPairs_isSome (s : State) :
    ∀ (pairs : List UniswappyV2Pair),
      (∀ p ∈ pairs, (nativeReserveOf s p).isSome = true) → (keyPairs s pairs).isSome = true := by
  intro pairs
  induction pairs with
  | nil => intro _; simp [keyPairs]
  | cons p rest ih =>
    intro h
    have hp := h p (List.mem_cons_self _ _)
    have hr := ih (fun q hq => h q (List.mem_cons_of_mem _ hq))
    obtain ⟨key, hk⟩ := Option.isSome_iff_exists.1 hp
    obtain ⟨tail, ht⟩ := Option.isSome_iff_exists.1 hr
    rw [keyPairs]
    simp [hk, ht]

theorem sortSlice_perm (keyed : List (Int × UniswappyV2Pair)) :
    (sortSlice keyed).Perm (keyed.map Prod.snd) := by
  unfold sortSlice
  exact (List.perm_insertionSort _ keyed).map Prod.snd

theorem sortSlice_adjacent (keyed : List (Int × UniswappyV2Pair)) (i : Nat)
    (a b : UniswappyV2Pair) (ha : (sortSlice keyed)[i]? = some a)
    (hb : (sortSlice keyed)[i + 1]? = some b) :
    ∃ ka kb : Int, (ka, a) ∈ keyed ∧ (kb, b) ∈ keyed ∧ ka ≥ kb := by
  unfold sortSlice at ha hb
  haveI : IsTotal (Int × UniswappyV2Pair) (fun x y => x.1 ≥ y.1) :=
    ⟨fun x y => le_total y.1 x.1⟩
  haveI : IsTrans (Int × UniswappyV2Pair) (fun x y => x.1 ≥ y.1) :=
    ⟨fun x y z hxy hyz => le_trans hyz hxy⟩
  have hsorted := List.sorted_insertionSort (fun x y : Int × UniswappyV2Pair => x.1 ≥ y.1) keyed
  have hperm := List.perm_insertionSort (fun x y : Int × UniswappyV2Pair => x.1 ≥ y.1) keyed
  generalize List.insertionSort (fun x y : Int × UniswappyV2Pair => x.1 ≥ y.1) keyed = l
    at ha hb hsorted hperm
  rw [List.getElem?_map] at ha hb
  cases hxa : l[i]? with
  | none => simp [hxa] at ha
  | some xa =>
    cases hxb : l[i + 1]? with
    | none => simp [hxb] at hb
    | some xb =>
      simp only [hxa, hxb, Option.map_some', Option.some.injEq] at ha hb
      obtain ⟨hi, hxa'⟩ := List.getElem?_eq_some.1 hxa
      obtain ⟨hj, hxb'⟩ := List.getElem?_eq_some.1 hxb
      have hrel : xa.1 ≥ xb.1 := by
        have := (List.pairwise_iff_getElem.1 hsorted) i (i + 1) hi hj (Nat.lt_succ_self i)
        rw [hxa', hxb'] at this
        exact this
      refine ⟨xa.1, xb.1, ?_, ?_, hrel⟩
      · have hm : xa ∈ l := List.getElem?_mem hxa
        have := hperm.subset hm
        rw [← ha]
        exact this
      · have hm : xb ∈ l := List.getElem?_mem hxb
        have := hperm.subset hm
        rw [← hb]
        exact this

theorem sortPairs_spec (s : State) (pairs sorted : List UniswappyV2Pair)
    (h : sortPairs s pairs = some sorted) :
    sorted.Perm pairs ∧
      ∀ (i : Nat) (a b : UniswappyV2Pair), sorted[i]? = some a → sorted[i + 1]? = some b →
        ∃ ka kb : Int, nativeReserveOf s a = some ka ∧ nativeReserveOf s b = some kb ∧ ka ≥ kb := by
  unfold sortPairs at h
  split at h
  · rename_i hlen
    simp only [Option.some.injEq] at h
    subst h
    refine ⟨List.Perm.refl _, ?_⟩
    intro i a b _ hb
    obtain ⟨hj, _⟩ := List.getElem?_eq_some.1 hb
    omega
  · cases hk : keyPairs s pairs with
    | none => simp [hk] at h
    | some keyed =>
      simp only [hk, Option.some.injEq] at h
      subst h
      obtain ⟨hmap, hkeys⟩ := keyPairs_spec s pairs keyed hk
      refine ⟨?_, ?_⟩
      · have := sortSlice_perm keyed
        rwa [hmap] at this
      · intro i a b ha hb
        obtain ⟨ka, kb, hma, hmb, hrel⟩ := sortSlice_adjacent keyed i a b ha hb
        exact ⟨ka, kb, hkeys _ hma, hkeys _ hmb, hrel⟩

theorem sortPairs_isSome (s : State) (pairs : List UniswappyV2Pair)
    (h : ∀ p ∈ pairs, (nativeReserveOf s p).isSome = true) :
    (sortPairs s pairs).isSome = true := by
  unfold sortPairs
  split
  · rfl
  · obtain ⟨keyed, hk⟩ := Option.isSome_iff_exists.1 (keyPairs_isSome s pairs h)
    simp [hk]

theorem sortEntries_spec (s : State) :
    ∀ (entries sorted : List (Address × List UniswappyV2Pair)),
      sortEntries s entries = some sorted →
        List.Forall₂ (fun e e' => e'.1 = e.1 ∧ sortPairs s e.2 = some e'.2) entries sorted := by
  intro entries
  induction entries with
  | nil =>
    intro sorted h
    simp only [sortEntries, Option.some.injEq] at h
    subst h
    exact List.Forall₂.nil
  | cons e rest ih =>
    intro sorted h
    rw [sortEntries] at h
    cases hp : sortPairs s e.2 with
    | none => simp [hp] at h
    | some ps =>
      cases ht : sortEntries s rest with
      | none => simp [hp, ht] at h
      | some tail =>
        simp only [hp, ht, Option.some.injEq] at h
        subst h
        exact List.Forall₂.cons ⟨rfl, hp⟩ (ih tail ht)

theorem sortEntries_isSome (s : State) :
    ∀ (entries : List (Address × List UniswappyV2Pair)),
      (∀ e ∈ entries, ∀ p ∈ e.2, (nativeReserveOf s p).isSome = true) →
        (sortEntries s entries).isSome = true := by
  intro entries
  induction entries with
  | nil => intro _; simp [sortEntries]
  | cons e rest ih =>
    intro h
    have hp := sortPairs_isSome s e.2 (h e (List.mem_cons_self _ _))
    have hr := ih (fun e' he' => h e' (List.mem_cons_of_mem _ he'))
    obtain ⟨ps, hps⟩ := Option.isSome_iff_exists.1 hp
    obtain ⟨tail, ht⟩ := Option.isSome_iff_exists.1 hr
    rw [sortEntries]
    simp [hps, ht]

theorem nativeReserveOf_congr (s s' : State) (h : s'.allMarketReserves = s.allMarketReserves)
    (p : UniswappyV2Pair) : nativeReserveOf s' p = nativeReserveOf s p := by
  unfold nativeReserveOf reserveAt
  rw [h]

/-- C18: `sortMartkets` returns whenever the native-side reserve of every
registered pool can be read, and on return the reserves, the addresses and the
reverse index are untouched, the registry has the same tokens in the same order,
each token's list is a permutation of its list before the call, and at every
position `i` with `i + 1` inside the list the native-side reserve of the pool at
`i` is at least that of the pool at `i + 1`. -/
theorem sortMartkets_sorted (s : State) :
    ((∀ e ∈ s.marketPairsByToken, ∀ p ∈ e.2, (nativeReserveOf s p).isSome = true) →
        ∃ s', sortMartkets s = some s')
      ∧ ∀ s', sortMartkets s = some s' →
          s'.allMarketReserves = s.allMarketReserves
            ∧ s'.allMarketAddresses = s.allMarketAddresses
            ∧ s'.marketMapping = s.marketMapping
            ∧ List.Forall₂
                (fun e e' => e'.1 = e.1 ∧ e'.2.Perm e.2 ∧
                  ∀ (i : Nat) (a b : UniswappyV2Pair),
                    e'.2[i]? = some a → e'.2[i + 1]? = some b →
                      ∃ ka kb : Int, nativeReserveOf s' a = some ka
                        ∧ nativeReserveOf s' b = some kb ∧ ka ≥ kb)
                s.marketPairsByToken s'.marketPairsByToken := by
  refine ⟨?_, ?_⟩
  · intro h
    obtain ⟨entries, he⟩ := Option.isSome_iff_exists.1 (sortEntries_isSome s _ h)
    exact ⟨{ s with marketPairsByToken := entries }, by simp [sortMartkets, he]⟩
  · intro s' h
    unfold sortMartkets at h
    cases he : sortEntries s s.marketPairsByToken with
    | none => simp [he] at h
    | some entries =>
      simp only [he, Option.some.injEq] at h
      subst h
      refine ⟨rfl, rfl, rfl, ?_⟩
      refine (sortEntries_spec s _ entries he).imp ?_
      intro e e' hee
      obtain ⟨h1, h2⟩ := hee
      obtain ⟨hperm, hadj⟩ := sortPairs_spec s e.2 e'.2 h2
      exact ⟨h1, hperm, hadj⟩

/-- C18 at the example registry with its two pools listed in ascending order of
native reserve: the call returns, and the returned list is in descending order. -/
theorem sortMartkets_sorted_witness :
    (∃ s', sortMartkets unsortedState = some s')
      ∧ sortMartkets unsortedState = some exampleState
      ∧ List.Forall₂
          (fun e e' => e'.1 = e.1 ∧ e'.2.Perm e.2 ∧
            ∀ (i : Nat) (a b : UniswappyV2Pair),
              e'.2[i]? = some a → e'.2[i + 1]? = some b →
                ∃ ka kb : Int, nativeReserveOf exampleState a = some ka
                  ∧ nativeReserveOf exampleState b = some kb ∧ ka ≥ kb)
          unsortedState.marketPairsByToken exampleState.marketPairsByToken :=
  ⟨(sortMartkets_sorted unsortedState).1 (by decide), by decide,
   ((sortMartkets_sorted unsortedState).2 exampleState (by decide)).2.2.2⟩

/-! ## Discovery: filtering -/

theorem addressIndex_spec (a : Address) :
    ∀ (l : List Address) (i : Nat), addressIndex a l = some i → l[i]? = some a := by
  intro l
  induction l with
  | nil => intro i h; simp [addressIndex] at h
  | cons b rest ih =>
    intro i h
    rw [addressIndex] at h
    split at h
    · rename_i hab
      simp only [Option.some.injEq] at h
      subst h
      simp [hab]
    · cases hr : addressIndex a rest with
      | none => simp [hr] at h
      | some j =>
        simp only [hr, Option.map_some', Option.some.injEq] at h
        subst h
        simpa using ih j hr

theorem addressIndex_of_mem (a : Address) :
    ∀ (l : List Address), a ∈ l → ∃ i, addressIndex a l = some i := by
  intro l
  induction l with
  | nil => intro h; simp at h
  | cons b rest ih =>
    intro h
    rw [addressIndex]
    by_cases hab : a = b
    · exact ⟨0, by simp [hab]⟩
    · rcases List.mem_cons.1 h with h | h
      · exact absurd h hab
      · obtain ⟨j, hj⟩ := ih h
        exact ⟨j + 1, by simp [hab, hj]⟩

theorem assignReserveIndex_fields (addresses : List Address) (p : UniswappyV2Pair) :
    (assignReserveIndex addresses p).MarketAdress = p.MarketAdress
      ∧ (assignReserveIndex addresses p).NativeIndex = p.NativeIndex
      ∧ (assignReserveIndex addresses p).TokenIndex = p.TokenIndex := by
  unfold assignReserveIndex
  cases addressIndex p.MarketAdress addresses <;> exact ⟨rfl, rfl, rfl⟩

theorem assignReserveIndex_listed (addresses : List Address) (p : UniswappyV2Pair)
    (h : p.MarketAdress ∈ addresses) :
    addresses[(assignReserveIndex addresses p).TokenReserveIndex]? = some p.MarketAdress := by
  obtain ⟨i, hi⟩ := addressIndex_of_mem _ _ h
  have := addressIndex_spec _ _ _ hi
  unfold assignReserveIndex
  rw [hi]
  exact this

theorem addressesOf_cons (e : Address × List UniswappyV2Pair)
    (rest : List (Address × List UniswappyV2Pair)) :
    addressesOf (e :: rest) = e.2.map (fun pair => pair.MarketAdress) ++ addressesOf rest := by
  simp [addressesOf]

theorem addressesOf_assign (addresses : List Address) :
    ∀ (entries : List (Address × List UniswappyV2Pair)),
      addressesOf (assignReserveIndexes addresses entries) = addressesOf entries := by
  intro entries
  induction entries with
  | nil => rfl
  | cons e rest ih =>
    have h1 : assignReserveIndexes addresses (e :: rest)
        = (e.1, e.2.map (assignReserveIndex addresses)) :: assignReserveIndexes addresses rest :=
      rfl
    rw [h1, addressesOf_cons, addressesOf_cons, ih]
    congr 1
    rw [List.map_map]
    apply List.map_congr_left
    intro p _
    exact (assignReserveIndex_fields addresses p).1

theorem mem_addressesOf (a : Address) (entries : List (Address × List UniswappyV2Pair)) :
    a ∈ addressesOf entries ↔ ∃ e ∈ entries, ∃ p ∈ e.2, p.MarketAdress = a := by
  simp [addressesOf, List.mem_flatMap]

theorem passesLiquidityGate_true (cfg : Config) (s : State) (p : UniswappyV2Pair)
    (h : passesLiquidityGate cfg s p = some true) :
    ∃ m t : Int, reserveAt s p.TokenReserveIndex p.NativeIndex = some m
      ∧ reserveAt s p.TokenReserveIndex p.TokenIndex = some t
      ∧ m ≥ cfg.MIN_NATIVE_AMOUNT_WEI ∧ t ≥ 100 := by
  unfold passesLiquidityGate at h
  cases hm : reserveAt s p.TokenReserveIndex p.NativeIndex with
  | none => simp [hm] at h
  | some m =>
    cases ht : reserveAt s p.TokenReserveIndex p.TokenIndex with
    | none => simp [hm, ht] at h
    | some t =>
      simp only [hm, ht, Option.some.injEq, Bool.and_eq_true, decide_eq_true_eq] at h
      exact ⟨m, t, rfl, rfl, h.1, h.2⟩

theorem gatePairs_spec (cfg : Config) (s : State) :
    ∀ (pairs out : List UniswappyV2Pair), gatePairs cfg s pairs = some out →
      out = pairs.filter (fun p => decide (passesLiquidityGate cfg s p = some true)) := by
  intro pairs
  induction pairs with
  | nil =>
    intro out h
    simp only [gatePairs, Option.some.injEq] at h
    subst h
    rfl
  | cons p rest ih =>
    intro out h
    rw [gatePairs] at h
    cases hp : passesLiquidityGate cfg s p with
    | none => simp [hp] at h
    | some ok =>
      cases ht : gatePairs cfg s rest with
      | none => simp [hp, ht] at h
      | some tail =>
        simp only [hp, ht, Option.some.injEq] at h
        subst h
        have := ih tail ht
        cases ok <;> simp [List.filter_cons, hp, this]

theorem gatePairs_isSome (cfg : Config) (s : State) :
    ∀ (pairs : List UniswappyV2Pair),
      (∀ p ∈ pairs, (passesLiquidityGate cfg s p).isSome = true) →
        (gatePairs cfg s pairs).isSome = true := by
  intro pairs
  induction pairs with
  | nil => intro _; simp [gatePairs]
  | cons p rest ih =>
    intro h
    obtain ⟨ok, hok⟩ := Option.isSome_iff_exists.1 (h p (List.mem_cons_self _ _))
    obtain ⟨tail, ht⟩ := Option.isSome_iff_exists.1
      (ih (fun q hq => h q (List.mem_cons_of_mem _ hq)))
    rw [gatePairs]
    simp [hok, ht]

theorem gateEntries_spec (cfg : Config) (s : State) :
    ∀ (entries out : List (Address × List UniswappyV2Pair)),
      gateEntries cfg s entries = some out →
        out = entries.map (fun e =>
          (e.1, e.2.filter (fun p => decide (passesLiquidityGate cfg s p = some true)))) := by
  intro entries
  induction entries with
  | nil =>
    intro out h
    simp only [gateEntries, Option.some.injEq] at h
    subst h
    rfl
  | cons e rest ih =>
    intro out h
    rw [gateEntries] at h
    cases hp : gatePairs cfg s e.2 with
    | none => simp [hp] at h
    | some ps =>
      cases ht : gateEntries cfg s rest with
      | none => simp [hp, ht] at h
      | some tail =>
        simp only [hp, ht, Option.some.injEq] at h
        subst h
        rw [List.map_cons, ← ih tail ht, ← gatePairs_spec cfg s e.2 ps hp]

theorem gateEntries_isSome (cfg : Config) (s : State) :
    ∀ (entries : List (Address × List UniswappyV2Pair)),
      (∀ e ∈ entries, ∀ p ∈ e.2, (passesLiquidityGate cfg s p).isSome = true) →
        (gateEntries cfg s entries).isSome = true := by
  intro entries
  induction entries with
  | nil => intro _; simp [gateEntries]
  | cons e rest ih =>
    intro h
    obtain ⟨ps, hps⟩ := Option.isSome_iff_exists.1
      (gatePairs_isSome cfg s e.2 (h e (List.mem_cons_self _ _)))
    obtain ⟨tail, ht⟩ := Option.isSome_iff_exists.1
      (ih (fun e' he' => h e' (List.mem_cons_of_mem _ he')))
    rw [gateEntries]
    simp [hps, ht]

/-- The registry `filterMarkets` keeps, before the last index assignment: the
entries of `s`, indexed against the address list of `s`, reduced to the pools that
pass the liquidity test, then to the tokens with more than one pool, then to the
healthy tokens. -/
theorem filterMarkets_eq (cfg : Config) (tokenIsHealthy : Address → UniswappyV2Pair → Bool)
    (rows : List ReserveRow) (s s' : State)
    (h : filterMarkets cfg tokenIsHealthy rows s = some s') :
    ∃ kept : List (Address × List UniswappyV2Pair),
      kept = (((assignReserveIndexes s.allMarketAddresses s.marketPairsByToken).map (fun e =>
          (e.1, e.2.filter (fun p => decide (passesLiquidityGate cfg s p = some true))))).filter
            (fun entry => decide (entry.2.length > 1))).filter (healthyEntry tokenIsHealthy)
      ∧ s'.allMarketAddresses = addressesOf kept
      ∧ s'.allMarketReserves = rows
      ∧ s'.marketPairsByToken = assignReserveIndexes (addressesOf kept) kept
      ∧ s'.marketMapping = s.marketMapping := by
  unfold filterMarkets at h
  dsimp only at h
  cases hg : gateEntries cfg s (assignReserveIndexes s.allMarketAddresses s.marketPairsByToken) with
  | none => simp [hg] at h
  | some wma =>
    simp only [hg, Option.some.injEq] at h
    subst h
    have := gateEntries_spec cfg s _ wma hg
    subst this
    exact ⟨_, rfl, rfl, rfl, rfl, rfl⟩

theorem filterMarkets_isSome (cfg : Config) (tokenIsHealthy : Address → UniswappyV2Pair → Bool)
    (rows : List ReserveRow) (s : State)
    (h : ∀ e ∈ s.marketPairsByToken, ∀ p ∈ e.2,
      (passesLiquidityGate cfg s (assignReserveIndex s.allMarketAddresses p)).isSome = true) :
    ∃ s', filterMarkets cfg tokenIsHealthy rows s = some s' := by
  have hg : (gateEntries cfg s
      (assignReserveIndexes s.allMarketAddresses s.marketPairsByToken)).isSome = true := by
    apply gateEntries_isSome
    intro e he p hp
    unfold assignReserveIndexes at he
    obtain ⟨e0, he0, rfl⟩ := List.mem_map.1 he
    obtain ⟨p0, hp0, rfl⟩ := List.mem_map.1 hp
    exact h e0 he0 p0 hp0
  obtain ⟨wma, hw⟩ := Option.isSome_iff_exists.1 hg
  unfold filterMarkets
  simp [hw]

/-- C20: `filterMarkets` returns whenever both reserves of every registered pool
can be read at the index the first loop assigns, and on return: the reserve
vector is the fresh answer `rows`; `allMarketAddresses` lists exactly the
addresses of the pools in the registry; and every token in the registry has at
least 2 pools, each of them a pool `p` of that token before the call whose
native-side reserve was at least `MIN_NATIVE_AMOUNT_WEI` and whose quote-side
reserve was at least 100 in the reserves of the state before the call, and the
health check accepted the token on the first of its pools. -/
theorem filterMarkets_gated (cfg : Config) (tokenIsHealthy : Address → UniswappyV2Pair → Bool)
    (rows : List ReserveRow) (s : State) :
    ((∀ e ∈ s.marketPairsByToken, ∀ p ∈ e.2,
        (passesLiquidityGate cfg s (assignReserveIndex s.allMarketAddresses p)).isSome = true) →
        ∃ s', filterMarkets cfg tokenIsHealthy rows s = some s')
      ∧ ∀ s', filterMarkets cfg tokenIsHealthy rows s = some s' →
          s'.allMarketReserves = rows
            ∧ s'.allMarketAddresses.Perm (addressesOf s'.marketPairsByToken)
            ∧ ∀ e' ∈ s'.marketPairsByToken,
                2 ≤ e'.2.length
                  ∧ (∃ e ∈ s.marketPairsByToken, e.1 = e'.1 ∧ ∀ p' ∈ e'.2, ∃ p ∈ e.2,
                      p' = assignReserveIndex s'.allMarketAddresses
                            (assignReserveIndex s.allMarketAddresses p)
                        ∧ ∃ m t : Int,
                            reserveAt s (assignReserveIndex s.allMarketAddresses p).TokenReserveIndex
                                p.NativeIndex = some m
                              ∧ reserveAt s
                                  (assignReserveIndex s.allMarketAddresses p).TokenReserveIndex
                                  p.TokenIndex = some t
                              ∧ m ≥ cfg.MIN_NATIVE_AMOUNT_WEI ∧ t ≥ 100)
                  ∧ ∃ (p0 : UniswappyV2Pair) (rest0 : List UniswappyV2Pair),
                      e'.2 = (p0 :: rest0).map (assignReserveIndex s'.allMarketAddresses)
                        ∧ tokenIsHealthy e'.1 p0 = true := by
  refine ⟨filterMarkets_isSome cfg tokenIsHealthy rows s, ?_⟩
  intro s' h
  obtain ⟨kept, hkept, hA, hR, hP, _⟩ := filterMarkets_eq cfg tokenIsHealthy rows s s' h
  refine ⟨hR, ?_, ?_⟩
  · rw [hP, addressesOf_assign, hA]
  · intro e' he'
    rw [hP] at he'
    unfold assignReserveIndexes at he'
    obtain ⟨k, hk, rfl⟩ := List.mem_map.1 he'
    rw [hkept] at hk
    obtain ⟨hk2, hhealthy⟩ := List.mem_filter.1 hk
    obtain ⟨hk3, hlen⟩ := List.mem_filter.1 hk2
    obtain ⟨ei, hei, rfl⟩ := List.mem_map.1 hk3
    unfold assignReserveIndexes at hei
    obtain ⟨e, he, rfl⟩ := List.mem_map.1 hei
    dsimp only at hlen hhealthy ⊢
    refine ⟨?_, ⟨e, he, rfl, ?_⟩, ?_⟩
    · rw [List.length_map]
      have := of_decide_eq_true hlen
      omega
    · intro p' hp'
      obtain ⟨ph, hph, rfl⟩ := List.mem_map.1 hp'
      obtain ⟨hph2, hgate⟩ := List.mem_filter.1 hph
      obtain ⟨p, hp, rfl⟩ := List.mem_map.1 hph2
      refine ⟨p, hp, by rw [hA], ?_⟩
      obtain ⟨m, t, hm, ht, h1, h2⟩ :=
        passesLiquidityGate_true cfg s _ (of_decide_eq_true hgate)
      obtain ⟨_, hn, hti⟩ := assignReserveIndex_fields s.allMarketAddresses p
      rw [hn] at hm
      rw [hti] at ht
      exact ⟨m, t, hm, ht, h1, h2⟩
    · unfold healthyEntry at hhealthy
      dsimp only at hhealthy
      split at hhealthy
      · exact absurd hhealthy (by simp)
      · rename_i p0 rest0 heq
        refine ⟨p0, rest0, ?_, hhealthy⟩
        rw [hA, heq]

/-- C20 at the raw example registry with every token healthy: the call returns
the registry of pools `1` and `2` alone, the under-funded pool `3` and the
single-pool token `8` being dropped from the registry and from the address list. -/
theorem filterMarkets_gated_witness :
    (∃ s', filterMarkets exampleConfig (fun _ _ => true)
        [⟨1000, 2000, 1⟩, ⟨2000, 1000, 1⟩] rawState = some s')
      ∧ filteredState.allMarketReserves = [⟨1000, 2000, 1⟩, ⟨2000, 1000, 1⟩]
      ∧ filteredState.allMarketAddresses.Perm (addressesOf filteredState.marketPairsByToken)
      ∧ ∀ e' ∈ filteredState.marketPairsByToken, 2 ≤ e'.2.length :=
  ⟨(filterMarkets_gated exampleConfig (fun _ _ => true)
      [⟨1000, 2000, 1⟩, ⟨2000, 1000, 1⟩] rawState).1 (by decide),
   ((filterMarkets_gated exampleConfig (fun _ _ => true)
      [⟨1000, 2000, 1⟩, ⟨2000, 1000, 1⟩] rawState).2 filteredState (by decide)).1,
   ((filterMarkets_gated exampleConfig (fun _ _ => true)
      [⟨1000, 2000, 1⟩, ⟨2000, 1000, 1⟩] rawState).2 filteredState (by decide)).2.1,
   fun e' he' => (((filterMarkets_gated exampleConfig (fun _ _ => true)
      [⟨1000, 2000, 1⟩, ⟨2000, 1000, 1⟩] rawState).2 filteredState (by decide)).2.2 e' he').1⟩

/-! ## The registry index invariant -/

theorem mapPairs_lookup_of_not_mem (token : Address) (a : Address) :
    ∀ (pairs : List UniswappyV2Pair) (count : Nat) (m : List (Address × MarketMapping)),
      a ∉ pairs.map (fun pair => pair.MarketAdress) →
        (mapPairs token pairs count m).lookup a = m.lookup a := by
  intro pairs
  induction pairs with
  | nil => intro count m _; rfl
  | cons p rest ih =>
    intro count m h
    rw [mapPairs]
    have h1 : a ≠ p.MarketAdress := fun hc => h (by simp [hc])
    have h2 : a ∉ rest.map (fun pair => pair.MarketAdress) := fun hc => h (by simp at hc ⊢; right; exact hc)
    rw [ih (count + 1) _ h2]
    have h3 : (a == p.MarketAdress) = false := by simpa using h1
    simp [List.lookup, h3]

theorem mapPairs_lookup (token : Address) :
    ∀ (pairs : List UniswappyV2Pair) (count : Nat) (m : List (Address × MarketMapping))
      (i : Nat) (p : UniswappyV2Pair),
      (pairs.map (fun pair => pair.MarketAdress)).Nodup → pairs[i]? = some p →
        (mapPairs token pairs count m).lookup p.MarketAdress = some ⟨token, count + i⟩ := by
  intro pairs
  induction pairs with
  | nil => intro count m i p _ h; simp at h
  | cons p0 rest ih =>
    intro count m i p hnd h
    rw [List.map_cons, List.nodup_cons] at hnd
    rw [mapPairs]
    cases i with
    | zero =>
      simp only [List.getElem?_cons_zero, Option.some.injEq] at h
      subst h
      rw [mapPairs_lookup_of_not_mem token _ rest (count + 1) _ hnd.1]
      simp [List.lookup]
    | succ j =>
      simp only [List.getElem?_cons_succ] at h
      rw [ih (count + 1) _ j p hnd.2 h]
      congr 2
      omega

theorem mapEntries_lookup_of_not_mem (a : Address) :
    ∀ (entries : List (Address × List UniswappyV2Pair)) (m : List (Address × MarketMapping)),
      a ∉ addressesOf entries → (mapEntries entries m).lookup a = m.lookup a := by
  intro entries
  induction entries with
  | nil => intro m _; rfl
  | cons e rest ih =>
    intro m h
    rw [addressesOf_cons, List.mem_append, not_or] at h
    rw [mapEntries, ih _ h.2, mapPairs_lookup_of_not_mem _ _ _ _ _ h.1]

theorem mapEntries_lookup :
    ∀ (entries : List (Address × List UniswappyV2Pair)) (m : List (Address × MarketMapping)),
      (addressesOf entries).Nodup →
        ∀ e ∈ entries, ∀ (i : Nat) (p : UniswappyV2Pair), e.2[i]? = some p →
          (mapEntries entries m).lookup p.MarketAdress = some ⟨e.1, i⟩ := by
  intro entries
  induction entries with
  | nil => intro m _ e he; simp at he
  | cons e0 rest ih =>
    intro m hnd e he i p hp
    rw [addressesOf_cons, List.nodup_append] at hnd
    obtain ⟨hnd1, hnd2, hdis⟩ := hnd
    rw [mapEntries]
    rcases List.mem_cons.1 he with he | he
    · subst he
      have hmem : p.MarketAdress ∈ e.2.map (fun pair => pair.MarketAdress) :=
        List.mem_map.2 ⟨p, List.getElem?_mem hp, rfl⟩
      have hnot : p.MarketAdress ∉ addressesOf rest := fun hc => hdis hmem hc
      rw [mapEntries_lookup_of_not_mem _ _ _ hnot, mapPairs_lookup e.1 e.2 0 m i p hnd1 hp]
      simp
    · exact ih _ hnd2 e he i p hp

theorem addressesOf_filter_sublist (f : Address × List UniswappyV2Pair → Bool) :
    ∀ (entries : List (Address × List UniswappyV2Pair)),
      (addressesOf (entries.filter f)).Sublist (addressesOf entries) := by
  intro entries
  induction entries with
  | nil => exact List.Sublist.refl _
  | cons e rest ih =>
    rw [List.filter_cons]
    split
    · rw [addressesOf_cons, addressesOf_cons]
      exact List.Sublist.append (List.Sublist.refl _) ih
    · rw [addressesOf_cons]
      exact ih.trans (List.sublist_append_right _ _)

theorem addressesOf_gate_sublist (f : UniswappyV2Pair → Bool) :
    ∀ (entries : List (Address × List UniswappyV2Pair)),
      (addressesOf (entries.map (fun e => (e.1, e.2.filter f)))).Sublist (addressesOf entries) := by
  intro entries
  induction entries with
  | nil => exact List.Sublist.refl _
  | cons e rest ih =>
    rw [List.map_cons, addressesOf_cons, addressesOf_cons]
    exact List.Sublist.append ((List.filter_sublist _).map _) ih

theorem addressesOf_sorted_perm (s : State) :
    ∀ (entries sorted : List (Address × List UniswappyV2Pair)),
      sortEntries s entries = some sorted → (addressesOf sorted).Perm (addressesOf entries) := by
  intro entries sorted h
  have h2 := sortEntries_spec s entries sorted h
  induction h2 with
  | nil => exact List.Perm.refl _
  | @cons e e' l l' hee _ ih =>
    rw [addressesOf_cons, addressesOf_cons]
    refine List.Perm.append ?_ ?_
    · exact ((sortPairs_spec s e.2 e'.2 hee.2).1).map _
    · cases hl : sortEntries s l with
      | none =>
        rw [sortEntries] at h
        simp [hl] at h
      | some tail =>
        rw [sortEntries] at h
        rw [hee.2, hl] at h
        simp only [Option.some.injEq, List.cons.injEq] at h
        have := h.2
        subst this
        exact ih hl

theorem sortEntries_mem (s : State) :
    ∀ (entries sorted : List (Address × List UniswappyV2Pair)),
      sortEntries s entries = some sorted →
        ∀ e' ∈ sorted, ∃ e ∈ entries, e'.1 = e.1 ∧ e'.2.Perm e.2 := by
  intro entries sorted h
  have h2 := sortEntries_spec s entries sorted h
  clear h
  induction h2 with
  | nil => intro e' he'; simp at he'
  | @cons e e' l l' hee _ ih =>
    intro x hx
    rcases List.mem_cons.1 hx with hx | hx
    · subst hx
      exact ⟨e, List.mem_cons_self _ _, hee.1, (sortPairs_spec s e.2 x.2 hee.2).1⟩
    · obtain ⟨y, hy, h1, h2⟩ := ih x hx
      exact ⟨y, List.mem_cons_of_mem _ hy, h1, h2⟩

theorem setPrices_registry (s : State) (q : Address) (c : Nat) (sell buy : Int) :
    (setPrices s q c sell buy).marketPairsByToken
      = mapFirst q (fun l => List.modify (priceSet sell buy) c l) s.marketPairsByToken := by
  unfold setPrices pairsOf
  dsimp only
  generalize s.marketPairsByToken = g
  induction g with
  | nil => rfl
  | cons e rest ih =>
    obtain ⟨t, ps⟩ := e
    by_cases hq : q = t
    · subst hq
      simp only [setPairsIn, mapFirst, List.lookup, beq_self_eq_true, if_true]
      rfl
    · have hb : (q == t) = false := by simpa using hq
      simp only [setPairsIn, mapFirst, List.lookup, hb, hq, if_false]
      rw [ih]

theorem setPrices_fields (s : State) (q : Address) (c : Nat) (sell buy : Int) :
    (setPrices s q c sell buy).allMarketAddresses = s.allMarketAddresses
      ∧ (setPrices s q c sell buy).allMarketReserves = s.allMarketReserves
      ∧ (setPrices s q c sell buy).marketMapping = s.marketMapping :=
  ⟨rfl, rfl, rfl⟩

theorem modify_priceSet_shape (sell buy : Int) (c : Nat) (l : List UniswappyV2Pair) :
    (List.modify (priceSet sell buy) c l).map erasePrices = l.map erasePrices := by
  apply List.ext_getElem?
  intro n
  rw [List.getElem?_map, List.getElem?_map, List.getElem?_modify]
  cases l[n]? with
  | none => rfl
  | some p =>
    by_cases h : c = n <;> simp [h, priceSet, erasePrices]

theorem mapFirst_shape (q : Address) (F : List UniswappyV2Pair → List UniswappyV2Pair)
    (hF : ∀ l, (F l).map erasePrices = l.map erasePrices) :
    ∀ g : List (Address × List UniswappyV2Pair),
      (mapFirst q F g).map (fun e => (e.1, e.2.map erasePrices))
        = g.map (fun e => (e.1, e.2.map erasePrices)) := by
  intro g
  induction g with
  | nil => rfl
  | cons e rest ih =>
    obtain ⟨t, ps⟩ := e
    by_cases hq : q = t
    · simp [mapFirst, hq, hF]
    · simp only [mapFirst, hq, if_false, List.map_cons, ih]

theorem setPrices_shape (s : State) (q : Address) (c : Nat) (sell buy : Int) :
    shapeOf (setPrices s q c sell buy) = shapeOf s := by
  unfold shapeOf
  rw [setPrices_registry]
  exact mapFirst_shape q _ (modify_priceSet_shape sell buy c) _

theorem setReserveAt_fields (s s' : State) (idx j : Nat) (v : Int)
    (h : setReserveAt s idx j v = some s') :
    s'.allMarketAddresses = s.allMarketAddresses
      ∧ s'.marketPairsByToken = s.marketPairsByToken
      ∧ s'.marketMapping = s.marketMapping := by
  unfold setReserveAt at h
  cases hr : s.allMarketReserves[idx]? with
  | none => simp [hr] at h
  | some row =>
    cases hs : row.set j v with
    | none => simp [hr, hs] at h
    | some row' =>
      simp only [hr, hs, Option.some.injEq] at h
      subst h
      exact ⟨rfl, rfl, rfl⟩

theorem repriceAt_eq (cfg : Config) (s s' : State) (q : Address) (c : Nat)
    (p : UniswappyV2Pair) (h : repriceAt cfg s q c p = some s') :
    ∃ native quote sell buy : Int,
      reserveAt s p.TokenReserveIndex p.NativeIndex = some native
        ∧ reserveAt s p.TokenReserveIndex p.TokenIndex = some quote
        ∧ GetAmountOut native quote cfg.BASE_WEI p.FeePerTenThousands = some sell
        ∧ GetAmountIn quote native cfg.BASE_WEI p.FeePerTenThousands = some buy
        ∧ s' = setPrices s q c sell buy := by
  unfold repriceAt at h
  cases hn : reserveAt s p.TokenReserveIndex p.NativeIndex with
  | none => simp [hn] at h
  | some native =>
    cases ht : reserveAt s p.TokenReserveIndex p.TokenIndex with
    | none => simp [hn, ht] at h
    | some quote =>
      simp only [hn, ht] at h
      cases hs : GetAmountOut native quote cfg.BASE_WEI p.FeePerTenThousands with
      | none => simp [hs] at h
      | some sell =>
        cases hb : GetAmountIn quote native cfg.BASE_WEI p.FeePerTenThousands with
        | none => simp [hs, hb] at h
        | some buy =>
          simp only [hs, hb, Option.some.injEq] at h
          exact ⟨native, quote, sell, buy, rfl, rfl, hs, hb, h.symm⟩

/-- What every reserve-mutating operation leaves alone: the address list, the
reverse index, and the registry up to cached prices. -/
theorem repriceAt_frame (cfg : Config) (s s' : State) (q : Address) (c : Nat)
    (p : UniswappyV2Pair) (h : repriceAt cfg s q c p = some s') :
    s'.allMarketAddresses = s.allMarketAddresses ∧ s'.marketMapping = s.marketMapping
      ∧ shapeOf s' = shapeOf s := by
  obtain ⟨_, _, sell, buy, _, _, _, _, rfl⟩ := repriceAt_eq cfg s s' q c p h
  exact ⟨rfl, rfl, setPrices_shape s q c sell buy⟩

theorem setReserveAt_frame (s s' : State) (idx j : Nat) (v : Int)
    (h : setReserveAt s idx j v = some s') :
    s'.allMarketAddresses = s.allMarketAddresses ∧ s'.marketMapping = s.marketMapping
      ∧ shapeOf s' = shapeOf s := by
  obtain ⟨h1, h2, h3⟩ := setReserveAt_fields s s' idx j v h
  exact ⟨h1, h3, by unfold shapeOf; rw [h2]⟩

theorem updateBuyLeg_frame (cfg : Config) (arb : Arb) (buy : UniswappyV2Pair) (isUndo : Bool)
    (s s' : State) (h : updateBuyLeg cfg arb buy isUndo s = some s') :
    s'.allMarketAddresses = s.allMarketAddresses ∧ s'.marketMapping = s.marketMapping
      ∧ shapeOf s' = shapeOf s := by
  unfold updateBuyLeg at h
  cases htok : tokenAddressOf buy with
  | none => simp [htok] at h
  | some token =>
    simp only [htok] at h
    cases hf : findMarket buy.MarketAdress (pairsOf s token) 0 with
    | none =>
      simp only [hf, Option.some.injEq] at h
      subst h
      exact ⟨rfl, rfl, rfl⟩
    | some found =>
      obtain ⟨count, pair⟩ := found
      simp only [hf] at h
      cases hn : reserveAt s buy.TokenReserveIndex buy.NativeIndex with
      | none => simp [hn] at h
      | some native =>
        simp only [hn] at h
        split at h
        · exact absurd h (by simp)
        · rename_i n _
          cases h1 : setReserveAt s buy.TokenReserveIndex buy.NativeIndex n with
          | none => simp [h1] at h
          | some s1 =>
            simp only [h1] at h
            cases hq : reserveAt s1 buy.TokenReserveIndex buy.TokenIndex with
            | none => simp [hq] at h
            | some quote =>
              simp only [hq] at h
              split at h
              · exact absurd h (by simp)
              · rename_i s2 h2
                split at h
                · exact absurd h (by simp)
                · rename_i s3 h3
                  obtain ⟨a1, a2, a3⟩ := setReserveAt_frame _ _ _ _ _ h1
                  obtain ⟨b1, b2, b3⟩ := setReserveAt_frame _ _ _ _ _ h2
                  obtain ⟨c1, c2, c3⟩ := setReserveAt_frame _ _ _ _ _ h3
                  obtain ⟨d1, d2, d3⟩ := repriceAt_frame _ _ _ _ _ _ h
                  exact ⟨by rw [d1, c1, b1, a1], by rw [d2, c2, b2, a2], by rw [d3, c3, b3, a3]⟩

theorem updateSellLeg_frame (cfg : Config) (arb : Arb) (sell : UniswappyV2Pair) (isUndo : Bool)
    (s s' : State) (h : updateSellLeg cfg arb sell isUndo s = some s') :
    s'.allMarketAddresses = s.allMarketAddresses ∧ s'.marketMapping = s.marketMapping
      ∧ shapeOf s' = shapeOf s := by
  unfold updateSellLeg at h
  cases htok : tokenAddressOf sell with
  | none => simp [htok] at h
  | some token =>
    simp only [htok] at h
    cases hf : findMarket sell.MarketAdress (pairsOf s token) 0 with
    | none =>
      simp only [hf, Option.some.injEq] at h
      subst h
      exact ⟨rfl, rfl, rfl⟩
    | some found =>
      obtain ⟨count, pair⟩ := found
      simp only [hf] at h
      cases hn : reserveAt s sell.TokenReserveIndex sell.NativeIndex with
      | none => simp [hn] at h
      | some native =>
        simp only [hn] at h
        split at h
        · exact absurd h (by simp)
        · rename_i s1 h1
          cases hq : reserveAt s1 sell.TokenReserveIndex sell.TokenIndex with
          | none => simp [hq] at h
          | some quote =>
            simp only [hq] at h
            split at h
            · exact absurd h (by simp)
            · rename_i qv _
              split at h
              · exact absurd h (by simp)
              · rename_i s2 h2
                split at h
                · exact absurd h (by simp)
                · rename_i s3 h3
                  obtain ⟨a1, a2, a3⟩ := setReserveAt_frame _ _ _ _ _ h1
                  obtain ⟨b1, b2, b3⟩ := setReserveAt_frame _ _ _ _ _ h2
                  obtain ⟨c1, c2, c3⟩ := setReserveAt_frame _ _ _ _ _ h3
                  obtain ⟨d1, d2, d3⟩ := repriceAt_frame _ _ _ _ _ _ h
                  exact ⟨by rw [d1, c1, b1, a1], by rw [d2, c2, b2, a2], by rw [d3, c3, b3, a3]⟩

theorem updateReserveByArb_frame (cfg : Config) (arb : Arb) (cm : CrossedMarket)
    (isUndo : Bool) (s s' : State) (h : updateReserveByArb cfg arb cm isUndo s = some s') :
    s'.allMarketAddresses = s.allMarketAddresses ∧ s'.marketMapping = s.marketMapping
      ∧ shapeOf s' = shapeOf s := by
  unfold updateReserveByArb at h
  cases h1 : updateBuyLeg cfg arb cm.2 isUndo s with
  | none => simp [h1] at h
  | some s1 =>
    simp only [h1] at h
    obtain ⟨a1, a2, a3⟩ := updateBuyLeg_frame _ _ _ _ _ _ h1
    obtain ⟨b1, b2, b3⟩ := updateSellLeg_frame _ _ _ _ _ _ h
    exact ⟨by rw [b1, a1], by rw [b2, a2], by rw [b3, a3]⟩

theorem updateReservesByEvent_frame (cfg : Config) (vLog : SyncLog) (s s' : State) (q : Address)
    (h : updateReservesByEvent cfg vLog s = some (q, s')) :
    s'.allMarketAddresses = s.allMarketAddresses ∧ s'.marketMapping = s.marketMapping
      ∧ shapeOf s' = shapeOf s := by
  unfold updateReservesByEvent at h
  dsimp only at h
  split at h
  · exact absurd h (by simp)
  · rename_i pair _
    split at h
    · exact absurd h (by simp)
    · rename_i s1 h1
      split at h
      · exact absurd h (by simp)
      · rename_i s2 h2
        split at h
        · exact absurd h (by simp)
        · rename_i s3 h3
          split at h
          · exact absurd h (by simp)
          · rename_i s4 h4
            simp only [Option.some.injEq, Prod.mk.injEq] at h
            obtain ⟨_, rfl⟩ := h
            obtain ⟨a1, a2, a3⟩ := setReserveAt_frame _ _ _ _ _ h1
            obtain ⟨b1, b2, b3⟩ := setReserveAt_frame _ _ _ _ _ h2
            obtain ⟨c1, c2, c3⟩ := setReserveAt_frame _ _ _ _ _ h3
            obtain ⟨d1, d2, d3⟩ := repriceAt_frame _ _ _ _ _ _ h4
            exact ⟨by rw [d1, c1, b1, a1], by rw [d2, c2, b2, a2], by rw [d3, c3, b3, a3]⟩

theorem IndexInvariant_of_frame (s s' : State)
    (h1 : s'.allMarketAddresses = s.allMarketAddresses)
    (h2 : s'.marketMapping = s.marketMapping) (h3 : shapeOf s' = shapeOf s)
    (h : IndexInvariant s) : IndexInvariant s' := by
  intro e' he' i p' hp'
  have hm : (e'.1, e'.2.map erasePrices) ∈ shapeOf s' :=
    List.mem_map.2 ⟨e', he', rfl⟩
  rw [h3] at hm
  obtain ⟨e, he, heq⟩ := List.mem_map.1 hm
  simp only [Prod.mk.injEq] at heq
  obtain ⟨hk, hl⟩ := heq
  have hpi : (e.2.map erasePrices)[i]? = some (erasePrices p') := by
    rw [hl, List.getElem?_map, hp']
    rfl
  rw [List.getElem?_map] at hpi
  cases hp : e.2[i]? with
  | none => simp [hp] at hpi
  | some p =>
    simp only [hp, Option.map_some', Option.some.injEq] at hpi
    have ha0 : (erasePrices p).MarketAdress = (erasePrices p').MarketAdress := by rw [hpi]
    have hi0 : (erasePrices p).TokenReserveIndex = (erasePrices p').TokenReserveIndex := by
      rw [hpi]
    have ha : p.MarketAdress = p'.MarketAdress := ha0
    have hi : p.TokenReserveIndex = p'.TokenReserveIndex := hi0
    obtain ⟨g1, g2, g3⟩ := h e he i p hp
    rw [h1, h2, ← ha, ← hi, ← hk]
    exact ⟨g1, g2, g3⟩

theorem discover_invariant (cfg : Config) (tokenIsHealthy : Address → UniswappyV2Pair → Bool)
    (rows : List ReserveRow) (s s' : State)
    (hnd : (addressesOf s.marketPairsByToken).Nodup)
    (h : discover cfg tokenIsHealthy rows s = some s') : IndexInvariant s' := by
  unfold discover at h
  cases hf : filterMarkets cfg tokenIsHealthy rows s with
  | none => simp [hf] at h
  | some s1 =>
    simp only [hf] at h
    cases hs : sortMartkets s1 with
    | none => simp [hs] at h
    | some s2 =>
      simp only [hs, Option.some.injEq] at h
      subst h
      obtain ⟨kept, hkept, hA, _, hP, _⟩ := filterMarkets_eq cfg tokenIsHealthy rows s s1 hf
      have hnd1 : (addressesOf s1.marketPairsByToken).Nodup := by
        rw [hP, addressesOf_assign, hkept]
        refine List.Nodup.sublist ?_ hnd
        refine (addressesOf_filter_sublist _ _).trans ?_
        refine (addressesOf_filter_sublist _ _).trans ?_
        refine (addressesOf_gate_sublist _ _).trans ?_
        rw [addressesOf_assign]
      unfold sortMartkets at hs
      cases he : sortEntries s1 s1.marketPairsByToken with
      | none => simp [he] at hs
      | some entries =>
        simp only [he, Option.some.injEq] at hs
        subst hs
        have hnd2 : (addressesOf entries).Nodup :=
          (addressesOf_sorted_perm s1 _ entries he).nodup_iff.2 hnd1
        intro e hmem i p hp
        have hmem' : e ∈ entries := hmem
        refine ⟨mapEntries_lookup entries s1.marketMapping hnd2 e hmem' i p hp, ?_⟩
        obtain ⟨e1, he1, _, hperm⟩ := sortEntries_mem s1 _ entries he e hmem'
        have hp1 : p ∈ e1.2 := hperm.subset (List.getElem?_mem hp)
        rw [hP] at he1
        unfold assignReserveIndexes at he1
        obtain ⟨k, hk, rfl⟩ := List.mem_map.1 he1
        obtain ⟨ph, hph, rfl⟩ := List.mem_map.1 hp1
        have hlisted : ph.MarketAdress ∈ addressesOf kept :=
          (mem_addressesOf _ _).2 ⟨k, hk, ph, hph, rfl⟩
        have hget := assignReserveIndex_listed (addressesOf kept) ph hlisted
        have hA' : (mapMarketAddresses
            { s1 with marketPairsByToken := entries }).allMarketAddresses = addressesOf kept := hA
        rw [hA', (assignReserveIndex_fields (addressesOf kept) ph).1]
        exact ⟨(List.getElem?_eq_some.1 hget).1, hget⟩

theorem ReserveRow.get_isSome_iff (row : ReserveRow) (j : Nat) :
    (row.get j).isSome = true ↔ j ≤ 2 := by
  rcases j with _ | _ | _ | n <;> simp [ReserveRow.get]

theorem discover_isSome (cfg : Config) (tokenIsHealthy : Address → UniswappyV2Pair → Bool)
    (rows : List ReserveRow) (s : State)
    (hgate : ∀ e ∈ s.marketPairsByToken, ∀ p ∈ e.2,
      (passesLiquidityGate cfg s (assignReserveIndex s.allMarketAddresses p)).isSome = true)
    (hrows : ∀ s1, filterMarkets cfg tokenIsHealthy rows s = some s1 →
      s1.allMarketAddresses.length ≤ rows.length) :
    ∃ s', discover cfg tokenIsHealthy rows s = some s' := by
  obtain ⟨s1, hf⟩ := filterMarkets_isSome cfg tokenIsHealthy rows s hgate
  obtain ⟨kept, hkept, hA, hR, hP, _⟩ := filterMarkets_eq cfg tokenIsHealthy rows s s1 hf
  have hlen := hrows s1 hf
  have hkeys : ∀ e ∈ s1.marketPairsByToken, ∀ p ∈ e.2, (nativeReserveOf s1 p).isSome = true := by
    intro e he p hp
    rw [hP] at he
    unfold assignReserveIndexes at he
    obtain ⟨k, hk, rfl⟩ := List.mem_map.1 he
    obtain ⟨ph, hph, rfl⟩ := List.mem_map.1 hp
    have hlisted : ph.MarketAdress ∈ addressesOf kept :=
      (mem_addressesOf _ _).2 ⟨k, hk, ph, hph, rfl⟩
    have hget := assignReserveIndex_listed (addressesOf kept) ph hlisted
    have hidx : (assignReserveIndex (addressesOf kept) ph).TokenReserveIndex < rows.length := by
      have := (List.getElem?_eq_some.1 hget).1
      rw [hA] at hlen
      omega
    -- the native index of a pool that passed the gate is a slot of a row
    have hnat : ph.NativeIndex ≤ 2 := by
      rw [hkept] at hk
      obtain ⟨hk2, _⟩ := List.mem_filter.1 hk
      obtain ⟨hk3, _⟩ := List.mem_filter.1 hk2
      obtain ⟨ei, _, rfl⟩ := List.mem_map.1 hk3
      obtain ⟨_, hg⟩ := List.mem_filter.1 hph
      obtain ⟨m, _, hm, _, _, _⟩ := passesLiquidityGate_true cfg s ph (of_decide_eq_true hg)
      unfold reserveAt at hm
      cases hrow : s.allMarketReserves[ph.TokenReserveIndex]? with
      | none => simp [hrow] at hm
      | some row =>
        simp only [hrow] at hm
        exact (ReserveRow.get_isSome_iff row _).1 (by simp [hm])
    unfold nativeReserveOf reserveAt
    rw [hR, List.getElem?_eq_getElem hidx]
    dsimp only
    rw [(assignReserveIndex_fields (addressesOf kept) ph).2.1]
    exact (ReserveRow.get_isSome_iff _ _).2 hnat
  obtain ⟨entries, he⟩ := Option.isSome_iff_exists.1 (sortEntries_isSome s1 _ hkeys)
  refine ⟨mapMarketAddresses { s1 with marketPairsByToken := entries }, ?_⟩
  unfold discover
  simp [hf, sortMartkets, he]

/-- C19: on a registry whose pool addresses are pairwise distinct, the discovery
sequence `filterMarkets; sortMartkets; mapMarketAddresses` returns whenever the
reserves of every pool can be read and the reserve query answers with a row per
listed address, and the state it returns satisfies the index invariant: for every
token `q` and position `i`, the reverse index sends the address of `pools[q][i]`
to `(q, i)`, its `TokenReserveIndex` is inside `allMarketAddresses`, and the
address listed there is its own.  The invariant is kept by `markReservesAsStale`,
by every event update that returns and by every `updateReserveByArb` that returns,
in either direction. -/
theorem registry_index_invariant (cfg : Config) :
    (∀ (tokenIsHealthy : Address → UniswappyV2Pair → Bool) (rows : List ReserveRow)
        (s : State), (addressesOf s.marketPairsByToken).Nodup →
        ((∀ e ∈ s.marketPairsByToken, ∀ p ∈ e.2,
            (passesLiquidityGate cfg s
              (assignReserveIndex s.allMarketAddresses p)).isSome = true) →
          (∀ s1, filterMarkets cfg tokenIsHealthy rows s = some s1 →
            s1.allMarketAddresses.length ≤ rows.length) →
          ∃ s', discover cfg tokenIsHealthy rows s = some s')
        ∧ ∀ s', discover cfg tokenIsHealthy rows s = some s' → IndexInvariant s')
      ∧ ∀ t : State, IndexInvariant t →
          IndexInvariant (markReservesAsStale t)
            ∧ (∀ (vLog : SyncLog) (q : Address) (t' : State),
                updateReservesByEvent cfg vLog t = some (q, t') → IndexInvariant t')
            ∧ ∀ (arb : Arb) (cm : CrossedMarket) (isUndo : Bool) (t' : State),
                updateReserveByArb cfg arb cm isUndo t = some t' → IndexInvariant t' := by
  refine ⟨?_, ?_⟩
  · intro tokenIsHealthy rows s hnd
    exact ⟨discover_isSome cfg tokenIsHealthy rows s,
      fun s' h => discover_invariant cfg tokenIsHealthy rows s s' hnd h⟩
  · intro t ht
    refine ⟨?_, ?_, ?_⟩
    · exact IndexInvariant_of_frame t _ rfl rfl rfl ht
    · intro vLog q t' h
      obtain ⟨h1, h2, h3⟩ := updateReservesByEvent_frame cfg vLog t t' q h
      exact IndexInvariant_of_frame t t' h1 h2 h3 ht
    · intro arb cm isUndo t' h
      obtain ⟨h1, h2, h3⟩ := updateReserveByArb_frame cfg arb cm isUndo t t' h
      exact IndexInvariant_of_frame t t' h1 h2 h3 ht

/-- C19 at the raw example registry: discovery returns `discoveredState`, which
satisfies the invariant, and so does the state after the example arb is applied
to it. -/
theorem registry_index_invariant_witness :
    (addressesOf rawState.marketPairsByToken).Nodup
      ∧ (∃ s', discover exampleConfig (fun _ _ => true)
          [⟨1000, 2000, 1⟩, ⟨2000, 1000, 1⟩] rawState = some s')
      ∧ IndexInvariant discoveredState
      ∧ IndexInvariant (markReservesAsStale discoveredState)
      ∧ ∀ t', updateReserveByArb exampleConfig exampleArb (examplePoolB, examplePoolA) false
          discoveredState = some t' → IndexInvariant t' :=
  ⟨by decide,
   ((registry_index_invariant exampleConfig).1 (fun _ _ => true)
      [⟨1000, 2000, 1⟩, ⟨2000, 1000, 1⟩] rawState (by decide)).1 (by decide)
      (fun s1 h1 => by
        have : s1 = filteredState := by
          have h2 : filterMarkets exampleConfig (fun _ _ => true)
              [⟨1000, 2000, 1⟩, ⟨2000, 1000, 1⟩] rawState = some filteredState := by decide
          rw [h2] at h1
          exact (Option.some.inj h1).symm
        subst this
        decide),
   ((registry_index_invariant exampleConfig).1 (fun _ _ => true)
      [⟨1000, 2000, 1⟩, ⟨2000, 1000, 1⟩] rawState (by decide)).2 discoveredState (by decide),
   ((registry_index_invariant exampleConfig).2 discoveredState
      (((registry_index_invariant exampleConfig).1 (fun _ _ => true)
        [⟨1000, 2000, 1⟩, ⟨2000, 1000, 1⟩] rawState (by decide)).2 discoveredState
          (by decide))).1,
   fun t' h => ((registry_index_invariant exampleConfig).2 discoveredState
      (((registry_index_invariant exampleConfig).1 (fun _ _ => true)
        [⟨1000, 2000, 1⟩, ⟨2000, 1000, 1⟩] rawState (by decide)).2 discoveredState
          (by decide))).2.2 exampleArb (examplePoolB, examplePoolA) false t' h⟩

/-! ## Apply and undo -/

theorem modify_eq_set_of_some {α : Type} (f : α → α) (l : List α) (i : Nat) (a : α)
    (h : l[i]? = some a) : List.modify f i l = l.set i (f a) := by
  apply List.ext_getElem?
  intro n
  rw [List.getElem?_modify, List.getElem?_set]
  by_cases hin : i = n
  · subst hin
    have hlt : i < l.length := (List.getElem?_eq_some.1 h).1
    simp [h, hlt]
  · simp [hin]

theorem row_threeWrites (row : ReserveRow) (jn jt : Nat) (cn ct : Int) (hn : jn ≤ 2)
    (ht : jt ≤ 2) :
    ∃ (native quote : Int) (row1 row2 : ReserveRow),
      row.get jn = some native ∧ row.set jn (native + cn) = some row1
        ∧ row1.get jt = some quote ∧ row1.set jt (quote + ct) = some row2
        ∧ row2.set 2 UPDATED_RESERVE = some (legShift jn jt cn ct row) := by
  rcases jn with _ | _ | _ | jn
  · rcases jt with _ | _ | _ | jt
    · exact ⟨_, _, _, _, rfl, rfl, rfl, rfl, by simp [ReserveRow.set, legShift, slotDelta]; ring⟩
    · exact ⟨_, _, _, _, rfl, rfl, rfl, rfl, by simp [ReserveRow.set, legShift, slotDelta]⟩
    · exact ⟨_, _, _, _, rfl, rfl, rfl, rfl, by simp [ReserveRow.set, legShift, slotDelta]⟩
    · omega
  · rcases jt with _ | _ | _ | jt
    · exact ⟨_, _, _, _, rfl, rfl, rfl, rfl, by simp [ReserveRow.set, legShift, slotDelta]⟩
    · exact ⟨_, _, _, _, rfl, rfl, rfl, rfl, by simp [ReserveRow.set, legShift, slotDelta]; ring⟩
    · exact ⟨_, _, _, _, rfl, rfl, rfl, rfl, by simp [ReserveRow.set, legShift, slotDelta]⟩
    · omega
  · rcases jt with _ | _ | _ | jt
    · exact ⟨_, _, _, _, rfl, rfl, rfl, rfl, by simp [ReserveRow.set, legShift, slotDelta]⟩
    · exact ⟨_, _, _, _, rfl, rfl, rfl, rfl, by simp [ReserveRow.set, legShift, slotDelta]⟩
    · exact ⟨_, _, _, _, rfl, rfl, rfl, rfl, by simp [ReserveRow.set, legShift, slotDelta]⟩
    · omega
  · omega

/-- The three writes of a leg of `updateReserveByArb` on a row that exists, with
slots inside the row: each read and write succeeds, and together they replace the
row by its `legShift`. -/
theorem threeWrites_eq (s : State) (idx jn jt : Nat) (cn ct : Int) (row : ReserveRow)
    (hrow : s.allMarketReserves[idx]? = some row) (hn : jn ≤ 2) (ht : jt ≤ 2) :
    ∃ (native quote : Int) (s1 s2 : State),
      reserveAt s idx jn = some native ∧ setReserveAt s idx jn (native + cn) = some s1
        ∧ reserveAt s1 idx jt = some quote ∧ setReserveAt s1 idx jt (quote + ct) = some s2
        ∧ setReserveAt s2 idx 2 UPDATED_RESERVE
            = some { s with allMarketReserves := (List.modify (legShift jn jt cn ct) idx
                s.allMarketReserves) } := by
  obtain ⟨native, quote, row1, row2, g1, g2, g3, g4, g5⟩ := row_threeWrites row jn jt cn ct hn ht
  have e1 := setReserveAt_eq s idx jn (native + cn) row row1 hrow g2
  have hrow1 : ({ s with allMarketReserves := s.allMarketReserves.set idx row1 } :
      State).allMarketReserves[idx]? = some row1 := getElem?_set_self_of_some _ _ _ _ hrow
  have e2 := setReserveAt_eq _ idx jt (quote + ct) row1 row2 hrow1 g4
  have hrow2 : ({ s with allMarketReserves := ((s.allMarketReserves.set idx row1).set idx
      row2) } : State).allMarketReserves[idx]? = some row2 :=
    getElem?_set_self_of_some _ _ _ _ hrow1
  have e3 := setReserveAt_eq _ idx 2 UPDATED_RESERVE row2 _ hrow2 g5
  refine ⟨native, quote, _, _, ?_, e1, ?_, e2, ?_⟩
  · unfold reserveAt
    rw [hrow]
    exact g1
  · unfold reserveAt
    rw [hrow1]
    exact g3
  · rw [e3, modify_eq_set_of_some _ _ _ _ hrow]
    simp [List.set_set]

theorem updateBuyLeg_eq (cfg : Config) (arb : Arb) (buy : UniswappyV2Pair) (isUndo : Bool)
    (s : State) (q : Address) (c : Nat) (p : UniswappyV2Pair) (row : ReserveRow) (D : Int)
    (htok : tokenAddressOf buy = some q)
    (hf : findMarket buy.MarketAdress (pairsOf s q) 0 = some (c, p))
    (hrow : s.allMarketReserves[buy.TokenReserveIndex]? = some row)
    (hn : buy.NativeIndex ≤ 2) (ht : buy.TokenIndex ≤ 2)
    (hD : nativeInDelta cfg arb buy q = some D) :
    updateBuyLeg cfg arb buy isUndo s
      = repriceAt cfg
          { s with allMarketReserves := (List.modify
              (legShift buy.NativeIndex buy.TokenIndex (if isUndo then -D else D)
                (if isUndo then arb.TokenAmount else -arb.TokenAmount))
              buy.TokenReserveIndex s.allMarketReserves) } q c p := by
  obtain ⟨native, quote, s1, s2, g1, g2, g3, g4, g5⟩ :=
    threeWrites_eq s buy.TokenReserveIndex buy.NativeIndex buy.TokenIndex
      (if isUndo then -D else D) (if isUndo then arb.TokenAmount else -arb.TokenAmount)
      row hrow hn ht
  unfold nativeInDelta at hD
  unfold updateBuyLeg
  simp only [htok, hf, g1]
  cases isUndo
  · simp only [Bool.false_eq_true, if_false] at g2 g4 g5 ⊢
    by_cases hH : cfg.hexIsHermesFactory buy.Factory = true
    · simp only [hH, if_true] at hD
      cases hd : hermesDeduction cfg q arb.NativeInAmount with
      | none => simp [hd] at hD
      | some d =>
        simp only [hd, Option.map_some', Option.some.injEq] at hD
        subst hD
        have a1 : native + arb.NativeInAmount - d = native + (arb.NativeInAmount - d) := by ring
        have a2 : quote - arb.TokenAmount = quote + -arb.TokenAmount := by ring
        simp only [hH, hd, Bool.not_false, if_true, Option.map_some', a1, g2, g3, a2, g4, g5]
    · have hH' : cfg.hexIsHermesFactory buy.Factory = false := by simpa using hH
      simp only [hH', Bool.false_eq_true, if_false, Option.some.injEq] at hD
      subst hD
      have a3 : quote - arb.TokenAmount = quote + -arb.TokenAmount := by ring
      simp only [hH', Bool.false_eq_true, Bool.not_false, if_true, if_false, g2, g3, a3, g4, g5]
  · simp only [if_true] at g2 g4 g5 ⊢
    by_cases hH : cfg.hexIsHermesFactory buy.Factory = true
    · simp only [hH, if_true] at hD
      cases hd : hermesDeduction cfg q arb.NativeInAmount with
      | none => simp [hd] at hD
      | some d =>
        simp only [hd, Option.map_some', Option.some.injEq] at hD
        subst hD
        have a1 : native + d - arb.NativeInAmount = native + -(arb.NativeInAmount - d) := by ring
        simp only [hH, hd, Bool.not_true, Bool.false_eq_true, if_true, if_false,
          Option.map_some', a1, g2, g3, g4, g5]
    · have hH' : cfg.hexIsHermesFactory buy.Factory = false := by simpa using hH
      simp only [hH', Bool.false_eq_true, if_false, Option.some.injEq] at hD
      subst hD
      have a1 : native - arb.NativeInAmount = native + -arb.NativeInAmount := by ring
      simp only [hH', Bool.not_true, Bool.false_eq_true, if_false, a1, g2, g3, g4, g5]

theorem reserveAt_inv (s : State) (idx j : Nat) (v : Int) (h : reserveAt s idx j = some v) :
    (∃ row, s.allMarketReserves[idx]? = some row) ∧ j ≤ 2 := by
  unfold reserveAt at h
  cases hrow : s.allMarketReserves[idx]? with
  | none => simp [hrow] at h
  | some row =>
    simp only [hrow] at h
    exact ⟨⟨row, rfl⟩, (ReserveRow.get_isSome_iff row j).1 (by simp [h])⟩

theorem updateBuyLeg_pre (cfg : Config) (arb : Arb) (buy : UniswappyV2Pair) (isUndo : Bool)
    (s s' : State) (q : Address) (c : Nat) (p : UniswappyV2Pair)
    (htok : tokenAddressOf buy = some q)
    (hf : findMarket buy.MarketAdress (pairsOf s q) 0 = some (c, p))
    (h : updateBuyLeg cfg arb buy isUndo s = some s') :
    (∃ row, s.allMarketReserves[buy.TokenReserveIndex]? = some row)
      ∧ buy.NativeIndex ≤ 2 ∧ buy.TokenIndex ≤ 2
      ∧ ∃ D, nativeInDelta cfg arb buy q = some D := by
  unfold updateBuyLeg at h
  simp only [htok, hf] at h
  cases hn : reserveAt s buy.TokenReserveIndex buy.NativeIndex with
  | none => simp [hn] at h
  | some native =>
    simp only [hn] at h
    obtain ⟨hrow, hjn⟩ := reserveAt_inv _ _ _ _ hn
    have hD : ∃ D, nativeInDelta cfg arb buy q = some D := by
      unfold nativeInDelta
      by_cases hH : cfg.hexIsHermesFactory buy.Factory = true
      · cases hd : hermesDeduction cfg q arb.NativeInAmount with
        | none => cases isUndo <;> simp [hH, hd] at h
        | some d => exact ⟨arb.NativeInAmount - d, by simp [hH]⟩
      · exact ⟨arb.NativeInAmount, by simp [hH]⟩
    refine ⟨hrow, hjn, ?_, hD⟩
    split at h
    · exact absurd h (by simp)
    · rename_i n _
      cases h1 : setReserveAt s buy.TokenReserveIndex buy.NativeIndex n with
      | none => simp [h1] at h
      | some s1 =>
        simp only [h1] at h
        cases hq : reserveAt s1 buy.TokenReserveIndex buy.TokenIndex with
        | none => simp [hq] at h
        | some quote => exact (reserveAt_inv _ _ _ _ hq).2

theorem updateSellLeg_eq (cfg : Config) (arb : Arb) (sell : UniswappyV2Pair) (isUndo : Bool)
    (s : State) (q : Address) (c : Nat) (p : UniswappyV2Pair) (row : ReserveRow) (D : Int)
    (htok : tokenAddressOf sell = some q)
    (hf : findMarket sell.MarketAdress (pairsOf s q) 0 = some (c, p))
    (hrow : s.allMarketReserves[sell.TokenReserveIndex]? = some row)
    (hn : sell.NativeIndex ≤ 2) (ht : sell.TokenIndex ≤ 2)
    (hD : tokenInDelta cfg arb sell q = some D) :
    updateSellLeg cfg arb sell isUndo s
      = repriceAt cfg
          { s with allMarketReserves := (List.modify
              (legShift sell.NativeIndex sell.TokenIndex
                (if isUndo then arb.NativeOutAmount else -arb.NativeOutAmount)
                (if isUndo then -D else D))
              sell.TokenReserveIndex s.allMarketReserves) } q c p := by
  obtain ⟨native, quote, s1, s2, g1, g2, g3, g4, g5⟩ :=
    threeWrites_eq s sell.TokenReserveIndex sell.NativeIndex sell.TokenIndex
      (if isUndo then arb.NativeOutAmount else -arb.NativeOutAmount) (if isUndo then -D else D)
      row hrow hn ht
  unfold tokenInDelta at hD
  unfold updateSellLeg
  simp only [htok, hf, g1]
  cases isUndo
  · simp only [Bool.false_eq_true, if_false] at g2 g4 g5 ⊢
    have a0 : native - arb.NativeOutAmount = native + -arb.NativeOutAmount := by ring
    by_cases hH : cfg.hexIsHermesFactory sell.Factory = true
    · simp only [hH, if_true] at hD
      cases hd : hermesDeduction cfg q arb.TokenAmount with
      | none => simp [hd] at hD
      | some d =>
        simp only [hd, Option.map_some', Option.some.injEq] at hD
        subst hD
        have a1 : quote + arb.TokenAmount - d = quote + (arb.TokenAmount - d) := by ring
        simp only [hH, hd, Bool.not_false, if_true, Option.map_some', a0, a1, g2, g3, g4, g5]
    · have hH' : cfg.hexIsHermesFactory sell.Factory = false := by simpa using hH
      simp only [hH', Bool.false_eq_true, if_false, Option.some.injEq] at hD
      subst hD
      simp only [hH', Bool.false_eq_true, Bool.not_false, if_true, if_false, a0, g2, g3, g4, g5]
  · simp only [if_true] at g2 g4 g5 ⊢
    by_cases hH : cfg.hexIsHermesFactory sell.Factory = true
    · simp only [hH, if_true] at hD
      cases hd : hermesDeduction cfg q arb.TokenAmount with
      | none => simp [hd] at hD
      | some d =>
        simp only [hd, Option.map_some', Option.some.injEq] at hD
        subst hD
        have a1 : quote + d - arb.TokenAmount = quote + -(arb.TokenAmount - d) := by ring
        simp only [hH, hd, Bool.not_true, Bool.false_eq_true, if_true, if_false,
          Option.map_some', a1, g2, g3, g4, g5]
    · have hH' : cfg.hexIsHermesFactory sell.Factory = false := by simpa using hH
      simp only [hH', Bool.false_eq_true, if_false, Option.some.injEq] at hD
      subst hD
      have a1 : quote - arb.TokenAmount = quote + -arb.TokenAmount := by ring
      simp only [hH', Bool.not_true, Bool.false_eq_true, if_false, a1, g2, g3, g4, g5]

theorem updateSellLeg_pre (cfg : Config) (arb : Arb) (sell : UniswappyV2Pair) (isUndo : Bool)
    (s s' : State) (q : Address) (c : Nat) (p : UniswappyV2Pair)
    (htok : tokenAddressOf sell = some q)
    (hf : findMarket sell.MarketAdress (pairsOf s q) 0 = some (c, p))
    (h : updateSellLeg cfg arb sell isUndo s = some s') :
    (∃ row, s.allMarketReserves[sell.TokenReserveIndex]? = some row)
      ∧ sell.NativeIndex ≤ 2 ∧ sell.TokenIndex ≤ 2
      ∧ ∃ D, tokenInDelta cfg arb sell q = some D := by
  unfold updateSellLeg at h
  simp only [htok, hf] at h
  cases hn : reserveAt s sell.TokenReserveIndex sell.NativeIndex with
  | none => simp [hn] at h
  | some native =>
    simp only [hn] at h
    obtain ⟨hrow, hjn⟩ := reserveAt_inv _ _ _ _ hn
    split at h
    · exact absurd h (by simp)
    · rename_i s1 h1
      cases hq : reserveAt s1 sell.TokenReserveIndex sell.TokenIndex with
      | none => simp [hq] at h
      | some quote =>
        simp only [hq] at h
        refine ⟨hrow, hjn, (reserveAt_inv _ _ _ _ hq).2, ?_⟩
        unfold tokenInDelta
        by_cases hH : cfg.hexIsHermesFactory sell.Factory = true
        · cases hd : hermesDeduction cfg q arb.TokenAmount with
          | none => cases isUndo <;> simp [hH, hd] at h
          | some d => exact ⟨arb.TokenAmount - d, by simp [hH]⟩
        · exact ⟨arb.TokenAmount, by simp [hH]⟩

theorem lookup_shape (q : Address) :
    ∀ g : List (Address × List UniswappyV2Pair),
      (g.map (fun e => (e.1, e.2.map erasePrices))).lookup q
        = (g.lookup q).map (List.map erasePrices) := by
  intro g
  induction g with
  | nil => rfl
  | cons e rest ih =>
    obtain ⟨t, ps⟩ := e
    by_cases hq : q = t
    · subst hq
      simp [List.lookup]
    · have hb : (q == t) = false := by simpa using hq
      simp only [List.map_cons, List.lookup, hb]
      exact ih

theorem pairsOf_shape (s s' : State) (q : Address) (h : shapeOf s' = shapeOf s) :
    (pairsOf s' q).map erasePrices = (pairsOf s q).map erasePrices := by
  have h1 := lookup_shape q s'.marketPairsByToken
  have h2 := lookup_shape q s.marketPairsByToken
  unfold shapeOf at h
  rw [h, h2] at h1
  unfold pairsOf
  cases ha : s.marketPairsByToken.lookup q with
  | none =>
    cases hb : s'.marketPairsByToken.lookup q with
    | none => rfl
    | some l => simp [ha, hb] at h1
  | some l0 =>
    cases hb : s'.marketPairsByToken.lookup q with
    | none => simp [ha, hb] at h1
    | some l =>
      simp only [ha, hb, Option.map_some', Option.some.injEq] at h1
      exact h1.symm

theorem findMarket_shape (a : Address) :
    ∀ (l l' : List UniswappyV2Pair) (n c : Nat) (p : UniswappyV2Pair),
      l'.map erasePrices = l.map erasePrices → findMarket a l n = some (c, p) →
        ∃ p', findMarket a l' n = some (c, p') ∧ erasePrices p' = erasePrices p := by
  intro l
  induction l with
  | nil => intro l' n c p _ h; simp [findMarket] at h
  | cons x rest ih =>
    intro l' n c p hl h
    cases l' with
    | nil => simp at hl
    | cons y rest' =>
      simp only [List.map_cons, List.cons.injEq] at hl
      obtain ⟨hxy, hrest⟩ := hl
      have ha : (erasePrices y).MarketAdress = (erasePrices x).MarketAdress := by rw [hxy]
      have ha' : y.MarketAdress = x.MarketAdress := ha
      rw [findMarket] at h ⊢
      rw [ha']
      by_cases hx : x.MarketAdress = a
      · simp only [hx, if_true, Option.some.injEq, Prod.mk.injEq] at h ⊢
        obtain ⟨h1, h2⟩ := h
        subst h2
        exact ⟨y, ⟨h1, rfl⟩, hxy⟩
      · simp only [hx, if_false] at h ⊢
        exact ih rest' (n + 1) c p hrest h

theorem erasePrices_fields (p p' : UniswappyV2Pair) (h : erasePrices p' = erasePrices p) :
    p'.TokenReserveIndex = p.TokenReserveIndex ∧ p'.NativeIndex = p.NativeIndex
      ∧ p'.TokenIndex = p.TokenIndex ∧ p'.FeePerTenThousands = p.FeePerTenThousands := by
  have h1 : (erasePrices p').TokenReserveIndex = (erasePrices p).TokenReserveIndex := by rw [h]
  have h2 : (erasePrices p').NativeIndex = (erasePrices p).NativeIndex := by rw [h]
  have h3 : (erasePrices p').TokenIndex = (erasePrices p).TokenIndex := by rw [h]
  have h4 : (erasePrices p').FeePerTenThousands = (erasePrices p).FeePerTenThousands := by
    rw [h]
  exact ⟨h1, h2, h3, h4⟩

theorem repriceAt_congr (cfg : Config) (s : State) (q : Address) (c : Nat)
    (p p' : UniswappyV2Pair) (h : erasePrices p' = erasePrices p) :
    repriceAt cfg s q c p' = repriceAt cfg s q c p := by
  obtain ⟨h1, h2, h3, h4⟩ := erasePrices_fields p p' h
  unfold repriceAt
  rw [h1, h2, h3, h4]

theorem setPrices_eq (s : State) (q : Address) (c : Nat) (sell buy : Int) :
    setPrices s q c sell buy
      = { s with marketPairsByToken :=
            (mapFirst q (fun l => List.modify (priceSet sell buy) c l) s.marketPairsByToken) } := by
  have h := setPrices_registry s q c sell buy
  have h2 := setPrices_fields s q c sell buy
  generalize setPrices s q c sell buy = t at h h2
  obtain ⟨a, b, g, m⟩ := t
  simp only at h h2
  obtain ⟨h3, h4, h5⟩ := h2
  subst h h3 h4 h5
  rfl

theorem mapFirst_comp (q : Address) (F G : List UniswappyV2Pair → List UniswappyV2Pair) :
    ∀ g : List (Address × List UniswappyV2Pair),
      mapFirst q F (mapFirst q G g) = mapFirst q (fun l => F (G l)) g := by
  intro g
  induction g with
  | nil => rfl
  | cons e rest ih =>
    obtain ⟨t, ps⟩ := e
    by_cases hq : q = t
    · simp [mapFirst, hq]
    · simp only [mapFirst, hq, if_false, ih]

theorem mapFirst_comm (q q' : Address) (hne : q ≠ q')
    (F G : List UniswappyV2Pair → List UniswappyV2Pair) :
    ∀ g : List (Address × List UniswappyV2Pair),
      mapFirst q F (mapFirst q' G g) = mapFirst q' G (mapFirst q F g) := by
  intro g
  induction g with
  | nil => rfl
  | cons e rest ih =>
    obtain ⟨t, ps⟩ := e
    by_cases hq : q = t
    · have hq' : ¬ q' = t := fun hc => hne (hq.trans hc.symm)
      simp [mapFirst, hq, hq']
    · by_cases hq' : q' = t
      · simp [mapFirst, hq, hq']
      · simp only [mapFirst, hq, hq', if_false, ih]

theorem modify_priceSet_absorb (c c' : Nat) (a b a' b' x y x' y' : Int)
    (l : List UniswappyV2Pair) :
    List.modify (priceSet x' y') c' (List.modify (priceSet x y) c
        (List.modify (priceSet a' b') c' (List.modify (priceSet a b) c l)))
      = List.modify (priceSet x' y') c' (List.modify (priceSet x y) c l) := by
  apply List.ext_getElem?
  intro n
  simp only [List.getElem?_modify]
  cases l[n]? with
  | none => rfl
  | some p =>
    by_cases h1 : c = n <;> by_cases h2 : c' = n <;> simp [h1, h2, priceSet]

theorem modify_priceSet_twice (c : Nat) (a b x y : Int) (l : List UniswappyV2Pair) :
    List.modify (priceSet x y) c (List.modify (priceSet a b) c l)
      = List.modify (priceSet x y) c l := by
  apply List.ext_getElem?
  intro n
  simp only [List.getElem?_modify]
  cases l[n]? with
  | none => rfl
  | some p =>
    by_cases h1 : c = n <;> simp [h1, priceSet]

/-- Four price writes at two positions of the registry leave what the last two
leave. -/
theorem mapFirst_priceSet_absorb (q q' : Address) (c c' : Nat) (a b a' b' x y x' y' : Int)
    (g : List (Address × List UniswappyV2Pair)) :
    mapFirst q' (fun l => List.modify (priceSet x' y') c' l)
        (mapFirst q (fun l => List.modify (priceSet x y) c l)
          (mapFirst q' (fun l => List.modify (priceSet a' b') c' l)
            (mapFirst q (fun l => List.modify (priceSet a b) c l) g)))
      = mapFirst q' (fun l => List.modify (priceSet x' y') c' l)
          (mapFirst q (fun l => List.modify (priceSet x y) c l) g) := by
  by_cases hq : q = q'
  · subst hq
    simp only [mapFirst_comp]
    congr 1
    funext l
    exact modify_priceSet_absorb c c' a b a' b' x y x' y' l
  · rw [mapFirst_comm q q' hq _ _ (mapFirst q _ g), mapFirst_comp q, mapFirst_comp q']
    congr 1
    · funext l
      exact modify_priceSet_twice c' a' b' x' y' l
    · congr 1
      funext l
      exact modify_priceSet_twice c a b x y l

theorem slotDelta_neg (j k : Nat) (c : Int) : slotDelta j k (-c) = -slotDelta j k c := by
  unfold slotDelta
  split <;> simp

theorem legShift_cancel (jn jt : Nat) (cn ct : Int) (row : ReserveRow) :
    legShift jn jt (-cn) (-ct) (legShift jn jt cn ct row)
      = { row with flag := UPDATED_RESERVE } := by
  unfold legShift
  simp only [slotDelta_neg]
  congr 1 <;> ring

theorem legShift_cancel_cross (jn jt jn' jt' : Nat) (cn ct cn' ct' : Int) (row : ReserveRow) :
    legShift jn' jt' (-cn') (-ct') (legShift jn jt (-cn) (-ct)
        (legShift jn' jt' cn' ct' (legShift jn jt cn ct row)))
      = { row with flag := UPDATED_RESERVE } := by
  unfold legShift
  simp only [slotDelta_neg]
  congr 1 <;> ring

/-- The rows after the four legs of apply-then-undo: every row has its two
reserves back, and the rows of the two pools carry `UPDATED_RESERVE`. -/
theorem rows_apply_undo (ib is_ : Nat) (jn jt jn' jt' : Nat) (cn ct cn' ct' : Int)
    (rows : List ReserveRow) :
    List.modify (legShift jn' jt' (-cn') (-ct')) is_
        (List.modify (legShift jn jt (-cn) (-ct)) ib
          (List.modify (legShift jn' jt' cn' ct') is_
            (List.modify (legShift jn jt cn ct) ib rows)))
      = List.modify (fun row => { row with flag := UPDATED_RESERVE }) is_
          (List.modify (fun row => { row with flag := UPDATED_RESERVE }) ib rows) := by
  apply List.ext_getElem?
  intro n
  simp only [List.getElem?_modify]
  cases rows[n]? with
  | none => rfl
  | some row =>
    by_cases h1 : ib = n <;> by_cases h2 : is_ = n <;>
      simp [h1, h2, legShift_cancel, legShift_cancel_cross]

theorem rows_apply_undo_legs (ib is_ : Nat) (jn jt jn' jt' : Nat) (D T O D' : Int)
    (rows : List ReserveRow) :
    List.modify (legShift jn' jt' O (-D')) is_
        (List.modify (legShift jn jt (-D) T) ib
          (List.modify (legShift jn' jt' (-O) D') is_
            (List.modify (legShift jn jt D (-T)) ib rows)))
      = List.modify (fun row => { row with flag := UPDATED_RESERVE }) is_
          (List.modify (fun row => { row with flag := UPDATED_RESERVE }) ib rows) := by
  have h := rows_apply_undo ib is_ jn jt jn' jt' D (-T) (-O) D' rows
  simp only [neg_neg] at h
  exact h

theorem reserveAt_congr_row (s s' : State) (idx j : Nat)
    (h : s'.allMarketReserves[idx]? = s.allMarketReserves[idx]?) :
    reserveAt s' idx j = reserveAt s idx j := by
  unfold reserveAt
  rw [h]

/-- A price refresh that succeeds on `s` succeeds with the same prices on any
state that holds the same reserve row for the pool. -/
theorem repriceAt_transfer (cfg : Config) (s s' t : State) (q : Address) (c : Nat)
    (p : UniswappyV2Pair) (h : repriceAt cfg s q c p = some t)
    (hrow : s'.allMarketReserves[p.TokenReserveIndex]? = s.allMarketReserves[p.TokenReserveIndex]?) :
    ∃ sell buy : Int, t = setPrices s q c sell buy
      ∧ repriceAt cfg s' q c p = some (setPrices s' q c sell buy) := by
  obtain ⟨native, quote, sell, buy, g1, g2, g3, g4, g5⟩ := repriceAt_eq cfg s t q c p h
  refine ⟨sell, buy, g5, ?_⟩
  unfold repriceAt
  rw [reserveAt_congr_row s s' _ _ hrow, reserveAt_congr_row s s' _ _ hrow, g1, g2]
  simp only [g3, g4]

theorem getElem?_modify_isSome {α : Type} (f : α → α) (n i : Nat) (l : List α) (a : α)
    (h : l[i]? = some a) : ∃ b, (List.modify f n l)[i]? = some b := by
  have hlt : i < l.length := (List.getElem?_eq_some.1 h).1
  have : i < (List.modify f n l).length := by rw [List.length_modify]; exact hlt
  exact ⟨_, List.getElem?_eq_getElem this⟩

theorem getElem?_modify_ne {α : Type} (f : α → α) (n i : Nat) (l : List α) (h : n ≠ i) :
    (List.modify f n l)[i]? = l[i]? := by
  rw [List.getElem?_modify]
  cases l[i]? <;> simp [h]

/-- Undo after apply, in full: when the forward call has returned `s1` and the two
pools can be priced on the reserves of `s` with the rows of both pools marked
fresh, the undo call on `s1` returns, and the state it returns is `s` with those
two rows marked fresh and the two pools priced from them. -/
theorem undo_after_apply (cfg : Config) (arb : Arb) (cm : CrossedMarket) (s s1 sA sB : State)
    (qb qs : Address) (cb cs : Nat) (pb ps : UniswappyV2Pair)
    (hb : tokenAddressOf cm.2 = some qb) (hs : tokenAddressOf cm.1 = some qs)
    (hfb : findMarket cm.2.MarketAdress (pairsOf s qb) 0 = some (cb, pb))
    (hfs : findMarket cm.1.MarketAdress (pairsOf s qs) 0 = some (cs, ps))
    (hrow : pb.TokenReserveIndex ≠ cm.1.TokenReserveIndex)
    (h1 : updateReserveByArb cfg arb cm false s = some s1)
    (hA : repriceAt cfg
      { s with allMarketReserves :=
          (List.modify (fun row => { row with flag := UPDATED_RESERVE }) cm.1.TokenReserveIndex
            (List.modify (fun row => { row with flag := UPDATED_RESERVE })
              cm.2.TokenReserveIndex s.allMarketReserves)) } qb cb pb = some sA)
    (hB : repriceAt cfg sA qs cs ps = some sB) :
    updateReserveByArb cfg arb cm true s1 = some sB := by
  -- the forward buy leg
  unfold updateReserveByArb at h1
  cases hba : updateBuyLeg cfg arb cm.2 false s with
  | none => simp [hba] at h1
  | some sa =>
    simp only [hba] at h1
    obtain ⟨⟨rowb, hrowb⟩, hjn, hjt, Db, hDb⟩ :=
      updateBuyLeg_pre cfg arb cm.2 false s sa qb cb pb hb hfb hba
    have e1 := updateBuyLeg_eq cfg arb cm.2 false s qb cb pb rowb Db hb hfb hrowb hjn hjt hDb
    rw [hba] at e1
    simp only [Bool.false_eq_true, if_false] at e1
    obtain ⟨_, _, a1, b1, _, _, _, _, hsa⟩ := repriceAt_eq _ _ _ _ _ _ e1.symm
    have fa := repriceAt_frame _ _ _ _ _ _ e1.symm
    rw [setPrices_eq] at hsa
    simp only at hsa
    -- the forward sell leg
    obtain ⟨ps_a, hfs_a, hps_a⟩ := findMarket_shape cm.1.MarketAdress (pairsOf s qs)
      (pairsOf sa qs) 0 cs ps (pairsOf_shape s sa qs fa.2.2) hfs
    obtain ⟨⟨rows_, hrows⟩, hjn', hjt', Ds, hDs⟩ :=
      updateSellLeg_pre cfg arb cm.1 false sa s1 qs cs ps_a hs hfs_a h1
    have e2 := updateSellLeg_eq cfg arb cm.1 false sa qs cs ps_a rows_ Ds hs hfs_a hrows
      hjn' hjt' hDs
    rw [h1, repriceAt_congr cfg _ qs cs ps ps_a hps_a] at e2
    simp only [Bool.false_eq_true, if_false] at e2
    obtain ⟨_, _, a2, b2, _, _, _, _, hs1⟩ := repriceAt_eq _ _ _ _ _ _ e2.symm
    have f1 := repriceAt_frame _ _ _ _ _ _ e2.symm
    rw [setPrices_eq] at hs1
    simp only at hs1
    have hshape1 : shapeOf s1 = shapeOf s := f1.2.2.trans fa.2.2
    -- the undo buy leg
    obtain ⟨pb_1, hfb_1, hpb_1⟩ := findMarket_shape cm.2.MarketAdress (pairsOf s qb)
      (pairsOf s1 qb) 0 cb pb (pairsOf_shape s s1 qb hshape1) hfb
    have hrows1 : s1.allMarketReserves = List.modify
        (legShift cm.1.NativeIndex cm.1.TokenIndex (-arb.NativeOutAmount) Ds)
        cm.1.TokenReserveIndex (List.modify
          (legShift cm.2.NativeIndex cm.2.TokenIndex Db (-arb.TokenAmount))
          cm.2.TokenReserveIndex s.allMarketReserves) := by
      rw [hs1, hsa]
    obtain ⟨rowb1, hrowb1⟩ : ∃ r, s1.allMarketReserves[cm.2.TokenReserveIndex]? = some r := by
      rw [hrows1]
      obtain ⟨r, hr⟩ := getElem?_modify_isSome _ cm.2.TokenReserveIndex _ _ _ hrowb
      exact getElem?_modify_isSome _ _ _ _ _ hr
    have e3 := updateBuyLeg_eq cfg arb cm.2 true s1 qb cb pb_1 rowb1 Db hb hfb_1 hrowb1 hjn hjt hDb
    rw [repriceAt_congr cfg _ qb cb pb pb_1 hpb_1] at e3
    simp only [if_true] at e3
    -- the rows before the last leg, and the rows at the end
    have hR4 : List.modify
        (legShift cm.1.NativeIndex cm.1.TokenIndex arb.NativeOutAmount (-Ds))
        cm.1.TokenReserveIndex (List.modify
          (legShift cm.2.NativeIndex cm.2.TokenIndex (-Db) arb.TokenAmount)
          cm.2.TokenReserveIndex s1.allMarketReserves)
        = List.modify (fun row => { row with flag := UPDATED_RESERVE }) cm.1.TokenReserveIndex
            (List.modify (fun row => { row with flag := UPDATED_RESERVE })
              cm.2.TokenReserveIndex s.allMarketReserves) := by
      rw [hrows1]
      exact rows_apply_undo_legs _ _ _ _ _ _ _ _ _ _ _
    have hrowA : (List.modify
          (legShift cm.2.NativeIndex cm.2.TokenIndex (-Db) arb.TokenAmount)
          cm.2.TokenReserveIndex s1.allMarketReserves)[pb.TokenReserveIndex]?
        = (List.modify (fun row => { row with flag := UPDATED_RESERVE })
            cm.1.TokenReserveIndex
            (List.modify (fun row => { row with flag := UPDATED_RESERVE })
              cm.2.TokenReserveIndex s.allMarketReserves))[pb.TokenReserveIndex]? := by
      rw [← hR4, getElem?_modify_ne _ _ _ _ (Ne.symm hrow)]
    obtain ⟨a3, b3, hsA, hr3⟩ := repriceAt_transfer cfg _
      { s1 with allMarketReserves := (List.modify
          (legShift cm.2.NativeIndex cm.2.TokenIndex (-Db) arb.TokenAmount)
          cm.2.TokenReserveIndex s1.allMarketReserves) } sA qb cb pb hA hrowA
    rw [hr3] at e3
    -- the undo sell leg
    have hshapec : shapeOf (setPrices
        { s1 with allMarketReserves := (List.modify
          (legShift cm.2.NativeIndex cm.2.TokenIndex (-Db) arb.TokenAmount)
          cm.2.TokenReserveIndex s1.allMarketReserves) } qb cb a3 b3) = shapeOf s := by
      rw [setPrices_shape]
      exact hshape1
    obtain ⟨ps_c, hfs_c, hps_c⟩ := findMarket_shape cm.1.MarketAdress (pairsOf s qs)
      (pairsOf _ qs) 0 cs ps (pairsOf_shape s _ qs hshapec) hfs
    obtain ⟨rowsc, hrowsc⟩ : ∃ r, (setPrices
        { s1 with allMarketReserves := (List.modify
          (legShift cm.2.NativeIndex cm.2.TokenIndex (-Db) arb.TokenAmount)
          cm.2.TokenReserveIndex s1.allMarketReserves) } qb cb a3
            b3).allMarketReserves[cm.1.TokenReserveIndex]? = some r := by
      have hx : sa.allMarketReserves = List.modify
          (legShift cm.2.NativeIndex cm.2.TokenIndex Db (-arb.TokenAmount))
          cm.2.TokenReserveIndex s.allMarketReserves := by rw [hsa]
      rw [hx] at hrows
      show ∃ r, (List.modify _ _ s1.allMarketReserves)[cm.1.TokenReserveIndex]? = some r
      rw [hrows1]
      obtain ⟨r, hr⟩ := getElem?_modify_isSome
        (legShift cm.1.NativeIndex cm.1.TokenIndex (-arb.NativeOutAmount) Ds)
        cm.1.TokenReserveIndex _ _ _ hrows
      exact getElem?_modify_isSome _ _ _ _ _ hr
    have e4 := updateSellLeg_eq cfg arb cm.1 true _ qs cs ps_c rowsc Ds hs hfs_c hrowsc
      hjn' hjt' hDs
    rw [repriceAt_congr cfg _ qs cs ps ps_c hps_c] at e4
    simp only [if_true] at e4
    have hrowB : ({ (setPrices
        { s1 with allMarketReserves := (List.modify
          (legShift cm.2.NativeIndex cm.2.TokenIndex (-Db) arb.TokenAmount)
          cm.2.TokenReserveIndex s1.allMarketReserves) } qb cb a3 b3) with
        allMarketReserves := (List.modify
          (legShift cm.1.NativeIndex cm.1.TokenIndex arb.NativeOutAmount (-Ds))
          cm.1.TokenReserveIndex (setPrices
            { s1 with allMarketReserves := (List.modify
              (legShift cm.2.NativeIndex cm.2.TokenIndex (-Db) arb.TokenAmount)
              cm.2.TokenReserveIndex s1.allMarketReserves) } qb cb a3
                b3).allMarketReserves) } : State).allMarketReserves[ps.TokenReserveIndex]?
        = sA.allMarketReserves[ps.TokenReserveIndex]? := by
      rw [hsA]
      show (List.modify _ _ (List.modify _ _ s1.allMarketReserves))[ps.TokenReserveIndex]?
        = (List.modify _ _ (List.modify _ _ s.allMarketReserves))[ps.TokenReserveIndex]?
      rw [hR4]
    obtain ⟨a4, b4, hsB, hr4⟩ := repriceAt_transfer cfg sA _ sB qs cs ps hB hrowB
    rw [hr4] at e4
    unfold updateReserveByArb
    simp only [e3]
    rw [e4, hsB, hsA]
    congr 1
    simp only [setPrices_eq]
    rw [hR4, hs1, hsa]
    simp only [mapFirst_priceSet_absorb]

/-- C15 (as stated, refuted): applying the example arb and undoing it does not give
back the state it started from.  From a state in which the row of pool `2` is
stale, the row comes back marked fresh; from a state in which pool `1` is cached
at a price its reserves do not give, the pool comes back repriced. -/
theorem apply_undo_counterexample :
    (updateReserveByArb exampleConfig exampleArb (examplePoolB, examplePoolA) false
        halfStaleState).bind
          (updateReserveByArb exampleConfig exampleArb (examplePoolB, examplePoolA) true)
        = some exampleState
      ∧ halfStaleState.allMarketReserves ≠ exampleState.allMarketReserves
      ∧ (updateReserveByArb exampleConfig exampleArb (examplePoolB, mispricedPoolA) false
          mispricedState).bind
            (updateReserveByArb exampleConfig exampleArb (examplePoolB, mispricedPoolA) true)
          = some exampleState
      ∧ mispricedState.marketPairsByToken ≠ exampleState.marketPairsByToken := by
  decide!

/-- C15 (amended): let the forward call `updateReserveByArb(arb, pair, false)` on
`s` return `s1`, with both pools found in the registry under their quote tokens
and the registered buy pool's reserve row different from the sell pool's row.
Then, when the two pools can be priced on the reserves of `s` with both rows
marked fresh, the undo call `updateReserveByArb(arb, pair, true)` on `s1` returns,
and the state `sB` it returns is `s` with those two rows marked fresh and the two
pools priced from them: every row of `sB` has the `r0` and `r1` it had in `s`,
the two pools' rows carry `UPDATED_RESERVE`, every other row keeps its flag, and
the address list, the reverse index and the registry up to cached prices are
those of `s`; the registry of `sB` is that of `s` with the cached prices of the
two pools overwritten, by the values `GetAmountOut` and `GetAmountIn` give on the
reserves of `sB`. -/
theorem apply_undo_restores (cfg : Config) (arb : Arb) (cm : CrossedMarket)
    (s s1 sA sB : State) (qb qs : Address) (cb cs : Nat) (pb ps : UniswappyV2Pair)
    (hb : tokenAddressOf cm.2 = some qb) (hs : tokenAddressOf cm.1 = some qs)
    (hfb : findMarket cm.2.MarketAdress (pairsOf s qb) 0 = some (cb, pb))
    (hfs : findMarket cm.1.MarketAdress (pairsOf s qs) 0 = some (cs, ps))
    (hrow : pb.TokenReserveIndex ≠ cm.1.TokenReserveIndex)
    (h1 : updateReserveByArb cfg arb cm false s = some s1)
    (hA : repriceAt cfg
      { s with allMarketReserves :=
          (List.modify (fun row => { row with flag := UPDATED_RESERVE }) cm.1.TokenReserveIndex
            (List.modify (fun row => { row with flag := UPDATED_RESERVE })
              cm.2.TokenReserveIndex s.allMarketReserves)) } qb cb pb = some sA)
    (hB : repriceAt cfg sA qs cs ps = some sB) :
    updateReserveByArb cfg arb cm true s1 = some sB
      ∧ sB.allMarketAddresses = s.allMarketAddresses
      ∧ sB.marketMapping = s.marketMapping
      ∧ shapeOf sB = shapeOf s
      ∧ sB.allMarketReserves.length = s.allMarketReserves.length
      ∧ (∀ (j : Nat) (row : ReserveRow), s.allMarketReserves[j]? = some row →
          ∃ row', sB.allMarketReserves[j]? = some row'
            ∧ row'.r0 = row.r0 ∧ row'.r1 = row.r1
            ∧ (j = cm.1.TokenReserveIndex ∨ j = cm.2.TokenReserveIndex →
                row'.flag = UPDATED_RESERVE)
            ∧ (j ≠ cm.1.TokenReserveIndex → j ≠ cm.2.TokenReserveIndex →
                row'.flag = row.flag))
      ∧ ∃ x y x' y' : Int,
          sB.marketPairsByToken
              = (setPrices (setPrices s qb cb x y) qs cs x' y').marketPairsByToken
            ∧ (∃ native quote : Int,
                reserveAt sB pb.TokenReserveIndex pb.NativeIndex = some native
                  ∧ reserveAt sB pb.TokenReserveIndex pb.TokenIndex = some quote
                  ∧ GetAmountOut native quote cfg.BASE_WEI pb.FeePerTenThousands = some x
                  ∧ GetAmountIn quote native cfg.BASE_WEI pb.FeePerTenThousands = some y)
            ∧ ∃ native quote : Int,
                reserveAt sB ps.TokenReserveIndex ps.NativeIndex = some native
                  ∧ reserveAt sB ps.TokenReserveIndex ps.TokenIndex = some quote
                  ∧ GetAmountOut native quote cfg.BASE_WEI ps.FeePerTenThousands = some x'
                  ∧ GetAmountIn quote native cfg.BASE_WEI ps.FeePerTenThousands = some y' := by
  refine ⟨undo_after_apply cfg arb cm s s1 sA sB qb qs cb cs pb ps hb hs hfb hfs hrow h1 hA hB,
    ?_⟩
  obtain ⟨a1, a2, a3⟩ := repriceAt_frame _ _ _ _ _ _ hA
  obtain ⟨b1, b2, b3⟩ := repriceAt_frame _ _ _ _ _ _ hB
  obtain ⟨nA, qA, x, y, rA1, rA2, gA1, gA2, hsA⟩ := repriceAt_eq _ _ _ _ _ _ hA
  obtain ⟨nB, qB, x', y', rB1, rB2, gB1, gB2, hsB⟩ := repriceAt_eq _ _ _ _ _ _ hB
  have hrows : sB.allMarketReserves
      = List.modify (fun row => { row with flag := UPDATED_RESERVE }) cm.1.TokenReserveIndex
          (List.modify (fun row => { row with flag := UPDATED_RESERVE })
            cm.2.TokenReserveIndex s.allMarketReserves) := by
    rw [hsB, hsA]
    rfl
  have hrowsA : sA.allMarketReserves = sB.allMarketReserves := by
    rw [hsB]
    rfl
  refine ⟨by rw [b1, a1], by rw [b2, a2], by rw [b3, a3]; rfl, ?_, ?_, ?_⟩
  rotate_left 2
  · refine ⟨x, y, x', y', ?_, ⟨nA, qA, ?_, ?_, gA1, gA2⟩, ⟨nB, qB, ?_, ?_, gB1, gB2⟩⟩
    · rw [hsB, hsA]
      rfl
    · rw [← rA1]
      exact reserveAt_congr_row _ _ _ _ (by rw [hrows])
    · rw [← rA2]
      exact reserveAt_congr_row _ _ _ _ (by rw [hrows])
    · rw [← rB1]
      exact reserveAt_congr_row _ _ _ _ (by rw [hrowsA])
    · rw [← rB2]
      exact reserveAt_congr_row _ _ _ _ (by rw [hrowsA])
  · rw [hrows, List.length_modify, List.length_modify]
  · intro j row hj
    rw [hrows]
    simp only [List.getElem?_modify, hj, Option.map_eq_map, Option.map_some']
    refine ⟨_, rfl, ?_, ?_, ?_, ?_⟩
    · by_cases h1 : cm.1.TokenReserveIndex = j <;> by_cases h2 : cm.2.TokenReserveIndex = j <;>
        simp [h1, h2]
    · by_cases h1 : cm.1.TokenReserveIndex = j <;> by_cases h2 : cm.2.TokenReserveIndex = j <;>
        simp [h1, h2]
    · intro hor
      by_cases h1 : cm.1.TokenReserveIndex = j
      · simp [h1]
      · have h2 : cm.2.TokenReserveIndex = j := by
          rcases hor with hor | hor
          · exact absurd hor.symm h1
          · exact hor.symm
        simp [h1, h2]
    · intro h1 h2
      simp [Ne.symm h1, Ne.symm h2]

/-- C15 at the example registry, whose cached prices agree with its reserves and
whose rows are fresh: the example arb is applied, and the undo that follows
returns the example registry itself. -/
theorem apply_undo_restores_witness :
    ∃ s1, updateReserveByArb exampleConfig exampleArb (examplePoolB, examplePoolA) false
          exampleState = some s1
      ∧ updateReserveByArb exampleConfig exampleArb (examplePoolB, examplePoolA) true s1
          = some exampleState := by
  obtain ⟨s1, h1⟩ : ∃ s1, updateReserveByArb exampleConfig exampleArb
      (examplePoolB, examplePoolA) false exampleState = some s1 :=
    Option.isSome_iff_exists.1 (by decide!)
  exact ⟨s1, h1, (apply_undo_restores exampleConfig exampleArb (examplePoolB, examplePoolA)
    exampleState s1 exampleState exampleState 7 7 1 0 examplePoolA examplePoolB
    (by decide) (by decide) (by decide) (by decide) (by decide) h1 (by decide!)
    (by decide!)).1⟩

/-! ## Further facts on the swap arithmetic -/

/-- C29: for positive reserves, `0 < y < r_out` and a fee `0 ≤ f < 10000`,
`GetAmountIn r_in r_out y f` returns an input `a`, `GetAmountOut r_in r_out a f`
returns an output `v`, and `v ≥ y`: paying the quoted input on the same pool
yields at least the requested output. -/
theorem roundTrip_same (r_in r_out y f : Int)
    (hin : 0 < r_in) (_hout : 0 < r_out) (hy : 0 < y) (hlt : y < r_out)
    (h0 : 0 ≤ f) (h1 : f < 10000) :
    ∃ a v : Int, GetAmountIn r_in r_out y f = some a
      ∧ GetAmountOut r_in r_out a f = some v ∧ y ≤ v := by
  have hg : 0 < 10000 - f := by omega
  have hry : 0 < r_out - y := by omega
  have hD : 0 < (r_out - y) * (10000 - f) := mul_pos hry hg
  have hN : 0 ≤ y * 10000 * r_in := by positivity
  have hq0 : 0 ≤ y * 10000 * r_in / ((r_out - y) * (10000 - f)) := Int.ediv_nonneg hN hD.le
  have hq := Int.lt_ediv_add_one_mul_self (y * 10000 * r_in) hD
  set a := y * 10000 * r_in / ((r_out - y) * (10000 - f)) + 1 with hadef
  have ha : 0 < a := by omega
  have hD2 : 0 < 10000 * r_in + a * (10000 - f) := by positivity
  refine ⟨a, _, GetAmountIn_eq h0 h1.le hD.ne', GetAmountOut_eq h0 h1.le hD2.ne', ?_⟩
  rw [Int.le_ediv_iff_mul_le hD2]
  nlinarith

theorem roundTrip_same_witness :
    ∃ a v : Int, GetAmountIn 1000 2000 100 30 = some a
      ∧ GetAmountOut 1000 2000 a 30 = some v ∧ 100 ≤ v :=
  roundTrip_same 1000 2000 100 30 (by decide) (by decide) (by decide) (by decide)
    (by decide) (by decide)

/-- The exact crossing inequality behind the integer prices: when the sell price
of the buy-side pool at `B` exceeds the floor part of the buy price of the
sell-side pool at `B`, the pools are crossed without rounding. -/
theorem exact_cross_of_floor (pn pq rn rq kp kr B sell : Int)
    (hpn : 0 < pn) (hkp : 0 < kp) (hkr : 0 < kr)
    (hB0 : 0 < B) (hB1 : B < rn)
    (hsell : sell = B * kp * pq / (10000 * pn + B * kp))
    (hgt : B * 10000 * rq / ((rn - B) * kr) < sell) :
    10000 * rq * (10000 * pn + B * kp) < kp * pq * (kr * (rn - B)) := by
  have hD1 : 0 < 10000 * pn + B * kp := by positivity
  have hD : 0 < (rn - B) * kr := mul_pos (by omega) hkr
  have h1 : sell * (10000 * pn + B * kp) ≤ B * kp * pq := by
    rw [hsell]
    exact Int.ediv_mul_le _ hD1.ne'
  have h2 : B * 10000 * rq < sell * ((rn - B) * kr) := (Int.ediv_lt_iff_lt_mul hD).1 hgt
  have h3 : B * 10000 * rq * (10000 * pn + B * kp)
      < sell * ((rn - B) * kr) * (10000 * pn + B * kp) :=
    mul_lt_mul_of_pos_right h2 hD1
  have h4 : sell * (10000 * pn + B * kp) * ((rn - B) * kr) ≤ B * kp * pq * ((rn - B) * kr) :=
    mul_le_mul_of_nonneg_right h1 hD.le
  have h5 : B * (10000 * rq * (10000 * pn + B * kp)) < B * (kp * pq * (kr * (rn - B))) := by
    nlinarith
  exact lt_of_mul_lt_mul_left h5 hB0.le

/-- C30: for pools with positive reserves, fees in `[0, 10000)` and
`0 < BASE_WEI < ref.r_native`, both cached prices are defined, and when the sell
price of `p` exceeds the buy price of `ref` then
`p.r_quote * ref.r_native * (10000 - p.fee) * (10000 - ref.fee)
  > p.r_native * ref.r_quote * 10000^2`.  Over any ordered field, with `s` the
exact square root the closed form asks for, that inequality holds exactly when
the closed-form optimal input is positive. -/
theorem crossed_optimum_positive (p_native p_quote ref_native ref_quote p_fee ref_fee
    BASE_WEI : Int)
    (hpn : 0 < p_native) (hpq : 0 < p_quote) (hrn : 0 < ref_native) (hrq : 0 < ref_quote)
    (hp0 : 0 ≤ p_fee) (hp1 : p_fee < 10000) (hr0 : 0 ≤ ref_fee) (hr1 : ref_fee < 10000)
    (hB0 : 0 < BASE_WEI) (hB1 : BASE_WEI < ref_native) :
    (∃ sell buy : Int, GetAmountOut p_native p_quote BASE_WEI p_fee = some sell
        ∧ GetAmountIn ref_quote ref_native BASE_WEI ref_fee = some buy
        ∧ (sell > buy →
            p_quote * ref_native * (10000 - p_fee) * (10000 - ref_fee)
              > p_native * ref_quote * 10000 ^ 2))
      ∧ ∀ (K : Type) [LinearOrderedField K] (s : K), 0 ≤ s →
          s ^ 2 = (p_native : K) * p_quote * ref_quote * ref_native
            * ((10000 - (p_fee : K)) / 10000) ^ 3 * ((10000 - (ref_fee : K)) / 10000) →
          (0 < closedFormExact (p_native : K) p_quote ref_quote p_fee ref_fee s
            ↔ (p_quote : K) * ref_native * (10000 - p_fee) * (10000 - ref_fee)
                > p_native * ref_quote * 10000 ^ 2) := by
  have hkp : 0 < 10000 - p_fee := by omega
  have hkr : 0 < 10000 - ref_fee := by omega
  have hD1 : 0 < 10000 * p_native + BASE_WEI * (10000 - p_fee) := by positivity
  have hD : 0 < (ref_native - BASE_WEI) * (10000 - ref_fee) := mul_pos (by omega) hkr
  refine ⟨⟨_, _, GetAmountOut_eq hp0 hp1.le hD1.ne', GetAmountIn_eq hr0 hr1.le hD.ne', ?_⟩, ?_⟩
  · intro hgt
    have hlt : BASE_WEI * 10000 * ref_quote / ((ref_native - BASE_WEI) * (10000 - ref_fee))
        < BASE_WEI * (10000 - p_fee) * p_quote
            / (10000 * p_native + BASE_WEI * (10000 - p_fee)) := by omega
    have h := exact_cross_of_floor p_native p_quote ref_native ref_quote (10000 - p_fee)
      (10000 - ref_fee) BASE_WEI _ hpn hkp hkr hB0 hB1 rfl hlt
    have h2 : 0 < (10000 - p_fee) * p_quote * (10000 - ref_fee) * BASE_WEI := by positivity
    have h3 : 0 ≤ 10000 * ref_quote * (BASE_WEI * (10000 - p_fee)) := by positivity
    nlinarith
  · intro K _ s hs hsq
    have a1 : (0 : K) < p_native := by exact_mod_cast hpn
    have a2 : (0 : K) < p_quote := by exact_mod_cast hpq
    have a3 : (0 : K) < ref_native := by exact_mod_cast hrn
    have a4 : (0 : K) < ref_quote := by exact_mod_cast hrq
    have a5 : (0 : K) < 10000 - (p_fee : K) := by
      have : ((0 : Int) : K) < ((10000 - p_fee : Int) : K) := Int.cast_lt.2 hkp
      push_cast at this
      exact this
    have a6 : (0 : K) < 10000 - (ref_fee : K) := by
      have : ((0 : Int) : K) < ((10000 - ref_fee : Int) : K) := Int.cast_lt.2 hkr
      push_cast at this
      exact this
    set kp : K := 10000 - (p_fee : K) with hkpdef
    set kr : K := 10000 - (ref_fee : K) with hkrdef
    unfold closedFormExact
    simp only [← hkpdef, ← hkrdef]
    have hden : 0 < (ref_quote : K) * (kp / 10000) ^ 2 + kr / 10000 * p_quote * (kp / 10000) ^ 2 := by
      positivity
    rw [div_pos_iff_of_pos_right hden]
    have hA : 0 ≤ kp / 10000 * (ref_quote : K) * p_native := by positivity
    constructor
    · intro h
      have h1 : kp / 10000 * (ref_quote : K) * p_native < s := by linarith
      have h2 : (kp / 10000 * (ref_quote : K) * p_native) ^ 2 < s ^ 2 :=
        pow_lt_pow_left₀ h1 hA (by norm_num)
      rw [hsq] at h2
      have h3 : (kp / 10000 * (ref_quote : K) * p_native) ^ 2
          = ((p_native : K) * ref_quote * (kp / 10000) ^ 2) * (p_native * ref_quote) := by ring
      have h4 : (p_native : K) * p_quote * ref_quote * ref_native * (kp / 10000) ^ 3 * (kr / 10000)
          = ((p_native : K) * ref_quote * (kp / 10000) ^ 2)
              * (p_quote * ref_native * (kp / 10000) * (kr / 10000)) := by ring
      rw [h3, h4] at h2
      have hpos : 0 < (p_native : K) * ref_quote * (kp / 10000) ^ 2 := by positivity
      have h5 := lt_of_mul_lt_mul_left h2 hpos.le
      have h6 : (p_quote : K) * ref_native * (kp / 10000) * (kr / 10000)
          = (p_quote : K) * ref_native * kp * kr / 10000 ^ 2 := by ring
      rw [h6, lt_div_iff₀ (by norm_num)] at h5
      exact h5
    · intro h
      have h5 : (p_native : K) * ref_quote
          < (p_quote : K) * ref_native * (kp / 10000) * (kr / 10000) := by
        have h6 : (p_quote : K) * ref_native * (kp / 10000) * (kr / 10000)
            = (p_quote : K) * ref_native * kp * kr / 10000 ^ 2 := by ring
        rw [h6, lt_div_iff₀ (by norm_num)]
        exact h
      have hpos : 0 < (p_native : K) * ref_quote * (kp / 10000) ^ 2 := by positivity
      have h2 : ((p_native : K) * ref_quote * (kp / 10000) ^ 2) * (p_native * ref_quote)
          < ((p_native : K) * ref_quote * (kp / 10000) ^ 2)
              * (p_quote * ref_native * (kp / 10000) * (kr / 10000)) :=
        mul_lt_mul_of_pos_left h5 hpos
      have h3 : (kp / 10000 * (ref_quote : K) * p_native) ^ 2
          = ((p_native : K) * ref_quote * (kp / 10000) ^ 2) * (p_native * ref_quote) := by ring
      have h4 : (p_native : K) * p_quote * ref_quote * ref_native * (kp / 10000) ^ 3 * (kr / 10000)
          = ((p_native : K) * ref_quote * (kp / 10000) ^ 2)
              * (p_quote * ref_native * (kp / 10000) * (kr / 10000)) := by ring
      rw [← h3, ← h4, ← hsq] at h2
      have h7 : kp / 10000 * (ref_quote : K) * p_native < s :=
        lt_of_pow_lt_pow_left₀ 2 hs h2
      linarith

/-- C30 at the example pools: pool `1` sells at 19, pool `2` buys at 6, and the
product inequality holds. -/
theorem crossed_optimum_positive_witness :
    ∃ sell buy : Int, GetAmountOut 1000 2000 10 30 = some sell
      ∧ GetAmountIn 1000 2000 10 30 = some buy
      ∧ (sell > buy →
          (2000 : Int) * 2000 * (10000 - 30) * (10000 - 30) > 1000 * 1000 * 10000 ^ 2) :=
  (crossed_optimum_positive 1000 2000 2000 1000 30 30 10 (by decide) (by decide) (by decide)
    (by decide) (by decide) (by decide) (by decide) (by decide) (by decide) (by decide)).1

/-- C24 (as stated, refuted): with base amount 10 and fee 30, the pool `p` holding
1000 native and 150 quote and the pool `ref` holding 100000 native and 100 quote
give a profitable trade at `x = 10` (1 quote bought, sold for 987 native), yet
`p` sells at 1 and `ref` buys at 1, so the cross condition `1 > 1` fails: on the
registry of these two pools, freshly priced, the search returns no arb. -/
theorem cross_condition_counterexample :
    GetAmountOut 1000 150 10 30 = some 1
      ∧ GetAmountOut 100 100000 1 30 = some 987
      ∧ (987 : Int) > 10
      ∧ GetAmountIn 100 100000 10 30 = some 1
      ∧ ¬ ((1 : Int) > 1)
      ∧ priceMarkets exampleConfig thinState = some thinState
      ∧ crossMarkets thinState (pairsOf thinState 7) = some []
      ∧ (evaluateMarketsRecursive exampleConfig false 7 0 thinState).map Prod.fst
          = some [] := by
  decide!

/-- The arithmetic of the weak cross condition, on the fee complements `kp`, `kr`:
a profitable input `x ≥ B` puts the floor part of the buy price at or below the
sell price, and strictly below it when `x = B`. -/
theorem cross_weak_core (pn pq rn rq kp kr B x tokens proceeds : Int)
    (hpn : 0 < pn) (hpq : 0 < pq) (hrq : 0 < rq) (hkp : 0 < kp) (hkr : 0 < kr)
    (hB0 : 0 < B) (hB1 : B < rn) (hx : B ≤ x)
    (htok : tokens = x * kp * pq / (10000 * pn + x * kp))
    (hpro : proceeds = tokens * kr * rn / (10000 * rq + tokens * kr))
    (hgain : x < proceeds) :
    B * 10000 * rq / ((rn - B) * kr) ≤ B * kp * pq / (10000 * pn + B * kp)
      ∧ (x = B → B * 10000 * rq / ((rn - B) * kr) < B * kp * pq / (10000 * pn + B * kp)) := by
  have hx0 : 0 < x := by omega
  have hD1x : 0 < 10000 * pn + x * kp := by positivity
  have hD1 : 0 < 10000 * pn + B * kp := by positivity
  have hD : 0 < (rn - B) * kr := mul_pos (by omega) hkr
  have ht0 : 0 ≤ tokens := by
    rw [htok]
    exact Int.ediv_nonneg (by positivity) hD1x.le
  have hD2 : 0 < 10000 * rq + tokens * kr := by positivity
  have h1 : tokens * (10000 * pn + x * kp) ≤ x * kp * pq := by
    rw [htok]
    exact Int.ediv_mul_le _ hD1x.ne'
  have h2 : (x + 1) * (10000 * rq + tokens * kr) ≤ tokens * kr * rn := by
    have : x + 1 ≤ tokens * kr * rn / (10000 * rq + tokens * kr) := by omega
    exact (Int.le_ediv_iff_mul_le hD2).1 this
  -- the sell leg at `x` pays for more than `x`
  have h3 : x * 10000 * rq < tokens * ((rn - x) * kr) := by nlinarith
  have htk : 0 ≤ tokens * kr := by positivity
  have hrx : 0 < rn - x := by
    by_contra hc
    have hc' : rn - x ≤ 0 := by omega
    have : tokens * ((rn - x) * kr) ≤ 0 := by
      have h5 : tokens * ((rn - x) * kr) = (tokens * kr) * (rn - x) := by ring
      rw [h5]
      exact mul_nonpos_of_nonneg_of_nonpos htk hc'
    have h6 : 0 ≤ x * 10000 * rq := by positivity
    omega
  refine ⟨?_, ?_⟩
  · -- the exact crossing at `x`, then at `B`
    have h4 : x * (10000 * rq * (10000 * pn + x * kp))
        < x * (kp * pq * (kr * (rn - x))) := by
      have a1 : x * 10000 * rq * (10000 * pn + x * kp)
          < tokens * ((rn - x) * kr) * (10000 * pn + x * kp) :=
        mul_lt_mul_of_pos_right h3 hD1x
      have a2 : tokens * (10000 * pn + x * kp) * ((rn - x) * kr)
          ≤ x * kp * pq * ((rn - x) * kr) :=
        mul_le_mul_of_nonneg_right h1 (mul_pos hrx hkr).le
      nlinarith
    have h5 := lt_of_mul_lt_mul_left h4 hx0.le
    have h6 : 10000 * rq * (10000 * pn + B * kp) < kp * pq * (kr * (rn - B)) := by
      have b1 : 10000 * rq * (10000 * pn + B * kp) ≤ 10000 * rq * (10000 * pn + x * kp) := by
        have : 0 ≤ 10000 * rq * ((x - B) * kp) :=
          mul_nonneg (by positivity) (mul_nonneg (by omega) hkp.le)
        nlinarith
      have b2 : kp * pq * (kr * (rn - x)) ≤ kp * pq * (kr * (rn - B)) := by
        have : 0 ≤ kp * pq * (kr * (x - B)) :=
          mul_nonneg (by positivity) (mul_nonneg hkr.le (by omega))
        nlinarith
      omega
    have h7 := Int.lt_ediv_add_one_mul_self (B * kp * pq) hD1
    have h8 : B * 10000 * rq
        < (B * kp * pq / (10000 * pn + B * kp) + 1) * ((rn - B) * kr) := by
      have c1 : B * kp * pq * ((rn - B) * kr)
          < (B * kp * pq / (10000 * pn + B * kp) + 1) * (10000 * pn + B * kp)
              * ((rn - B) * kr) :=
        mul_lt_mul_of_pos_right h7 hD
      have c2 : B * (10000 * rq * (10000 * pn + B * kp))
          < B * (kp * pq * (kr * (rn - B))) :=
        mul_lt_mul_of_pos_left h6 hB0
      have c3 : B * 10000 * rq * (10000 * pn + B * kp)
          < (B * kp * pq / (10000 * pn + B * kp) + 1) * ((rn - B) * kr)
              * (10000 * pn + B * kp) := by
        nlinarith
      exact lt_of_mul_lt_mul_right c3 hD1.le
    have h9 := (Int.ediv_lt_iff_lt_mul hD).2 h8
    omega
  · intro hxB
    subst hxB
    have h9 := (Int.ediv_lt_iff_lt_mul hD).2 h3
    rw [← htok]
    exact h9

/-- C24 (amended): for pools with positive reserves, fees in `[0, 10000)` and
`0 < BASE_WEI < ref.r_native`, if some native input `x ≥ BASE_WEI` is profitable
(`GetAmountOut` on `ref` of `GetAmountOut` on `p` of `x` exceeds `x`), then both
prices are defined and the sell price of `p` is at least the buy price of `ref`
less one; when `x = BASE_WEI` itself is profitable, the sell price of `p` is at
least the buy price of `ref`. -/
theorem cross_condition_weak (p_native p_quote ref_native ref_quote p_fee ref_fee
    BASE_WEI x tokens proceeds : Int)
    (hpn : 0 < p_native) (hpq : 0 < p_quote) (_hrn : 0 < ref_native) (hrq : 0 < ref_quote)
    (hp0 : 0 ≤ p_fee) (hp1 : p_fee < 10000) (hr0 : 0 ≤ ref_fee) (hr1 : ref_fee < 10000)
    (hB0 : 0 < BASE_WEI) (hB1 : BASE_WEI < ref_native) (hx : BASE_WEI ≤ x)
    (htok : GetAmountOut p_native p_quote x p_fee = some tokens)
    (hpro : GetAmountOut ref_quote ref_native tokens ref_fee = some proceeds)
    (hgain : proceeds > x) :
    ∃ sell buy : Int, GetAmountOut p_native p_quote BASE_WEI p_fee = some sell
      ∧ GetAmountIn ref_quote ref_native BASE_WEI ref_fee = some buy
      ∧ buy ≤ sell + 1 ∧ (x = BASE_WEI → buy ≤ sell) := by
  have hkp : 0 < 10000 - p_fee := by omega
  have hkr : 0 < 10000 - ref_fee := by omega
  have hx0 : 0 < x := by omega
  have hD1x : 0 < 10000 * p_native + x * (10000 - p_fee) :=
    add_pos (by positivity) (mul_pos hx0 hkp)
  have hD1 : 0 < 10000 * p_native + BASE_WEI * (10000 - p_fee) :=
    add_pos (by positivity) (mul_pos hB0 hkp)
  have hD : 0 < (ref_native - BASE_WEI) * (10000 - ref_fee) := mul_pos (by omega) hkr
  rw [GetAmountOut_eq hp0 hp1.le hD1x.ne'] at htok
  simp only [Option.some.injEq] at htok
  have ht0 : 0 ≤ tokens := by
    rw [← htok]
    exact Int.ediv_nonneg (mul_nonneg (mul_nonneg hx0.le hkp.le) hpq.le) hD1x.le
  have hD2 : 0 < 10000 * ref_quote + tokens * (10000 - ref_fee) :=
    add_pos_of_pos_of_nonneg (by positivity) (mul_nonneg ht0 hkr.le)
  rw [GetAmountOut_eq hr0 hr1.le hD2.ne'] at hpro
  simp only [Option.some.injEq] at hpro
  obtain ⟨g1, g2⟩ := cross_weak_core p_native p_quote ref_native ref_quote (10000 - p_fee)
    (10000 - ref_fee) BASE_WEI x tokens proceeds hpn hpq hrq hkp hkr hB0 hB1 hx htok.symm
    hpro.symm hgain
  refine ⟨_, _, GetAmountOut_eq hp0 hp1.le hD1.ne', GetAmountIn_eq hr0 hr1.le hD.ne', ?_, ?_⟩
  · omega
  · intro hxB
    have := g2 hxB
    omega

/-- C24 at the example pools with `x = BASE_WEI = 10`: 10 native buy 19 quote from
pool `1`, which sell for 37 native at pool `2`; pool `1` sells at 19 and pool `2`
buys at 6. -/
theorem cross_condition_weak_witness :
    ∃ sell buy : Int, GetAmountOut 1000 2000 10 30 = some sell
      ∧ GetAmountIn 1000 2000 10 30 = some buy
      ∧ buy ≤ sell + 1 ∧ ((10 : Int) = 10 → buy ≤ sell) :=
  cross_condition_weak 1000 2000 2000 1000 30 30 10 10 19 37 (by decide) (by decide)
    (by decide) (by decide) (by decide) (by decide) (by decide) (by decide) (by decide)
    (by decide) (by decide) (by decide) (by decide) (by decide)

/-! ## Classification of pools at discovery -/

/-- C21 (as stated, refuted): with `98` the native token and `99` the wrapped
native token, the pair `(98, 99)` has both sides native, yet
`getTokenIndexesInPair` returns `(0, 1)` and not `(-1, -1)`, and discovery
registers the pool under the token `99`. -/
theorem getTokenIndexesInPair_counterexample :
    getTokenIndexesInPair 98 99 98 99 = (0, 1)
      ∧ getTokenIndexesInPair 98 99 98 99 ≠ (-1, -1)
      ∧ (registerPair 98 99 (fun _ => false) false (fun _ => false) 50 30 (98, 99, 5)).map
          (fun r => r.map (fun e => (e.1, e.2.MarketAdress, e.2.NativeIndex, e.2.TokenIndex)))
          = some (some (99, 5, 0, 1)) := by
  decide

/-- C21 (amended): `getTokenIndexesInPair(a, b)` returns `(0, 1)` exactly when `a`
is the native or the wrapped-native token, `(1, 0)` exactly when `a` is not and
`b` is, and `(-1, -1)` exactly when neither is; so it returns valid indices iff
at least one side is native, and a pool with both sides native is classified
`(0, 1)`.  Discovery drops the pool when neither side is native, and otherwise
passes it on to the ban, stability and hard-ban tests with the quote token
`pair[tokenIndex]`; a pool that passes them is registered with these indices. -/
theorem getTokenIndexesInPair_spec (METIS_TOKEN_ADDRESS WMETIS_TOKEN_ADDRESS a b : Address) :
    (getTokenIndexesInPair METIS_TOKEN_ADDRESS WMETIS_TOKEN_ADDRESS a b = (0, 1)
        ↔ (a = METIS_TOKEN_ADDRESS ∨ a = WMETIS_TOKEN_ADDRESS))
      ∧ (getTokenIndexesInPair METIS_TOKEN_ADDRESS WMETIS_TOKEN_ADDRESS a b = (1, 0)
        ↔ ¬ (a = METIS_TOKEN_ADDRESS ∨ a = WMETIS_TOKEN_ADDRESS)
            ∧ (b = METIS_TOKEN_ADDRESS ∨ b = WMETIS_TOKEN_ADDRESS))
      ∧ (getTokenIndexesInPair METIS_TOKEN_ADDRESS WMETIS_TOKEN_ADDRESS a b = (-1, -1)
        ↔ ¬ (a = METIS_TOKEN_ADDRESS ∨ a = WMETIS_TOKEN_ADDRESS)
            ∧ ¬ (b = METIS_TOKEN_ADDRESS ∨ b = WMETIS_TOKEN_ADDRESS))
      ∧ ∀ (banned : Address → Bool) (stable : Bool) (hardBanned : Address → Bool)
          (factory : Address) (fee : Int) (market : Address),
          (¬ (a = METIS_TOKEN_ADDRESS ∨ a = WMETIS_TOKEN_ADDRESS)
              ∧ ¬ (b = METIS_TOKEN_ADDRESS ∨ b = WMETIS_TOKEN_ADDRESS) →
            registerPair METIS_TOKEN_ADDRESS WMETIS_TOKEN_ADDRESS banned stable hardBanned
              factory fee (a, b, market) = some none)
          ∧ ((a = METIS_TOKEN_ADDRESS ∨ a = WMETIS_TOKEN_ADDRESS) →
              banned b = false → stable = false → hardBanned market = false →
              ∃ p, registerPair METIS_TOKEN_ADDRESS WMETIS_TOKEN_ADDRESS banned stable
                    hardBanned factory fee (a, b, market) = some (some (b, p))
                ∧ p.MarketAdress = market ∧ p.NativeIndex = 0 ∧ p.TokenIndex = 1
                ∧ p.WethAddress = a)
          ∧ (¬ (a = METIS_TOKEN_ADDRESS ∨ a = WMETIS_TOKEN_ADDRESS) →
              (b = METIS_TOKEN_ADDRESS ∨ b = WMETIS_TOKEN_ADDRESS) →
              banned a = false → stable = false → hardBanned market = false →
              ∃ p, registerPair METIS_TOKEN_ADDRESS WMETIS_TOKEN_ADDRESS banned stable
                    hardBanned factory fee (a, b, market) = some (some (a, p))
                ∧ p.MarketAdress = market ∧ p.NativeIndex = 1 ∧ p.TokenIndex = 0
                ∧ p.WethAddress = b) := by
  refine ⟨?_, ?_, ?_, ?_⟩
  · unfold getTokenIndexesInPair
    by_cases h1 : a = METIS_TOKEN_ADDRESS ∨ a = WMETIS_TOKEN_ADDRESS
    · simp [h1]
    · by_cases h2 : b = METIS_TOKEN_ADDRESS ∨ b = WMETIS_TOKEN_ADDRESS
      · simp [h1, h2]
      · simp [h1, h2]
  · unfold getTokenIndexesInPair
    by_cases h1 : a = METIS_TOKEN_ADDRESS ∨ a = WMETIS_TOKEN_ADDRESS
    · simp [h1]
    · by_cases h2 : b = METIS_TOKEN_ADDRESS ∨ b = WMETIS_TOKEN_ADDRESS
      · simp [h1, h2]
      · simp [h1, h2]
  · unfold getTokenIndexesInPair
    by_cases h1 : a = METIS_TOKEN_ADDRESS ∨ a = WMETIS_TOKEN_ADDRESS
    · simp [h1]
    · by_cases h2 : b = METIS_TOKEN_ADDRESS ∨ b = WMETIS_TOKEN_ADDRESS
      · simp [h1, h2]
      · simp [h1, h2]
  · intro banned stable hardBanned factory fee market
    refine ⟨?_, ?_, ?_⟩
    · rintro ⟨h1, h2⟩
      simp [registerPair, getTokenIndexesInPair, h1, h2]
    · intro h1 hb hs hh
      refine ⟨⟨market, factory, fee, (a, b), a, 0, 1, 0, 0, 0⟩, ?_, rfl, rfl, rfl, rfl⟩
      simp [registerPair, getTokenIndexesInPair, h1, batchAt, hb, hs, hh]
    · intro h1 h2 hb hs hh
      refine ⟨⟨market, factory, fee, (a, b), b, 1, 0, 0, 0, 0⟩, ?_, rfl, rfl, rfl, rfl⟩
      simp [registerPair, getTokenIndexesInPair, h1, h2, batchAt, hb, hs, hh]

/-- C21 at a pool of the quote token `7` with the wrapped native token `99` on its
second side: it is registered under `7` with native index 1 and token index 0. -/
theorem getTokenIndexesInPair_spec_witness :
    ∃ p, registerPair 98 99 (fun _ => false) false (fun _ => false) 50 30 (7, 99, 5)
          = some (some (7, p))
      ∧ p.MarketAdress = 5 ∧ p.NativeIndex = 1 ∧ p.TokenIndex = 0 ∧ p.WethAddress = 99 :=
  ((getTokenIndexesInPair_spec 98 99 7 99).2.2.2 (fun _ => false) false (fun _ => false)
    50 30 5).2.2 (by decide) (by decide) rfl rfl rfl

/-! ## The pool handed to the health check -/

/-- C22 (as stated, refuted): in the raw example registry the pools `1` (1000
native) and `2` (2000 native) of token `7` both survive the gates; the one call
of the health check is made on pool `1`, the first of the list, although pool `2`
holds more native. -/
theorem healthCheck_counterexample :
    healthCheckCalls exampleConfig rawState = some [(7, examplePoolA)]
      ∧ passesLiquidityGate exampleConfig rawState examplePoolB = some true
      ∧ assignReserveIndex rawState.allMarketAddresses rawPoolB = examplePoolB
      ∧ nativeReserveOf rawState examplePoolA = some 1000
      ∧ nativeReserveOf rawState examplePoolB = some 2000
      ∧ ¬ ((1000 : Int) ≥ 2000) := by
  decide

theorem healthy_filter_calls (tokenIsHealthy : Address → UniswappyV2Pair → Bool) :
    ∀ multi : List (Address × List UniswappyV2Pair),
      (multi.filter (healthyEntry tokenIsHealthy)).map Prod.fst
        = ((multi.filterMap (fun entry => entry.2.head?.map (fun pair => (entry.1, pair)))).filter
            (fun c => tokenIsHealthy c.1 c.2)).map Prod.fst := by
  intro multi
  induction multi with
  | nil => rfl
  | cons e rest ih =>
    obtain ⟨t, ps⟩ := e
    cases ps with
    | nil => simpa [List.filter_cons, healthyEntry, List.filterMap_cons] using ih
    | cons p tail =>
      by_cases hh : tokenIsHealthy t p = true
      · simp [List.filter_cons, healthyEntry, List.filterMap_cons, hh, ih]
      · simp [List.filter_cons, healthyEntry, List.filterMap_cons, hh, ih]

/-- C22 (amended): `healthCheckCalls` returns whenever `filterMarkets` does; every
call `(token, p)` of the health check is made on the first pool, in the order of
the token's list in the registry, that passes the liquidity test, and the token
has a further pool that passes it; and the tokens `filterMarkets` keeps are those
of the calls that succeed, in order.  (The list is ordered by liquidity only
afterwards, by `sortMartkets`.) -/
theorem healthCheck_first_survivor (cfg : Config) (s : State) :
    (∀ (tokenIsHealthy : Address → UniswappyV2Pair → Bool) (rows : List ReserveRow)
        (s' : State), filterMarkets cfg tokenIsHealthy rows s = some s' →
        ∃ calls, healthCheckCalls cfg s = some calls
          ∧ s'.marketPairsByToken.map Prod.fst
              = (calls.filter (fun c => tokenIsHealthy c.1 c.2)).map Prod.fst)
      ∧ ∀ calls, healthCheckCalls cfg s = some calls → ∀ c ∈ calls,
          ∃ e ∈ s.marketPairsByToken, e.1 = c.1 ∧
            ∃ pre post : List UniswappyV2Pair,
              e.2.map (assignReserveIndex s.allMarketAddresses) = pre ++ c.2 :: post
                ∧ (∀ x ∈ pre, passesLiquidityGate cfg s x ≠ some true)
                ∧ passesLiquidityGate cfg s c.2 = some true
                ∧ ∃ y ∈ post, passesLiquidityGate cfg s y = some true := by
  refine ⟨?_, ?_⟩
  · intro tokenIsHealthy rows s' h
    obtain ⟨kept, hkept, _, _, hP, _⟩ := filterMarkets_eq cfg tokenIsHealthy rows s s' h
    unfold filterMarkets at h
    dsimp only at h
    cases hg : gateEntries cfg s
        (assignReserveIndexes s.allMarketAddresses s.marketPairsByToken) with
    | none => simp [hg] at h
    | some wma =>
      have hw := gateEntries_spec cfg s _ wma hg
      refine ⟨(wma.filter (fun entry => decide (entry.2.length > 1))).filterMap
        (fun entry => entry.2.head?.map (fun pair => (entry.1, pair))), ?_, ?_⟩
      · unfold healthCheckCalls
        rw [hg]
      · rw [← healthy_filter_calls, hP, hw, hkept]
        unfold assignReserveIndexes
        simp [List.map_map, Function.comp_def]
  · intro calls h c hc
    unfold healthCheckCalls at h
    cases hg : gateEntries cfg s
        (assignReserveIndexes s.allMarketAddresses s.marketPairsByToken) with
    | none => simp [hg] at h
    | some wma =>
      simp only [hg, Option.some.injEq] at h
      subst h
      have hw := gateEntries_spec cfg s _ wma hg
      subst hw
      obtain ⟨entry, hentry, hhead⟩ := List.mem_filterMap.1 hc
      obtain ⟨hmem, hlen⟩ := List.mem_filter.1 hentry
      obtain ⟨ei, hei, rfl⟩ := List.mem_map.1 hmem
      unfold assignReserveIndexes at hei
      obtain ⟨e, he, rfl⟩ := List.mem_map.1 hei
      dsimp only at hhead hlen
      cases hf : (e.2.map (assignReserveIndex s.allMarketAddresses)).filter
          (fun p => decide (passesLiquidityGate cfg s p = some true)) with
      | nil => simp [hf] at hhead
      | cons p tail =>
        simp only [hf, List.head?_cons, Option.map_some', Option.some.injEq] at hhead
        subst hhead
        obtain ⟨pre, post, hsplit, hpre, hp, htail⟩ := List.filter_eq_cons_iff.1 hf
        refine ⟨e, he, rfl, pre, post, hsplit, ?_, of_decide_eq_true hp, ?_⟩
        · intro x hx
          have := hpre x hx
          simpa using this
        · rw [hf] at hlen
          have hl : tail ≠ [] := by
            intro hnil
            rw [hnil] at hlen
            simp at hlen
          obtain ⟨y, hy⟩ := List.exists_mem_of_ne_nil tail hl
          rw [← htail] at hy
          obtain ⟨hy1, hy2⟩ := List.mem_filter.1 hy
          exact ⟨y, hy1, of_decide_eq_true hy2⟩

/-- C22 at the raw example registry with every token healthy: the one call is on
pool `1`, the first pool of token `7` that passes the liquidity test, and the
token kept by `filterMarkets` is that of the call. -/
theorem healthCheck_first_survivor_witness :
    (∃ calls, healthCheckCalls exampleConfig rawState = some calls
      ∧ filteredState.marketPairsByToken.map Prod.fst
          = (calls.filter (fun c => (fun _ _ => true) c.1 c.2)).map Prod.fst)
      ∧ ∃ e ∈ rawState.marketPairsByToken, e.1 = 7 ∧
          ∃ pre post : List UniswappyV2Pair,
            e.2.map (assignReserveIndex rawState.allMarketAddresses)
                = pre ++ examplePoolA :: post
              ∧ (∀ x ∈ pre, passesLiquidityGate exampleConfig rawState x ≠ some true)
              ∧ passesLiquidityGate exampleConfig rawState examplePoolA = some true
              ∧ ∃ y ∈ post, passesLiquidityGate exampleConfig rawState y = some true :=
  ⟨(healthCheck_first_survivor exampleConfig rawState).1 (fun _ _ => true)
      [⟨1000, 2000, 1⟩, ⟨2000, 1000, 1⟩] filteredState (by decide),
   (healthCheck_first_survivor exampleConfig rawState).2 [(7, examplePoolA)] (by decide)
      (7, examplePoolA) (List.mem_singleton.2 rfl)⟩

/-! ## The profitable-cross scenario -/

/-- C23: in the scenario (base amount `10^17`, thresholds `10^18`, pool list
`[B, A]` with `A = (1000 * 10^18, 2000 * 10^18)` and `B = (2000 * 10^18,
1000 * 10^18)`, fee 30, rows fresh, prices as `priceMarkets` computes them),
`evaluateMarketsRecursive(false, token, 0)` returns exactly one arb; it buys from
`A`, sells to `B`, its profit is positive and its native input lies in
`(0, 500 * 10^18]`. -/
theorem scenario_single_arb :
    priceMarkets scenarioConfig scenarioState = some scenarioState
      ∧ sortMartkets scenarioState = some scenarioState
      ∧ (evaluateMarketsRecursive scenarioConfig false 7 0 scenarioState).map Prod.fst
          = some [scenarioArb]
      ∧ scenarioArb.BuyFromPair = scenarioPoolA.MarketAdress
      ∧ scenarioArb.SellToPair = scenarioPoolB.MarketAdress
      ∧ scenarioArb.Profit > 0
      ∧ 0 < scenarioArb.NativeInAmount
      ∧ scenarioArb.NativeInAmount ≤ 500 * 10 ^ 18 := by
  decide!

/-! ## The selection loop and the submission test -/

/-- C27: started as the search starts it, with `profitOpportunityFound = false`,
the selection loop does what `selectFirst` does, whatever `bestArb` and
`bestProfit` hold: it stops at the first crossed market whose profit exceeds the
active threshold, and the branch that compares against `bestProfit` is never
taken.  Hence `evaluateToken` is the crossing phase followed by `selectFirst`. -/
theorem bestProfit_branch_dead (cfg : Config) (s : State) (isFollowUp : Bool) :
    (∀ (crossedMarkets : List CrossedMarket) (bestArb : Option (Arb × CrossedMarket))
        (bestProfit : Option Int),
        selectLoop cfg s isFollowUp crossedMarkets false bestArb bestProfit
          = selectFirst cfg s isFollowUp crossedMarkets)
      ∧ ∀ pairs : List UniswappyV2Pair,
          evaluateToken cfg s isFollowUp pairs
            = (crossMarkets s pairs).bind (selectFirst cfg s isFollowUp) := by
  have key : ∀ (crossedMarkets : List CrossedMarket) (bestArb : Option (Arb × CrossedMarket))
      (bestProfit : Option Int),
      selectLoop cfg s isFollowUp crossedMarkets false bestArb bestProfit
        = selectFirst cfg s isFollowUp crossedMarkets := by
    intro crossedMarkets
    induction crossedMarkets with
    | nil => intro bestArb bestProfit; simp [selectLoop, selectFirst]
    | cons cm rest ih =>
      intro bestArb bestProfit
      rw [selectLoop, selectFirst]
      cases hsz : sizeCrossedMarket s cm with
      | none => rfl
      | some r =>
        obtain ⟨size, tokensOut, proceeds, profit⟩ := r
        dsimp only
        by_cases hex : exceedsThreshold cfg isFollowUp profit = true
        · simp [hex]
        · simp only [hex, if_false, Bool.false_eq_true]
          exact ih bestArb bestProfit
  refine ⟨key, ?_⟩
  intro pairs
  unfold evaluateToken
  cases crossMarkets s pairs with
  | none => rfl
  | some cms => exact key cms none none

/-- C28 (the code at the failing input): on the example registry the periodic
pass and the event pass for pool `1` each return the single arb of the example,
whose profit 330 exceeds the threshold 1; in both branches the test
`len(arbTxs) <= 1` then takes the branch that logs "No Arbs", and nothing is
handed to the executor. -/
theorem single_arb_not_submitted :
    (periodicPass exampleConfig exampleState.allMarketReserves exampleState).map Prod.fst
        = some [exampleArb]
      ∧ exampleArb.Profit > exampleConfig.MIN_PROFIT_WEI
      ∧ (periodicBranch exampleConfig exampleState.allMarketReserves exampleState).map Prod.fst
          = some none
      ∧ ((updateReservesByEvent exampleConfig ⟨1, 1000, 2000⟩ exampleState).bind
          (fun r => evaluateMarketsRecursive exampleConfig false r.1 0 r.2)).map Prod.fst
          = some [exampleArb]
      ∧ (eventBranch exampleConfig ⟨1, 1000, 2000⟩ exampleState).map Prod.fst = some none
      ∧ submission [exampleArb] = none
      ∧ submission [exampleArb, exampleArb] = some [exampleArb, exampleArb] := by
  decide!

/-! ## The search leaves the reserves as it found them -/

theorem addAt_getElem? (idx : Nat) (e : Int × Int) (v : List (Int × Int)) (n : Nat) :
    (addAt idx e v)[n]?
      = (v[n]?).map (fun pr => if idx = n then (pr.1 + e.1, pr.2 + e.2) else pr) := by
  unfold addAt
  rw [List.getElem?_modify]
  rfl

theorem addAt_comm (i j : Nat) (e f : Int × Int) (v : List (Int × Int)) :
    addAt i e (addAt j f v) = addAt j f (addAt i e v) := by
  apply List.ext_getElem?
  intro n
  simp only [addAt_getElem?, Option.map_map]
  cases v[n]? with
  | none => rfl
  | some pr =>
    by_cases h1 : i = n <;> by_cases h2 : j = n <;> simp [h1, h2, add_right_comm]

theorem addAt_cancel (i : Nat) (e : Int × Int) (v : List (Int × Int)) :
    addAt i (-e.1, -e.2) (addAt i e v) = v := by
  apply List.ext_getElem?
  intro n
  simp only [addAt_getElem?, Option.map_map]
  cases v[n]? with
  | none => rfl
  | some pr =>
    by_cases h1 : i = n <;> simp [h1]

theorem addAt_zero (i : Nat) (v : List (Int × Int)) : addAt i (0, 0) v = v := by
  apply List.ext_getElem?
  intro n
  simp only [addAt_getElem?]
  cases v[n]? with
  | none => rfl
  | some pr =>
    by_cases h1 : i = n <;> simp [h1]

theorem addAt_applyMoves (i : Nat) (e : Int × Int) :
    ∀ (moves : List (Nat × (Int × Int))) (v : List (Int × Int)),
      addAt i e (applyMoves moves v) = applyMoves moves (addAt i e v) := by
  intro moves
  induction moves with
  | nil => intro v; rfl
  | cons m rest ih =>
    intro v
    simp only [applyMoves]
    rw [ih, addAt_comm]

/-- The opposite additions, made in the same order, undo a sequence of
additions. -/
theorem applyMoves_cancel :
    ∀ (moves : List (Nat × (Int × Int))) (v : List (Int × Int)),
      applyMoves (moves.map negMove) (applyMoves moves v) = v := by
  intro moves
  induction moves with
  | nil => intro v; rfl
  | cons m rest ih =>
    intro v
    simp only [List.map_cons, applyMoves]
    rw [addAt_applyMoves, ih]
    exact addAt_cancel m.1 m.2 v

theorem legMove_neg (found : Bool) (idx jn jt : Nat) (cn ct : Int) :
    legMove found idx jn jt (-cn) (-ct) = negMove (legMove found idx jn jt cn ct) := by
  unfold legMove negMove
  cases found
  · simp
  · simp only [if_true, slotDelta_neg]
    congr 2 <;> ring

theorem buyMove_undo (cfg : Config) (s : State) (arb : Arb) (buy : UniswappyV2Pair) :
    buyMove cfg s true arb buy = negMove (buyMove cfg s false arb buy) := by
  unfold buyMove
  cases tokenAddressOf buy with
  | none => simp [negMove]
  | some q =>
    simp only [if_true, Bool.false_eq_true, if_false]
    rw [← legMove_neg, neg_neg]

theorem sellMove_undo (cfg : Config) (s : State) (arb : Arb) (sell : UniswappyV2Pair) :
    sellMove cfg s true arb sell = negMove (sellMove cfg s false arb sell) := by
  unfold sellMove
  cases tokenAddressOf sell with
  | none => simp [negMove]
  | some q =>
    simp only [if_true, Bool.false_eq_true, if_false]
    rw [← legMove_neg, neg_neg]

theorem movesOf_undo (cfg : Config) (s : State) :
    ∀ arbs : List (Arb × CrossedMarket),
      movesOf cfg s true arbs = (movesOf cfg s false arbs).map negMove := by
  intro arbs
  induction arbs with
  | nil => rfl
  | cons x rest ih =>
    obtain ⟨arb, cm⟩ := x
    simp only [movesOf, List.map_cons, ih, buyMove_undo, sellMove_undo]

theorem view_modify_legShift (jn jt : Nat) (cn ct : Int) (idx : Nat) (rows : List ReserveRow) :
    (List.modify (legShift jn jt cn ct) idx rows).map (fun row => (row.r0, row.r1))
      = addAt idx (slotDelta jn 0 cn + slotDelta jt 0 ct, slotDelta jn 1 cn + slotDelta jt 1 ct)
          (rows.map (fun row => (row.r0, row.r1))) := by
  apply List.ext_getElem?
  intro n
  rw [addAt_getElem?, List.getElem?_map, List.getElem?_map, List.getElem?_modify]
  cases rows[n]? with
  | none => rfl
  | some row =>
    by_cases h : idx = n <;> simp [h, legShift]

theorem repriceAt_rows (cfg : Config) (s s' : State) (q : Address) (c : Nat)
    (p : UniswappyV2Pair) (h : repriceAt cfg s q c p = some s') :
    s'.allMarketReserves = s.allMarketReserves := by
  obtain ⟨_, _, sell, buy, _, _, _, _, rfl⟩ := repriceAt_eq cfg s s' q c p h
  rfl

theorem findMarket_isSome_shape (s t : State) (a q : Address) (h : shapeOf t = shapeOf s) :
    (findMarket a (pairsOf t q) 0).isSome = (findMarket a (pairsOf s q) 0).isSome := by
  cases hs : findMarket a (pairsOf s q) 0 with
  | some r =>
    obtain ⟨c, p⟩ := r
    obtain ⟨p', hp', _⟩ := findMarket_shape a (pairsOf s q) (pairsOf t q) 0 c p
      (pairsOf_shape s t q h) hs
    rw [hp']
    rfl
  | none =>
    cases ht : findMarket a (pairsOf t q) 0 with
    | none => rfl
    | some r =>
      obtain ⟨c, p⟩ := r
      obtain ⟨p', hp', _⟩ := findMarket_shape a (pairsOf t q) (pairsOf s q) 0 c p
        (pairsOf_shape t s q h.symm) ht
      rw [hs] at hp'
      exact absurd hp' (by simp)

theorem buyMove_shape (cfg : Config) (s t : State) (isUndo : Bool) (arb : Arb)
    (buy : UniswappyV2Pair) (h : shapeOf t = shapeOf s) :
    buyMove cfg t isUndo arb buy = buyMove cfg s isUndo arb buy := by
  unfold buyMove
  cases tokenAddressOf buy with
  | none => rfl
  | some q =>
    simp only
    rw [findMarket_isSome_shape s t buy.MarketAdress q h]

theorem sellMove_shape (cfg : Config) (s t : State) (isUndo : Bool) (arb : Arb)
    (sell : UniswappyV2Pair) (h : shapeOf t = shapeOf s) :
    sellMove cfg t isUndo arb sell = sellMove cfg s isUndo arb sell := by
  unfold sellMove
  cases tokenAddressOf sell with
  | none => rfl
  | some q =>
    simp only
    rw [findMarket_isSome_shape s t sell.MarketAdress q h]

/-- The effect of the buy leg on the two reserves of every row. -/
theorem updateBuyLeg_view (cfg : Config) (arb : Arb) (buy : UniswappyV2Pair) (isUndo : Bool)
    (t t' : State) (h : updateBuyLeg cfg arb buy isUndo t = some t') :
    reservesView t'
      = addAt (buyMove cfg t isUndo arb buy).1 (buyMove cfg t isUndo arb buy).2
          (reservesView t) := by
  cases htok : tokenAddressOf buy with
  | none =>
    unfold updateBuyLeg at h
    simp [htok] at h
  | some q =>
    cases hf : findMarket buy.MarketAdress (pairsOf t q) 0 with
    | none =>
      unfold updateBuyLeg at h
      simp only [htok, hf, Option.some.injEq] at h
      subst h
      simp only [buyMove, htok, hf, legMove, Option.isSome_none, Bool.false_eq_true, if_false]
      exact (addAt_zero _ _).symm
    | some r =>
      obtain ⟨c, p⟩ := r
      obtain ⟨⟨row, hrow⟩, hjn, hjt, D, hD⟩ :=
        updateBuyLeg_pre cfg arb buy isUndo t t' q c p htok hf h
      have e := updateBuyLeg_eq cfg arb buy isUndo t q c p row D htok hf hrow hjn hjt hD
      rw [h] at e
      have hr := repriceAt_rows _ _ _ _ _ _ e.symm
      unfold reservesView
      rw [hr]
      simp only [buyMove, htok, hf, hD, Option.isSome_some, legMove, if_true, Option.getD_some]
      exact view_modify_legShift _ _ _ _ _ _

/-- The effect of the sell leg on the two reserves of every row. -/
theorem updateSellLeg_view (cfg : Config) (arb : Arb) (sell : UniswappyV2Pair) (isUndo : Bool)
    (t t' : State) (h : updateSellLeg cfg arb sell isUndo t = some t') :
    reservesView t'
      = addAt (sellMove cfg t isUndo arb sell).1 (sellMove cfg t isUndo arb sell).2
          (reservesView t) := by
  cases htok : tokenAddressOf sell with
  | none =>
    unfold updateSellLeg at h
    simp [htok] at h
  | some q =>
    cases hf : findMarket sell.MarketAdress (pairsOf t q) 0 with
    | none =>
      unfold updateSellLeg at h
      simp only [htok, hf, Option.some.injEq] at h
      subst h
      simp only [sellMove, htok, hf, legMove, Option.isSome_none, Bool.false_eq_true, if_false]
      exact (addAt_zero _ _).symm
    | some r =>
      obtain ⟨c, p⟩ := r
      obtain ⟨⟨row, hrow⟩, hjn, hjt, D, hD⟩ :=
        updateSellLeg_pre cfg arb sell isUndo t t' q c p htok hf h
      have e := updateSellLeg_eq cfg arb sell isUndo t q c p row D htok hf hrow hjn hjt hD
      rw [h] at e
      have hr := repriceAt_rows _ _ _ _ _ _ e.symm
      unfold reservesView
      rw [hr]
      simp only [sellMove, htok, hf, hD, Option.isSome_some, legMove, if_true, Option.getD_some]
      exact view_modify_legShift _ _ _ _ _ _

/-- A run of `updateReserveByArb` calls adds to the reserves what `movesOf` reads
off the registry, and leaves addresses, reverse index and registry shape
alone. -/
theorem applyArbs_view (cfg : Config) (s0 : State) (isUndo : Bool) :
    ∀ (arbs : List (Arb × CrossedMarket)) (t t' : State),
      shapeOf t = shapeOf s0 → applyArbs cfg isUndo arbs t = some t' →
        reservesView t' = applyMoves (movesOf cfg s0 isUndo arbs) (reservesView t)
          ∧ shapeOf t' = shapeOf s0
          ∧ t'.allMarketAddresses = t.allMarketAddresses
          ∧ t'.marketMapping = t.marketMapping := by
  intro arbs
  induction arbs with
  | nil =>
    intro t t' hsh h
    simp only [applyArbs, Option.some.injEq] at h
    subst h
    exact ⟨rfl, hsh, rfl, rfl⟩
  | cons x rest ih =>
    intro t t' hsh h
    obtain ⟨arb, cm⟩ := x
    rw [applyArbs] at h
    cases h1 : updateReserveByArb cfg arb cm isUndo t with
    | none => simp [h1] at h
    | some t1 =>
      simp only [h1] at h
      have hframe := updateReserveByArb_frame cfg arb cm isUndo t t1 h1
      unfold updateReserveByArb at h1
      cases hb : updateBuyLeg cfg arb cm.2 isUndo t with
      | none => simp [hb] at h1
      | some ta =>
        simp only [hb] at h1
        have fb := updateBuyLeg_frame cfg arb cm.2 isUndo t ta hb
        have vb := updateBuyLeg_view cfg arb cm.2 isUndo t ta hb
        have vs := updateSellLeg_view cfg arb cm.1 isUndo ta t1 h1
        rw [buyMove_shape cfg s0 t isUndo arb cm.2 hsh] at vb
        rw [sellMove_shape cfg s0 ta isUndo arb cm.1 (fb.2.2.trans hsh)] at vs
        obtain ⟨i1, i2, i3, i4⟩ := ih t1 t' (hframe.2.2.trans hsh) h
        refine ⟨?_, i2, i3.trans hframe.1, i4.trans hframe.2.1⟩
        rw [i1, vs, vb]
        rfl

theorem reservesView_rows (s s' : State) (h : reservesView s' = reservesView s) :
    s'.allMarketReserves.length = s.allMarketReserves.length
      ∧ ∀ (j : Nat) (row : ReserveRow), s.allMarketReserves[j]? = some row →
          ∃ row', s'.allMarketReserves[j]? = some row' ∧ row'.r0 = row.r0 ∧ row'.r1 = row.r1 := by
  unfold reservesView at h
  refine ⟨?_, ?_⟩
  · have := congrArg List.length h
    simpa using this
  · intro j row hj
    have hg : (s'.allMarketReserves.map (fun row => (row.r0, row.r1)))[j]?
        = (s.allMarketReserves.map (fun row => (row.r0, row.r1)))[j]? := by rw [h]
    rw [List.getElem?_map, List.getElem?_map, hj] at hg
    cases hr : s'.allMarketReserves[j]? with
    | none => simp [hr] at hg
    | some row' =>
      simp only [hr, Option.map_some', Option.some.injEq, Prod.mk.injEq] at hg
      exact ⟨row', rfl, hg.1, hg.2⟩

/-- Apply, search deeper, undo: when the deeper search leaves the reserves and
the registry shape alone, so does the whole. -/
theorem apply_search_undo (cfg : Config) (arbs : List (Arb × CrossedMarket))
    (s s1 s2 s3 : State)
    (h1 : applyArbs cfg false arbs s = some s1)
    (hv : reservesView s2 = reservesView s1) (hsh : shapeOf s2 = shapeOf s1)
    (ha : s2.allMarketAddresses = s1.allMarketAddresses)
    (hm : s2.marketMapping = s1.marketMapping)
    (h3 : applyArbs cfg true arbs s2 = some s3) :
    reservesView s3 = reservesView s ∧ shapeOf s3 = shapeOf s
      ∧ s3.allMarketAddresses = s.allMarketAddresses
      ∧ s3.marketMapping = s.marketMapping := by
  obtain ⟨a1, a2, a3, a4⟩ := applyArbs_view cfg s false arbs s s1 rfl h1
  obtain ⟨b1, b2, b3, b4⟩ := applyArbs_view cfg s true arbs s2 s3 (hsh.trans a2) h3
  refine ⟨?_, b2, by rw [b3, ha, a3], by rw [b4, hm, a4]⟩
  rw [b1, hv, a1, movesOf_undo]
  exact applyMoves_cancel _ _

theorem evaluateMarketsRecursive_frame (cfg : Config) (token : Address) :
    ∀ (n : Nat) (depth : Int), (100 - depth).toNat = n →
      ∀ (isFollowUp : Bool) (s : State) (arbs : List Arb) (s' : State),
        evaluateMarketsRecursive cfg isFollowUp token depth s = some (arbs, s') →
        reservesView s' = reservesView s ∧ shapeOf s' = shapeOf s
          ∧ s'.allMarketAddresses = s.allMarketAddresses
          ∧ s'.marketMapping = s.marketMapping := by
  intro n
  induction n using Nat.strong_induction_on with
  | _ n ih =>
    intro depth hn isFollowUp s arbs s' h
    rw [evaluateMarketsRecursive] at h
    split at h
    · exact absurd h (by simp)
    · rename_i found hfound
      dsimp only at h
      split at h
      · rename_i hc
        split at h
        · exact absurd h (by simp)
        · rename_i s1 hs1
          split at h
          · exact absurd h (by simp)
          · rename_i followUpArbs s2 hrec
            split at h
            · exact absurd h (by simp)
            · rename_i s3 hs3
              simp only [Option.some.injEq, Prod.mk.injEq] at h
              obtain ⟨_, rfl⟩ := h
              obtain ⟨r1, r2, r3, r4⟩ := ih (100 - (depth + 1)).toNat (by omega) (depth + 1)
                rfl true s1 followUpArbs s2 hrec
              exact apply_search_undo cfg found.toList s s1 s2 _ hs1 r1 r2 r3 r4 hs3
      · simp only [Option.some.injEq, Prod.mk.injEq] at h
        obtain ⟨_, rfl⟩ := h
        exact ⟨rfl, rfl, rfl, rfl⟩

theorem evaluateMarketsRecursiveAll_frame (cfg : Config) :
    ∀ (n : Nat) (depth : Int), (100 - depth).toNat = n →
      ∀ (isFollowUp : Bool) (s : State) (arbs : List Arb) (s' : State),
        evaluateMarketsRecursiveAll cfg isFollowUp depth s = some (arbs, s') →
        reservesView s' = reservesView s ∧ shapeOf s' = shapeOf s
          ∧ s'.allMarketAddresses = s.allMarketAddresses
          ∧ s'.marketMapping = s.marketMapping := by
  intro n
  induction n using Nat.strong_induction_on with
  | _ n ih =>
    intro depth hn isFollowUp s arbs s' h
    rw [evaluateMarketsRecursiveAll] at h
    split at h
    · exact absurd h (by simp)
    · rename_i level hlevel
      split at h
      · rename_i hc
        split at h
        · exact absurd h (by simp)
        · rename_i s1 hs1
          split at h
          · exact absurd h (by simp)
          · rename_i followUpArbs s2 hrec
            split at h
            · exact absurd h (by simp)
            · rename_i s3 hs3
              simp only [Option.some.injEq, Prod.mk.injEq] at h
              obtain ⟨_, rfl⟩ := h
              obtain ⟨r1, r2, r3, r4⟩ := ih (100 - (depth + 1)).toNat (by omega) (depth + 1)
                rfl true s1 followUpArbs s2 hrec
              exact apply_search_undo cfg level s s1 s2 _ hs1 r1 r2 r3 r4 hs3
      · simp only [Option.some.injEq, Prod.mk.injEq] at h
        obtain ⟨_, rfl⟩ := h
        exact ⟨rfl, rfl, rfl, rfl⟩

/-- C25: whenever `evaluateMarketsRecursive` or `evaluateMarketsRecursiveAll`
returns, the reserve vector has the length it had before the call and every row
has the `r0` and the `r1` it had before the call (its freshness slot may differ);
the address list, the reverse index and the registry up to cached prices are
unchanged as well. -/
theorem search_restores_reserves (cfg : Config) (isFollowUp : Bool) (depth : Int) (s : State) :
    (∀ (token : Address) (arbs : List Arb) (s' : State),
        evaluateMarketsRecursive cfg isFollowUp token depth s = some (arbs, s') →
        s'.allMarketReserves.length = s.allMarketReserves.length
          ∧ (∀ (j : Nat) (row : ReserveRow), s.allMarketReserves[j]? = some row →
              ∃ row', s'.allMarketReserves[j]? = some row'
                ∧ row'.r0 = row.r0 ∧ row'.r1 = row.r1)
          ∧ s'.allMarketAddresses = s.allMarketAddresses
          ∧ s'.marketMapping = s.marketMapping ∧ shapeOf s' = shapeOf s)
      ∧ ∀ (arbs : List Arb) (s' : State),
          evaluateMarketsRecursiveAll cfg isFollowUp depth s = some (arbs, s') →
          s'.allMarketReserves.length = s.allMarketReserves.length
            ∧ (∀ (j : Nat) (row : ReserveRow), s.allMarketReserves[j]? = some row →
                ∃ row', s'.allMarketReserves[j]? = some row'
                  ∧ row'.r0 = row.r0 ∧ row'.r1 = row.r1)
            ∧ s'.allMarketAddresses = s.allMarketAddresses
            ∧ s'.marketMapping = s.marketMapping ∧ shapeOf s' = shapeOf s := by
  refine ⟨?_, ?_⟩
  · intro token arbs s' h
    obtain ⟨r1, r2, r3, r4⟩ :=
      evaluateMarketsRecursive_frame cfg token _ depth rfl isFollowUp s arbs s' h
    obtain ⟨g1, g2⟩ := reservesView_rows s s' r1
    exact ⟨g1, g2, r3, r4, r2⟩
  · intro arbs s' h
    obtain ⟨r1, r2, r3, r4⟩ :=
      evaluateMarketsRecursiveAll_frame cfg _ depth rfl isFollowUp s arbs s' h
    obtain ⟨g1, g2⟩ := reservesView_rows s s' r1
    exact ⟨g1, g2, r3, r4, r2⟩

/-- C25 at the registry of three pools: the search over all tokens returns five
arbs, each follow-up found on reserves changed by the arbs before it, and returns
the registry with the reserves it had. -/
theorem search_restores_reserves_witness :
    ∃ arbs, evaluateMarketsRecursiveAll exampleConfig false 0 triState = some (arbs, triState)
      ∧ arbs.length = 5
      ∧ triState.allMarketReserves.length = triState.allMarketReserves.length
      ∧ ∀ (j : Nat) (row : ReserveRow), triState.allMarketReserves[j]? = some row →
          ∃ row', triState.allMarketReserves[j]? = some row'
            ∧ row'.r0 = row.r0 ∧ row'.r1 = row.r1 := by
  obtain ⟨r, h⟩ : ∃ r, evaluateMarketsRecursiveAll exampleConfig false 0 triState = some r :=
    Option.isSome_iff_exists.1 (by decide!)
  have h2 : (evaluateMarketsRecursiveAll exampleConfig false 0 triState).map
      (fun r => (r.1.length, r.2)) = some (5, triState) := by decide!
  rw [h] at h2
  simp only [Option.map_some', Option.some.injEq, Prod.mk.injEq] at h2
  have h3 : evaluateMarketsRecursiveAll exampleConfig false 0 triState
      = some (r.1, triState) := by rw [h, ← h2.2]
  exact ⟨r.1, h3, h2.1,
    ((search_restores_reserves exampleConfig false 0 triState).2 r.1 triState h3).1,
    ((search_restores_reserves exampleConfig false 0 triState).2 r.1 triState h3).2.1⟩

/-! ## Depth and order of the follow-ups -/

theorem applyArbs_single (cfg : Config) (isUndo : Bool) (arb : Arb) (cm : CrossedMarket)
    (s : State) :
    applyArbs cfg isUndo [(arb, cm)] s = updateReserveByArb cfg arb cm isUndo s := by
  simp only [applyArbs]
  cases updateReserveByArb cfg arb cm isUndo s <;> rfl

theorem evaluateMarketsRecursive_depth (cfg : Config) (token : Address) :
    ∀ (n : Nat) (depth : Int), (100 - depth).toNat = n →
      ∀ (isFollowUp : Bool) (s : State) (arbs : List Arb) (s' : State),
        evaluateMarketsRecursive cfg isFollowUp token depth s = some (arbs, s') →
        arbs.length ≤ n + 1 ∧ DepthOrdered cfg token depth isFollowUp s arbs := by
  intro n
  induction n using Nat.strong_induction_on with
  | _ n ih =>
    intro depth hn isFollowUp s arbs s' h
    rw [evaluateMarketsRecursive] at h
    split at h
    · exact absurd h (by simp)
    · rename_i found hfound
      dsimp only at h
      split at h
      · rename_i hc
        cases found with
        | none => simp at hc
        | some x =>
          obtain ⟨arb, cm⟩ := x
          simp only [Option.toList_some, applyArbs_single] at h
          split at h
          · exact absurd h (by simp)
          · rename_i s1 hs1
            split at h
            · exact absurd h (by simp)
            · rename_i followUpArbs s2 hrec
              split at h
              · exact absurd h (by simp)
              · simp only [Option.some.injEq, Prod.mk.injEq] at h
                obtain ⟨rfl, _⟩ := h
                obtain ⟨g1, g2⟩ := ih (100 - (depth + 1)).toNat (by omega) (depth + 1) rfl
                  true s1 followUpArbs s2 hrec
                refine ⟨?_, ?_⟩
                · simp only [List.map_cons, List.map_nil, List.singleton_append,
                    List.length_cons]
                  omega
                · exact DepthOrdered.step depth isFollowUp s s1 arb cm followUpArbs hfound
                    hc.2 hs1 g2
      · rename_i hc
        simp only [Option.some.injEq, Prod.mk.injEq] at h
        obtain ⟨rfl, _⟩ := h
        cases found with
        | none =>
          exact ⟨by simp, DepthOrdered.empty depth isFollowUp s hfound⟩
        | some x =>
          obtain ⟨arb, cm⟩ := x
          refine ⟨by simp, DepthOrdered.last depth isFollowUp s arb cm hfound ?_⟩
          intro hd
          exact hc ⟨by simp, hd⟩

/-- C26: `evaluateMarketsRecursive` is a total function: the recursive call is
made only while `depth < 100`, at `depth + 1`.  Whenever the call at depth 0
returns (it does unless a step of the search panics), it returns at most 101
arbs, and the list is ordered by depth: its first arb is the one found at depth
0 on the state of the call, and each later arb is the one found one level
deeper, on the state with the arbs before it applied. -/
theorem recursion_bounded (cfg : Config) (isFollowUp : Bool) (token : Address) (s : State) :
    ∀ (arbs : List Arb) (s' : State),
      evaluateMarketsRecursive cfg isFollowUp token 0 s = some (arbs, s') →
      arbs.length ≤ 101 ∧ DepthOrdered cfg token 0 isFollowUp s arbs := by
  intro arbs s' h
  have := evaluateMarketsRecursive_depth cfg token _ 0 rfl isFollowUp s arbs s' h
  exact ⟨by simpa using this.1, this.2⟩

/-- C26 at the registry of three pools: the search returns five arbs, ordered by
depth. -/
theorem recursion_bounded_witness :
    ∃ arbs, evaluateMarketsRecursive exampleConfig false 7 0 triState = some (arbs, triState)
      ∧ arbs.length = 5 ∧ arbs.length ≤ 101
      ∧ DepthOrdered exampleConfig 7 0 false triState arbs := by
  obtain ⟨r, h⟩ : ∃ r, evaluateMarketsRecursive exampleConfig false 7 0 triState = some r :=
    Option.isSome_iff_exists.1 (by decide!)
  have h2 : (evaluateMarketsRecursive exampleConfig false 7 0 triState).map
      (fun r => (r.1.length, r.2)) = some (5, triState) := by decide!
  rw [h] at h2
  simp only [Option.map_some', Option.some.injEq, Prod.mk.injEq] at h2
  have h3 : evaluateMarketsRecursive exampleConfig false 7 0 triState
      = some (r.1, triState) := by rw [h, ← h2.2]
  exact ⟨r.1, h3, h2.1, (recursion_bounded exampleConfig false 7 triState r.1 triState h3).1,
    (recursion_bounded exampleConfig false 7 triState r.1 triState h3).2⟩

end MetisArb
